import Mathlib

/-!
# Remote-helper protocol engine: capability, ref and command wire formats

A shallow embedding of the Go package `gitremote` (capabilities.go, ref.go,
command_parser.go, runner.go).

Conventions of the embedding:
* a Go `string` is a `List Char` (`Str`); every delimiter the package looks at
  (newline, space, colon, plus) is a single ASCII element of the string;
* a `bytes.Buffer` is the list of characters written so far; its `WriteRune`
  and `WriteString` always return a nil error, so the local `err` of the
  `writeTo` methods stays nil until the final `buf.WriteTo(w)`, and the value
  of a `writeTo` below is the text handed to `w`;
* the inbound `bufio.Reader` is the list of characters not yet consumed; when
  the list is exhausted the reader reports `io.EOF`.
-/

namespace GitRemote

/-- A Go string, as the sequence of its elements. -/
abbrev Str := List Char

/-! ## capabilities.go -/

/-- The `Capability` bit-mask type (`type Capability uint`). -/
abbrev Capability := Nat

def CapConnect : Capability := 1 <<< 0
def CapPush : Capability := 1 <<< 1
def CapFetch : Capability := 1 <<< 2
def CapExport : Capability := 1 <<< 3
def CapImport : Capability := 1 <<< 4
def CapOption : Capability := 1 <<< 5
def CapRefspec : Capability := 1 <<< 6
def CapBidiImport : Capability := 1 <<< 7
def CapExportMarks : Capability := 1 <<< 8
def CapImportMarks : Capability := 1 <<< 9
def CapNoPrivateUpdate : Capability := 1 <<< 10
def CapCheckConnectivity : Capability := 1 <<< 11
def CapSignedTags : Capability := 1 <<< 12

/-- The method `Capability.String`; `none` stands for the
`panic("unknown Capability")` of the default case. -/
def Capability.String (c : Capability) : Option Str :=
  if c = CapConnect then some "connect".toList
  else if c = CapPush then some "push".toList
  else if c = CapFetch then some "fetch".toList
  else if c = CapExport then some "export".toList
  else if c = CapImport then some "import".toList
  else if c = CapOption then some "option".toList
  else if c = CapRefspec then some "refspec".toList
  else if c = CapBidiImport then some "bidi-import".toList
  else if c = CapExportMarks then some "export-marks".toList
  else if c = CapImportMarks then some "import-marks".toList
  else if c = CapNoPrivateUpdate then some "no-private-update".toList
  else if c = CapCheckConnectivity then some "check-connectivity".toList
  else if c = CapSignedTags then some "signed-tags".toList
  else none

structure Capabilities where
  Optional : Capability
  Mandatory : Capability
  Refspecs : List Str
  ExportMarks : Str
  ImportMarks : Str
deriving DecidableEq, Repr

/-- The closure `writeRune` of the `writeTo` methods, on the buffer. -/
def writeRune (r : Char) (buf : Str) : Str := buf ++ [r]

/-- The closure `writeString` of the `writeTo` methods, on the buffer. -/
def writeString (s : Str) (buf : Str) : Str := buf ++ s

/-- The closure `callExtra`: a nil `extra` is `none`. -/
def callExtra (extra : Option (Str → Str)) (buf : Str) : Str :=
  match extra with
  | none => buf
  | some f => f buf

/-- The closure `writeCap` of `Capabilities.writeTo`. The result is `none`
when `cap.String()` panics. -/
def writeCap (c : Capabilities) (cap : Capability) (extra : Option (Str → Str))
    (buf : Str) : Option Str :=
  if c.Mandatory &&& cap = cap then
    (Capability.String cap).map fun name =>
      writeRune '\n' (callExtra extra (writeString name (writeRune '*' buf)))
  else if c.Optional &&& cap = cap then
    (Capability.String cap).map fun name =>
      writeRune '\n' (callExtra extra (writeString name buf))
  else
    some buf

/-- The loop `for _, refspec := range c.Refspecs` of `Capabilities.writeTo`. -/
def writeRefspecs (c : Capabilities) : List Str → Str → Option Str
  | [], buf => some buf
  | refspec :: rest, buf =>
    (writeCap c CapRefspec (some fun b => writeString refspec (writeRune ' ' b)) buf).bind
      (writeRefspecs c rest)

/-- The method `Capabilities.writeTo`: the text written to `w`. -/
def Capabilities.writeTo (c : Capabilities) : Option Str := do
  let buf : Str := []
  let buf ← writeCap c CapConnect none buf
  let buf ← writeCap c CapPush none buf
  let buf ← writeCap c CapFetch none buf
  let buf ← writeCap c CapExport none buf
  let buf ← writeCap c CapImport none buf
  let buf ← writeCap c CapOption none buf
  let buf ← writeCap c CapBidiImport none buf
  let buf ← writeCap c CapExportMarks
    (some fun b => writeString c.ExportMarks (writeRune ' ' b)) buf
  let buf ← writeCap c CapImportMarks
    (some fun b => writeString c.ImportMarks (writeRune ' ' b)) buf
  let buf ← writeRefspecs c c.Refspecs buf
  some (writeRune '\n' buf)

/-! ## ref.go -/

structure ListRef where
  Name : Str
  Hash : Str
  Sym : Str
  Unchanged : Bool
deriving DecidableEq, Repr

/-- A push request; `Err` is the message `Err.Error()` of a non-nil error. -/
structure PushRef where
  Src : Str
  Dst : Str
  Force : Bool
  Ok : Bool
  Err : Option Str
deriving DecidableEq, Repr

/-- The closure `writeRef` of `listRefSlice.writeTo`. -/
def listRefSlice.writeRef (ref : ListRef) (buf : Str) : Str :=
  let buf :=
    if ref.Hash ≠ [] then writeString ref.Hash buf
    else if ref.Sym ≠ [] then writeString ref.Sym (writeRune '@' buf)
    else writeRune '?' buf
  let buf := writeString ref.Name (writeRune ' ' buf)
  let buf :=
    if ref.Unchanged then writeString "unchanged".toList (writeRune ' ' buf) else buf
  writeRune '\n' buf

/-- The method `listRefSlice.writeTo`: the text written to `w`. -/
def listRefSlice.writeTo (r : List ListRef) : Str :=
  writeRune '\n' (r.foldl (fun buf ref => listRefSlice.writeRef ref buf) [])

/-- The closure `writeRef` of `pushRefSlice.writeTo`. -/
def pushRefSlice.writeRef (ref : PushRef) (buf : Str) : Str :=
  let buf :=
    if ref.Ok then writeString ref.Dst (writeString "ok ".toList buf)
    else
      let buf := writeString ref.Dst (writeString "error ".toList buf)
      match ref.Err with
      | some msg => writeString msg (writeRune ' ' buf)
      | none => buf
  writeRune '\n' buf

/-- The method `pushRefSlice.writeTo`: the text written to `w`. -/
def pushRefSlice.writeTo (r : List PushRef) : Str :=
  writeRune '\n' (r.foldl (fun buf ref => pushRefSlice.writeRef ref buf) [])

/-! ## Go standard library functions used by the decoder -/

/-- The function `strings.HasPrefix`. -/
def HasPrefix (s pre : Str) : Bool := pre.isPrefixOf s

/-- The function `strings.TrimSuffix`. -/
def TrimSuffix (s suffix : Str) : Str :=
  if suffix.isSuffixOf s then s.take (s.length - suffix.length) else s

/-- The function `strings.Index` for a one-element separator, as the pair of
the text before the first occurrence of `sep` and the text after it; `none`
when `sep` does not occur (`Index` returns -1). -/
def Cut : Str → Char → Option (Str × Str)
  | [], _ => none
  | c :: cs, sep =>
    if c = sep then some ([], cs)
    else (Cut cs sep).map fun p => (c :: p.1, p.2)

/-- The function `strings.SplitN` for a one-element separator and `n ≥ 0`:
at most `n` pieces, the last one being the unsplit remainder. (The library
first lowers `n` to `len(s) + 1`, which no result depends on: a string has
at most `len(s) + 1` pieces.) -/
def SplitN : Str → Char → Nat → List Str
  | _, _, 0 => []
  | s, _, 1 => [s]
  | s, sep, n + 2 =>
    match Cut s sep with
    | none => [s]
    | some (a, rest) => a :: SplitN rest sep (n + 1)

/-- The function `strings.Split` for a one-element separator: `SplitN` with
`n = Count(s, sep) + 1`. -/
def Split (s : Str) (sep : Char) : List Str := SplitN s sep (s.count sep + 1)

/-- The method `bufio.Reader.ReadString`: the text up to and including the
first `delim`, the error, and the reader after the call. When the input ends
before a `delim` is found the text read so far is returned with `io.EOF`. -/
def ReadString : Str → Char → Str × Bool × Str
  | [], _ => ([], true, [])
  | c :: cs, delim =>
    if c = delim then ([c], false, cs)
    else
      let r := ReadString cs delim
      (c :: r.1, r.2.1, r.2.2)

/-- The Go map `map[string]string` as an association list with unique keys. -/
abbrev StrMap := List (Str × Str)

/-- The map assignment `m[k] = v`. -/
def StrMap.set : StrMap → Str → Str → StrMap
  | [], k, v => [(k, v)]
  | (k', v') :: m, k, v =>
    if k' = k then (k, v) :: m else (k', v') :: StrMap.set m k v

/-- The map lookup `m[k]`, `none` when the key is absent. -/
def StrMap.get : StrMap → Str → Option Str
  | [], _ => none
  | (k', v') :: m, k => if k' = k then some v' else StrMap.get m k

/-! ## commands.go: the command variants -/

structure CmdFetch where
  Objects : StrMap
deriving DecidableEq, Repr

structure CmdPush where
  Refs : List PushRef
  Options : List Str
deriving DecidableEq, Repr

structure CmdImport where
  Names : List Str
deriving DecidableEq, Repr

/-- The implementations of the interface `Command`. The `Config` field and
the embedded session `Reader` and `Writer` are the same for every command of
a session and are left out. -/
inductive Command where
  | Unknown (Line : Str)
  | Capabilities
  | List (ForPush : Bool)
  | Option (Key Value : Str)
  | Fetch (c : CmdFetch)
  | Push (c : CmdPush)
  | Import (c : CmdImport)
  | Export
  | Connect (Service : Str)
deriving DecidableEq, Repr

/-! ## command_parser.go -/

/-- The error values the decoder and the runner deal with: `io.EOF`,
`io.ErrUnexpectedEOF`, a value of the type `ErrInvalidCommand`, the variable
`ErrUnsupportedOption` of runner.go, and any other error value, given by the
text of its `Error()`. -/
inductive Err where
  | EOF
  | ErrUnexpectedEOF
  | ErrInvalidCommand (line : Str)
  | ErrUnsupportedOption
  | other (msg : Str)
deriving DecidableEq, Repr

/-- The method `Error` of an error value. `Quote` is the formatting `%q` of
the package `fmt`, which `ErrInvalidCommand.Error` uses. -/
def Err.Error (Quote : Str → Str) : Err → Str
  | .EOF => "EOF".toList
  | .ErrUnexpectedEOF => "unexpected EOF".toList
  | .ErrInvalidCommand line => "invalid command: ".toList ++ Quote line
  | .ErrUnsupportedOption => "unsupported option".toList
  | .other msg => msg

/-- The pair `(Command, error)` returned by `readCommand`. -/
inductive Result where
  | ok (cmd : Command)
  | error (err : Err)
deriving DecidableEq, Repr

/-- The local variables `state`, `cmd`, `fetchCmd`, `pushCmd`, `importCmd` of
`readCommand`: in state 1 `cmd` and `fetchCmd` point to the same `CmdFetch`,
in state 2 `cmd` and `pushCmd` to the same `CmdPush`, in state 3 `cmd` and
`importCmd` to the same `CmdImport`; in state 0 all of them are nil. -/
inductive ParseState where
  | root
  | fetch (fetchCmd : CmdFetch)
  | push (pushCmd : CmdPush)
  | imp (importCmd : CmdImport)
deriving DecidableEq, Repr

/-- The block that decodes a `push ` line, the same in state 0 and state 2:
`none` when one of the two `len(parts) != 2` tests fails. -/
def parsePushLine (str : Str) : Option PushRef :=
  match SplitN str ' ' 2 with
  | [_, spec] =>
    let Force := HasPrefix spec "+".toList
    let spec := if Force then spec.drop 1 else spec
    match Split spec ':' with
    | [src, dst] => some { Src := src, Dst := dst, Force := Force, Ok := false, Err := none }
    | _ => none
  | _ => none

/-- The case `state 0` (root) of `readCommand` on the line `str`: either the
value returned, or the state with which the loop goes back to `MORE`. -/
def rootLine (str : Str) : Result ⊕ ParseState :=
  if str = [] then .inl (.error .EOF)
  else if str = "capabilities".toList then .inl (.ok .Capabilities)
  else if str = "list".toList then .inl (.ok (.List false))
  else if str = "list for-push".toList then .inl (.ok (.List true))
  else if HasPrefix str "option ".toList then
    match SplitN str ' ' 3 with
    | [_, key, value] => .inl (.ok (.Option key value))
    | _ => .inl (.ok (.Unknown str))
  else if HasPrefix str "fetch ".toList then
    match SplitN str ' ' 3 with
    | [_, id, name] => .inr (.fetch { Objects := StrMap.set [] id name })
    | _ => .inl (.ok (.Unknown str))
  else if HasPrefix str "push ".toList then
    match parsePushLine str with
    | some ref => .inr (.push { Refs := [ref], Options := [] })
    | none => .inl (.ok (.Unknown str))
  else if HasPrefix str "import ".toList then
    match SplitN str ' ' 2 with
    | [_, name] => .inr (.imp { Names := [name] })
    | _ => .inl (.ok (.Unknown str))
  else if str = "export".toList then .inl (.ok .Export)
  else if HasPrefix str "connect ".toList then
    match SplitN str ' ' 2 with
    | [_, service] => .inl (.ok (.Connect service))
    | _ => .inl (.ok (.Unknown str))
  else .inl (.ok (.Unknown str))

/-- The case `state 1` (fetch continuation) of `readCommand`. -/
def fetchLine (fetchCmd : CmdFetch) (str : Str) : Result ⊕ ParseState :=
  if str = [] then .inl (.ok (.Fetch fetchCmd))
  else if HasPrefix str "fetch ".toList then
    match SplitN str ' ' 3 with
    | [_, id, name] => .inr (.fetch { Objects := StrMap.set fetchCmd.Objects id name })
    | _ => .inl (.error (.ErrInvalidCommand str))
  else .inl (.error (.ErrInvalidCommand str))

/-- The case `state 2` (push continuation) of `readCommand`; the comment on
this case in the source reads `// fetch`. -/
def pushLine (pushCmd : CmdPush) (str : Str) : Result ⊕ ParseState :=
  if str = [] then .inl (.ok (.Push pushCmd))
  else if HasPrefix str "push ".toList then
    match parsePushLine str with
    | some ref => .inr (.push { pushCmd with Refs := pushCmd.Refs ++ [ref] })
    | none => .inl (.error (.ErrInvalidCommand str))
  else .inr (.push { pushCmd with Options := pushCmd.Options ++ [str] })

/-- The case `state 3` (import continuation) of `readCommand`. -/
def importLine (importCmd : CmdImport) (str : Str) : Result ⊕ ParseState :=
  if str = [] then .inl (.ok (.Import importCmd))
  else if HasPrefix str "import ".toList then
    match SplitN str ' ' 2 with
    | [_, name] => .inr (.imp { Names := importCmd.Names ++ [name] })
    | _ => .inl (.error (.ErrInvalidCommand str))
  else .inl (.error (.ErrInvalidCommand str))

/-- The `switch state` of `readCommand` on one line. -/
def stepLine (state : ParseState) (str : Str) : Result ⊕ ParseState :=
  match state with
  | .root => rootLine str
  | .fetch fetchCmd => fetchLine fetchCmd str
  | .push pushCmd => pushLine pushCmd str
  | .imp importCmd => importLine importCmd str

/-- The loop of `readCommand` from the label `MORE`, with the local state and
the reader as arguments; the result is the returned pair and the reader after
the call. Every `goto MORE` uses one unit of `fuel`; `none` means that the
fuel ran out. -/
def readCommandLoop : Nat → ParseState → Str → Option (Result × Str)
  | 0, _, _ => none
  | fuel + 1, state, br =>
    match ReadString br '\n' with
    | (_, true, br) => some (.error .ErrUnexpectedEOF, br)
    | (str, false, br) =>
      match stepLine state (TrimSuffix str "\n".toList) with
      | .inl res => some (res, br)
      | .inr state => readCommandLoop fuel state br

/-- The method `runner.readCommand` on the reader `br`. Each pass through
`MORE` consumes at least one character or returns, so `br.length + 1` passes
suffice. -/
def readCommand (br : Str) : Option (Result × Str) :=
  readCommandLoop (br.length + 1) .root br

/-- The loop of the goroutine of `runner.readCommands` for a session whose
context is not cancelled and whose latch is written by this goroutine only:
the commands sent on the channel, in order, and the error recorded in the
latch when the goroutine returns. -/
def readCommandsLoop : Nat → Str → Option (List Command × Option Err)
  | 0, _ => none
  | fuel + 1, br =>
    match readCommand br with
    | none => none
    | some (.error .EOF, _) => some ([], none)
    | some (.error err, _) => some ([], some err)
    | some (.ok cmd, br) =>
      (readCommandsLoop fuel br).map fun r => (cmd :: r.1, r.2)

/-- The method `runner.readCommands`: see `readCommandsLoop`. -/
def readCommands (br : Str) : Option (List Command × Option Err) :=
  readCommandsLoop (br.length + 1) br

/-! ## runner.go -/

/-- The method `runner.setError` on the latch `r.err`: the latch after the
call and the returned flag. -/
def setError (latch : Option Err) (err : Option Err) : Option Err × Bool :=
  let latch := if latch = none then err else latch
  (latch, latch ≠ none)

/-! ## commands.go and runner.go: executing a command -/

/-- A call of a method of the outbound writer `r.bw`. -/
inductive WriterCall where
  | WriteString (s : Str)
  | WriteRune (r : Char)
  | Write (p : Str)
  | Flush
deriving DecidableEq, Repr

/-- The outbound writer `r.bw` (a `bufio.Writer` on `Stdout`): the calls made
on it so far, in order, and the error that a call returns after a given
history of calls (nil throughout for a writer that does not fail). -/
structure Writer where
  calls : List WriterCall
  result : List WriterCall → WriterCall → Option Err

/-- One call on the writer: the writer after the call and the error returned. -/
def Writer.call (bw : Writer) (c : WriterCall) : Writer × Option Err :=
  ({ bw with calls := bw.calls ++ [c] }, bw.result bw.calls c)

/-- The fields `Dir`, `Remote` and `URL` of the session configuration
`Config`. The handles `Helper`, `Stdin` and `Stdout` are the helper and the
streams that the functions below take as arguments. -/
structure Config where
  Dir : Str
  Remote : Str
  URL : Str
deriving DecidableEq, Repr

/-- A value of the interface `Command`: the field `Config` that each of the
nine command structs has, and the rest of the struct. -/
structure CommandValue where
  Config : Config
  cmd : Command
deriving DecidableEq, Repr

/-- The nine methods `setConfig`, each of which is `c.Config = config`. -/
def CommandValue.setConfig (c : CommandValue) (config : GitRemote.Config) : CommandValue :=
  { c with Config := config }

/-- The interface `Helper`. A method that takes a command receives the
command's `Config` and the rest of the command; `List` returns the pair of
Go; `Push` returns the command as the helper leaves it (the helper fills in
`Ok` and `Err` of the requests in place) and the error. The nested exchange
of `Export`, `Import` and `Connect` over the session streams is left out. -/
structure Helper where
  Capabilities : Capabilities
  SetOption : Str → Str → Option Err
  Fetch : Config → CmdFetch → Option Err
  Push : Config → CmdPush → CmdPush × Option Err
  Export : Config → Option Err
  Import : Config → CmdImport → Option Err
  Connect : Config → Str → Option Err
  Unknown : Config → Str → Option Err
  List : Config → Bool → List ListRef × Option Err

/-- The method `CmdUnknown.runCommand`. -/
def CmdUnknown.runCommand (h : Helper) (config : Config) (Line : Str) (bw : Writer) :
    Writer × Option Err :=
  (bw, h.Unknown config Line)

/-- The method `CmdCapabilities.runCommand`; `caps.writeTo(r.bw)` hands its
buffer to the writer in one `Write`. The result is `none` when `writeTo`
panics. -/
def CmdCapabilities.runCommand (h : Helper) (bw : Writer) : Option (Writer × Option Err) :=
  (Capabilities.writeTo h.Capabilities).map fun text => bw.call (.Write text)

/-- The method `CmdList.runCommand`. -/
def CmdList.runCommand (h : Helper) (config : Config) (ForPush : Bool) (bw : Writer) :
    Writer × Option Err :=
  match h.List config ForPush with
  | (_, some err) => (bw, some err)
  | (refs, none) => bw.call (.Write (listRefSlice.writeTo refs))

/-- The method `CmdOption.runCommand`. -/
def CmdOption.runCommand (Quote : Str → Str) (h : Helper) (Key Value : Str) (bw : Writer) :
    Writer × Option Err :=
  match h.SetOption Key Value with
  | some .ErrUnsupportedOption => bw.call (.WriteString "unsupported\n".toList)
  | some err => bw.call (.WriteString ("error ".toList ++ err.Error Quote ++ "\n".toList))
  | none => bw.call (.WriteString "ok\n".toList)

/-- The method `CmdFetch.runCommand`. -/
def CmdFetch.runCommand (h : Helper) (config : Config) (c : CmdFetch) (bw : Writer) :
    Writer × Option Err :=
  match h.Fetch config c with
  | some err => (bw, some err)
  | none => bw.call (.WriteRune '\n')

/-- The method `CmdPush.runCommand`. -/
def CmdPush.runCommand (h : Helper) (config : Config) (c : CmdPush) (bw : Writer) :
    Writer × Option Err :=
  match h.Push config c with
  | (_, some err) => (bw, some err)
  | (c, none) => bw.call (.Write (pushRefSlice.writeTo c.Refs))

/-- The method `CmdImport.runCommand`. -/
def CmdImport.runCommand (h : Helper) (config : Config) (c : CmdImport) (bw : Writer) :
    Writer × Option Err :=
  (bw, h.Import config c)

/-- The method `CmdExport.runCommand`. -/
def CmdExport.runCommand (h : Helper) (config : Config) (bw : Writer) : Writer × Option Err :=
  (bw, h.Export config)

/-- The method `CmdConnect.runCommand`. -/
def CmdConnect.runCommand (h : Helper) (config : Config) (Service : Str) (bw : Writer) :
    Writer × Option Err :=
  (bw, h.Connect config Service)

/-- The method `runCommand` of the interface `Command`, by variant. -/
def CommandValue.runCommand (Quote : Str → Str) (h : Helper) (c : CommandValue) (bw : Writer) :
    Option (Writer × Option Err) :=
  match c.cmd with
  | .Unknown Line => some (CmdUnknown.runCommand h c.Config Line bw)
  | .Capabilities => CmdCapabilities.runCommand h bw
  | .List ForPush => some (CmdList.runCommand h c.Config ForPush bw)
  | .Option Key Value => some (CmdOption.runCommand Quote h Key Value bw)
  | .Fetch f => some (CmdFetch.runCommand h c.Config f bw)
  | .Push p => some (CmdPush.runCommand h c.Config p bw)
  | .Import i => some (CmdImport.runCommand h c.Config i bw)
  | .Export => some (CmdExport.runCommand h c.Config bw)
  | .Connect Service => some (CmdConnect.runCommand h c.Config Service bw)

/-- The method `runner.runCommand`, on the session configuration `r.Config`
and the writer `r.bw`: the writer after the call and the error returned. -/
def runner.runCommand (Quote : Str → Str) (h : Helper) (config : Config) (bw : Writer)
    (cmd : CommandValue) : Option (Writer × Option Err) :=
  let cmd := cmd.setConfig config
  (cmd.runCommand Quote h bw).map fun r =>
    let flush := r.1.call .Flush
    (flush.1, if r.2 = none then flush.2 else r.2)

/-- A helper for the examples: it advertises mandatory push and fetch and
optional option, knows no option but `verbosity`, and rejects the push to
`refs/heads/b`. -/
def sampleHelper : Helper where
  Capabilities :=
    { Optional := CapOption, Mandatory := CapPush ||| CapFetch, Refspecs := [],
      ExportMarks := [], ImportMarks := [] }
  SetOption := fun key value =>
    if key = "verbosity".toList then
      if value = "1".toList then none else some (.other "bad verbosity".toList)
    else some .ErrUnsupportedOption
  Fetch := fun _ _ => none
  Push := fun _ c =>
    if c.Options = [] then
      ({ c with Refs := c.Refs.map fun ref =>
          if ref.Dst = "refs/heads/b".toList then
            { ref with Ok := false, Err := some "not fast-forward".toList }
          else { ref with Ok := true } }, none)
    else (c, some (.other "options are not supported".toList))
  Export := fun _ => none
  Import := fun _ _ => none
  Connect := fun _ _ => some (.other "connect is not supported".toList)
  Unknown := fun _ _ => some (.other "unknown command".toList)
  List := fun _ _ => ([], none)

/-- A writer for the examples: nothing written yet, no call fails. -/
def sampleWriter : Writer where
  calls := []
  result := fun _ _ => none

/-- A writer for the examples whose every call fails. -/
def brokenWriter : Writer where
  calls := []
  result := fun _ _ => some (.other "broken pipe".toList)

/-- A configuration for the examples. -/
def sampleConfig : Config where
  Dir := ".git".toList
  Remote := "origin".toList
  URL := "ws://example/repo".toList

/-! ## runner.go and command_parser.go: the two goroutines of a session -/

/-- Where the goroutine started by `readCommands` stands: at the call of
`r.readCommand()`, at the `select` that sends `cmd` on the channel, or
returned (the channel `out` is then closed). -/
inductive ReaderPc where
  | read
  | send (cmd : Command)
  | done
deriving DecidableEq, Repr

/-- Where the loop of `run` stands: at its `select`, holding a command just
received from the channel, inside `r.runCommand(ctx, cmd)`, or past the loop
(`run` then returns `r.err`). -/
inductive RunPc where
  | wait
  | received (cmd : Command)
  | running (cmd : Command)
  | done
deriving DecidableEq, Repr

/-- What happens in a session, in order: a command is handed over on the
channel, `r.runCommand` is entered for a command, `r.runCommand` has flushed
and returned, `r.setError(err)` is called. -/
inductive Event where
  | handedOver (cmd : Command)
  | begin (cmd : Command)
  | flushed (cmd : Command)
  | record (err : Option Err)
deriving DecidableEq, Repr

/-- The state of a session: the inbound reader `r.br` (read by the reader
goroutine), the latch `r.err`, whether the context is cancelled, the two
goroutines, and the events so far. -/
structure Session where
  br : Str
  latch : Option Err
  cancelled : Bool
  reader : ReaderPc
  loop : RunPc
  trace : List Event
deriving DecidableEq, Repr

/-- The session when `run` has started the reader goroutine. -/
def Session.init (stdin : Str) : Session :=
  { br := stdin, latch := none, cancelled := false, reader := .read, loop := .wait, trace := [] }

/-- The steps that the scheduler and the environment choose from: the context
is cancelled from outside; the reader goroutine decodes a command and calls
`setError`; the reader leaves its `select` through `ctx.Done()`; the channel
hands a command over; the loop sees the closed channel; the loop sees
`ctx.Done()`; the loop enters `r.runCommand`; `r.runCommand` returns and the
loop calls `setError`. -/
inductive Action where
  | cancel
  | read
  | giveUp
  | handOver
  | closed
  | observeCancel
  | begin
  | finish
deriving DecidableEq, Repr

/-- One step of a session, `none` when the step is not enabled.
`runCommand trace cmd` is the error that `r.runCommand(ctx, cmd)` returns
after the events `trace`; `ctxErr` is `ctx.Err()` of a cancelled context.
The reader's context is done when the caller's context is cancelled or `run`
has returned (its deferred `cancel`). -/
def Session.step (runCommand : List Event → Command → Option Err) (ctxErr : Err)
    (a : Action) (s : Session) : Option Session :=
  match a with
  | .cancel => if s.cancelled then none else some { s with cancelled := true }
  | .read =>
    match s.reader with
    | .read =>
      match readCommand s.br with
      | none => none
      | some (.error .EOF, br) => some { s with br := br, reader := .done }
      | some (.error err, br) =>
        some { s with
          br := br, reader := .done, latch := (setError s.latch (some err)).1,
          trace := s.trace ++ [.record (some err)] }
      | some (.ok cmd, br) =>
        some { s with
          br := br, latch := (setError s.latch none).1,
          reader := if (setError s.latch none).2 then .done else .send cmd,
          trace := s.trace ++ [.record none] }
    | _ => none
  | .giveUp =>
    match s.reader with
    | .send _ =>
      if s.cancelled = true ∨ s.loop = .done then some { s with reader := .done } else none
    | _ => none
  | .handOver =>
    match s.reader, s.loop with
    | .send cmd, .wait =>
      some { s with reader := .read, loop := .received cmd,
                    trace := s.trace ++ [.handedOver cmd] }
    | _, _ => none
  | .closed =>
    match s.reader, s.loop with
    | .done, .wait => some { s with loop := .done }
    | _, _ => none
  | .observeCancel =>
    match s.loop with
    | .wait =>
      if s.cancelled then
        some { s with
          latch := (setError s.latch (some ctxErr)).1,
          loop := if (setError s.latch (some ctxErr)).2 then .done else .wait,
          trace := s.trace ++ [.record (some ctxErr)] }
      else none
    | _ => none
  | .begin =>
    match s.loop with
    | .received cmd => some { s with loop := .running cmd, trace := s.trace ++ [.begin cmd] }
    | _ => none
  | .finish =>
    match s.loop with
    | .running cmd =>
      some { s with
        latch := (setError s.latch (runCommand s.trace cmd)).1,
        loop := if (setError s.latch (runCommand s.trace cmd)).2 then .done else .wait,
        trace := s.trace ++ [.flushed cmd, .record (runCommand s.trace cmd)] }
    | _ => none

/-- A schedule: the steps taken one after the other, `none` when one of them
is not enabled. -/
def Session.exec (runCommand : List Event → Command → Option Err) (ctxErr : Err) :
    List Action → Session → Option Session
  | [], s => some s
  | a :: acts, s => (Session.step runCommand ctxErr a s).bind (Session.exec runCommand ctxErr acts)

/-! ## The wire formats in the words of the specification -/

/-- The line of one capability as the specification words it: `*` and the
name when the bit is in the mandatory mask, the bare name when it is in the
optional mask only, no line when it is in neither; `extra` is the text that
follows the name. -/
def capLine (mandatory optional : Bool) (name extra : Str) : Str :=
  if mandatory then '*' :: (name ++ extra ++ ['\n'])
  else if optional then name ++ extra ++ ['\n']
  else []

/-- The lines written for the refspec list: one per entry, under the refspec
bit, with a space and the entry after the name. -/
def refspecLines (c : Capabilities) : Str :=
  c.Refspecs.flatMap fun refspec =>
    capLine (c.Mandatory.testBit 6) (c.Optional.testBit 6) "refspec".toList (' ' :: refspec)

/-- The line of one ref-listing entry as the specification words it. -/
def listRefLine (e : ListRef) : Str :=
  (if e.Hash ≠ [] then e.Hash else if e.Sym ≠ [] then '@' :: e.Sym else ['?'])
    ++ ' ' :: e.Name ++ (if e.Unchanged then " unchanged".toList else []) ++ ['\n']

/-- The result line of one push request as the specification words it. -/
def pushRefLine (e : PushRef) : Str :=
  if e.Ok then "ok ".toList ++ e.Dst ++ ['\n']
  else
    match e.Err with
    | none => "error ".toList ++ e.Dst ++ ['\n']
    | some msg => "error ".toList ++ e.Dst ++ ' ' :: msg ++ ['\n']

/-- The inbound line `fetch <id> <name>` with its newline. -/
def fetchText (p : Str × Str) : Str :=
  "fetch ".toList ++ p.1 ++ ' ' :: p.2 ++ ['\n']

/-- The inbound line `import <name>` with its newline. -/
def importText (name : Str) : Str :=
  "import ".toList ++ name ++ ['\n']

/-- A line that follows the first line of a push batch, as the
specification describes the input: either a line `push [+]<src>:<dst>` or any
other line. -/
inductive PushItem where
  | ref (force : Bool) (src dst : Str)
  | other (line : Str)
deriving DecidableEq, Repr

/-- The text of the line, without its newline. -/
def PushItem.line : PushItem → Str
  | .ref force src dst =>
    "push ".toList ++ (if force then "+".toList else []) ++ src ++ ':' :: dst
  | .other line => line

/-- The text of the line with its newline. -/
def PushItem.text (it : PushItem) : Str := it.line ++ ['\n']

/-- Well-formed input lines: in a push line neither `<src>` nor `<dst>`
contains a colon or a newline, and a line without the leading `+` has a
`<src>` that does not itself start with `+` (such a line is the line with the
leading `+` and the rest as `<src>`); another line is not blank, has no
newline inside and does not start with `push `. -/
def PushItem.wellFormed : PushItem → Prop
  | .ref force src dst =>
    ':' ∉ src ∧ ':' ∉ dst ∧ '\n' ∉ src ∧ '\n' ∉ dst ∧ (force = false → src.head? ≠ some '+')
  | .other line => line ≠ [] ∧ '\n' ∉ line ∧ HasPrefix line "push ".toList = false

instance PushItem.decidableWellFormed : DecidablePred PushItem.wellFormed := by
  intro it
  cases it <;> unfold PushItem.wellFormed <;> infer_instance

/-- The requests that the push lines of the input describe, in input order. -/
def PushItem.refs : List PushItem → List PushRef
  | [] => []
  | .ref force src dst :: l =>
    { Src := src, Dst := dst, Force := force, Ok := false, Err := none } :: PushItem.refs l
  | .other _ :: l => PushItem.refs l

/-- The other lines of the input, in input order. -/
def PushItem.options : List PushItem → List Str
  | [] => []
  | .ref _ _ _ :: l => PushItem.options l
  | .other line :: l => line :: PushItem.options l

/-- The text of a push line after `push `, without the optional leading `+`. -/
def pushSpecBody (spec : Str) : Str :=
  if spec.head? = some '+' then spec.tail else spec

/-- The first lines that the root state recognises, as the specification
lists them: the three literals `capabilities`, `list`, `list for-push`, the
line `export`, the lines `option <key> <value>` and `fetch <id> <name>` with
two arguments, the lines `push [+]<src>:<dst>` whose spec has exactly one
colon after the optional `+`, and the lines that start with `import ` or
`connect `. -/
def Recognised (line : Str) : Prop :=
  line = "capabilities".toList ∨ line = "list".toList ∨ line = "list for-push".toList
  ∨ line = "export".toList
  ∨ (∃ key value : Str, ' ' ∉ key ∧ line = "option ".toList ++ key ++ ' ' :: value)
  ∨ (∃ id name : Str, ' ' ∉ id ∧ line = "fetch ".toList ++ id ++ ' ' :: name)
  ∨ (∃ spec : Str, line = "push ".toList ++ spec ∧ (pushSpecBody spec).count ':' = 1)
  ∨ (∃ name : Str, line = "import ".toList ++ name)
  ∨ (∃ service : Str, line = "connect ".toList ++ service)

/-- The lines of the nine capabilities that are written before the refspec
lines, in the order of `Capabilities.writeTo`. -/
def otherCapLines (c : Capabilities) : Str :=
  capLine (c.Mandatory.testBit 0) (c.Optional.testBit 0) "connect".toList []
  ++ capLine (c.Mandatory.testBit 1) (c.Optional.testBit 1) "push".toList []
  ++ capLine (c.Mandatory.testBit 2) (c.Optional.testBit 2) "fetch".toList []
  ++ capLine (c.Mandatory.testBit 3) (c.Optional.testBit 3) "export".toList []
  ++ capLine (c.Mandatory.testBit 4) (c.Optional.testBit 4) "import".toList []
  ++ capLine (c.Mandatory.testBit 5) (c.Optional.testBit 5) "option".toList []
  ++ capLine (c.Mandatory.testBit 7) (c.Optional.testBit 7) "bidi-import".toList []
  ++ capLine (c.Mandatory.testBit 8) (c.Optional.testBit 8) "export-marks".toList
      (' ' :: c.ExportMarks)
  ++ capLine (c.Mandatory.testBit 9) (c.Optional.testBit 9) "import-marks".toList
      (' ' :: c.ImportMarks)

/-- The nine capabilities that `Capabilities.writeTo` writes one line for:
the number of the bit, the name, and the text that follows the name. -/
def capTable (c : Capabilities) : List (Nat × Str × Str) :=
  [(0, "connect".toList, []), (1, "push".toList, []), (2, "fetch".toList, []),
   (3, "export".toList, []), (4, "import".toList, []), (5, "option".toList, []),
   (7, "bidi-import".toList, []), (8, "export-marks".toList, ' ' :: c.ExportMarks),
   (9, "import-marks".toList, ' ' :: c.ImportMarks)]

/-- The line of one entry of `capTable`. -/
def capTableLine (c : Capabilities) (t : Nat × Str × Str) : Str :=
  capLine (c.Mandatory.testBit t.1) (c.Optional.testBit t.1) t.2.1 t.2.2

/-- A text made of non-empty lines, each terminated by a newline. -/
def LineBlock (s : Str) : Prop :=
  ∃ lines : List Str, (∀ l ∈ lines, l ≠ [] ∧ '\n' ∉ l) ∧ s = lines.flatMap fun l => l ++ ['\n']

/-- The position right after `pre` is the start of a line. -/
def AtLineStart (pre : Str) : Prop := pre = [] ∨ ∃ p, pre = p ++ ['\n']

/-- The text `out` contains the line `line`. -/
def HasLine (out line : Str) : Prop :=
  ∃ pre post : Str, out = pre ++ line ++ '\n' :: post ∧ AtLineStart pre

/-- The event is the entry of `r.runCommand`. -/
def Event.isBegin : Event → Bool
  | .begin _ => true
  | _ => false

/-- The event is a command handed over on the channel. -/
def Event.isHandOver : Event → Bool
  | .handedOver _ => true
  | _ => false

/-- The event records a non-nil error in the latch. -/
def Event.isError : Event → Bool
  | .record (some _) => true
  | _ => false

/-- The commands for which `r.runCommand` was entered, in order. -/
def begun : List Event → List Command
  | [] => []
  | .begin cmd :: t => cmd :: begun t
  | _ :: t => begun t

/-- The arguments of the calls of `setError`, in order. -/
def recorded : List Event → List (Option Err)
  | [] => []
  | .record err :: t => err :: recorded t
  | _ :: t => recorded t

/-- The number of events with the property `p` that come after the first
event that records a non-nil error. -/
def lateCount (p : Event → Bool) : List Event → Nat
  | [] => 0
  | ev :: t => if ev.isError then (t.filter p).length else lateCount p t

/-- One event of the check that commands run one at a time: the state is the
command inside `r.runCommand`, if any; `none` when the check fails. -/
def serialStep (st : Option (Option Command)) (ev : Event) : Option (Option Command) :=
  match st, ev with
  | some none, .begin cmd => some (some cmd)
  | some (some cmd), .flushed cmd' => if cmd = cmd' then some none else none
  | st, .record _ => st
  | st, .handedOver _ => st
  | _, _ => none

/-- The commands run one at a time: every entry of `r.runCommand` is followed
by the flush and return for the same command before the next entry. -/
def serial (trace : List Event) : Bool := (trace.foldl serialStep (some none)).isSome

/-- The commands that the reader goroutine delivers for the stream `br`. -/
def decoded (br : Str) : List Command :=
  match readCommands br with
  | some (cmds, _) => cmds
  | none => []

/-- The command that the loop holds between the receive and the entry of
`r.runCommand`, as a list. -/
def RunPc.receivedCmds : RunPc → List Command
  | .received cmd => [cmd]
  | _ => []

/-- The command inside `r.runCommand`, if any. -/
def RunPc.runningCmd : RunPc → Option Command
  | .running cmd => some cmd
  | _ => none

/-- The command that the reader is about to send, as a list. -/
def ReaderPc.pending : ReaderPc → List Command
  | .send cmd => [cmd]
  | _ => []

/-- What holds in every state of a session on the input `stdin`. -/
structure Session.Inv (stdin : Str) (s : Session) : Prop where
  order : ∃ rest, decoded stdin = begun s.trace ++ s.loop.receivedCmds ++ s.reader.pending ++ rest
    ∧ (s.reader ≠ .done → rest = decoded s.br)
  serial : s.trace.foldl serialStep (some none) = some s.loop.runningCmd
  latch : s.latch = (recorded s.trace).foldl (fun l e => (setError l e).1) none
  isError : s.latch ≠ none ↔ s.trace.any Event.isError = true
  stop : s.latch ≠ none → s.loop = .done ∨ s.reader = .done
  lateHandOver : lateCount Event.isHandOver s.trace = 0
  lateBegin : lateCount Event.isBegin s.trace ≤ 1
  lateBegun : lateCount Event.isBegin s.trace = 1 → s.loop.runningCmd.isSome ∨ s.loop = .done

/-- The weight of the reader goroutine in the measure of a session. -/
def ReaderPc.rank : ReaderPc → Nat
  | .read => 1
  | .send _ => 4
  | .done => 0

/-- The weight of the loop of `run` in the measure of a session. -/
def RunPc.rank : RunPc → Nat
  | .wait => 1
  | .received _ => 3
  | .running _ => 2
  | .done => 0

/-- A number that every step of a session makes smaller. -/
def Session.measure (s : Session) : Nat :=
  4 * s.br.length + s.reader.rank + s.loop.rank + (if s.cancelled then 0 else 1)

/-- The wire names of the thirteen capabilities, in the order of the
enumeration (the name at position `i` belongs to the bit `1 << i`). -/
def capabilityNames : List Str :=
  ["connect".toList, "push".toList, "fetch".toList, "export".toList, "import".toList,
   "option".toList, "refspec".toList, "bidi-import".toList, "export-marks".toList,
   "import-marks".toList, "no-private-update".toList, "check-connectivity".toList,
   "signed-tags".toList]

/-- The arguments with which one call of the closure `writeCap` calls
`cap.String()`: the capability itself when its bit is in one of the masks,
nothing otherwise. -/
def writeCapCalls (c : Capabilities) (cap : Capability) : List Capability :=
  if c.Mandatory &&& cap = cap then [cap]
  else if c.Optional &&& cap = cap then [cap]
  else []

/-- The arguments of all calls of `String` that `Capabilities.writeTo` makes,
in order. -/
def Capabilities.writeToCalls (c : Capabilities) : List Capability :=
  writeCapCalls c CapConnect ++ writeCapCalls c CapPush ++ writeCapCalls c CapFetch
  ++ writeCapCalls c CapExport ++ writeCapCalls c CapImport ++ writeCapCalls c CapOption
  ++ writeCapCalls c CapBidiImport ++ writeCapCalls c CapExportMarks
  ++ writeCapCalls c CapImportMarks
  ++ c.Refspecs.flatMap fun _ => writeCapCalls c CapRefspec

/-- The capabilities that `Capabilities.writeTo` passes to `writeCap`. -/
def writtenCaps : List Capability :=
  [CapConnect, CapPush, CapFetch, CapExport, CapImport, CapOption, CapBidiImport,
   CapExportMarks, CapImportMarks, CapRefspec]

/-- A request as the decoder creates it: `Ok` unset and `Err` nil. -/
def PushRef.fresh (ref : PushRef) : Prop := ref.Ok = false ∧ ref.Err = none

/-- The state of the decoder holds fresh requests only. -/
def ParseState.fresh : ParseState → Prop
  | .push c => ∀ ref ∈ c.Refs, ref.fresh
  | _ => True

/-- The value returned by the decoder holds fresh requests only. -/
def Result.fresh : Result → Prop
  | .ok (.Push c) => ∀ ref ∈ c.Refs, ref.fresh
  | _ => True

/-- A helper for the examples whose `Push` returns no error and leaves the
requests untouched. -/
def idleHelper : Helper where
  Capabilities :=
    { Optional := 0, Mandatory := CapPush, Refspecs := [], ExportMarks := [],
      ImportMarks := [] }
  SetOption := fun _ _ => some .ErrUnsupportedOption
  Fetch := fun _ _ => none
  Push := fun _ c => (c, none)
  Export := fun _ => none
  Import := fun _ _ => none
  Connect := fun _ _ => none
  Unknown := fun _ _ => none
  List := fun _ _ => ([], none)

/-- The error that the reader goroutine records in the latch when it decodes
the stream `br` to its end: nil when it stops at a blank line. -/
def recordedByReader (br : Str) : Option Err :=
  match readCommands br with
  | some (_, e) => e
  | none => none

/-- What holds in every state of a session on the input `stdin` whose
commands all execute successfully and whose context is not cancelled: the
latch is written by the reader goroutine only, when it stops. -/
structure Session.Clean (stdin : Str) (s : Session) : Prop where
  active : s.reader ≠ .done → s.latch = none ∧ recordedByReader s.br = recordedByReader stdin
  finished : s.reader = .done → s.latch = recordedByReader stdin
  loopDone : s.loop = .done → s.reader = .done
  running : ∀ cmd, s.loop = .running cmd → cmd ∈ decoded stdin

/-! ## Lemmas -/

theorem land_two_pow_eq_iff (m i : Nat) : m &&& 2 ^ i = 2 ^ i ↔ m.testBit i = true := by
  constructor
  · intro h
    have hb := Nat.testBit_and m (2 ^ i) i
    rw [h] at hb
    simp [Nat.testBit_two_pow] at hb
    exact hb
  · intro h
    apply Nat.eq_of_testBit_eq
    intro j
    rw [Nat.testBit_and, Nat.testBit_two_pow]
    by_cases hij : i = j
    · subst hij; simp [h]
    · simp [hij]

theorem writeCap_eq (c : Capabilities) (cap : Capability) (i : Nat) (name : Str)
    (extra : Option (Str → Str)) (e buf : Str)
    (hcap : cap = 2 ^ i) (hname : Capability.String cap = some name)
    (hextra : ∀ b, callExtra extra b = b ++ e) :
    writeCap c cap extra buf
      = some (buf ++ capLine (c.Mandatory.testBit i) (c.Optional.testBit i) name e) := by
  unfold writeCap capLine
  rw [hname]
  subst hcap
  simp only [land_two_pow_eq_iff]
  by_cases hm : c.Mandatory.testBit i = true
  · simp [hm, writeRune, writeString, hextra]
  · by_cases ho : c.Optional.testBit i = true
    · simp [hm, ho, writeRune, writeString, hextra]
    · simp [hm, ho]

theorem writeRefspecs_eq (c : Capabilities) (l : List Str) (buf : Str) :
    writeRefspecs c l buf
      = some (buf ++ l.flatMap fun refspec =>
          capLine (c.Mandatory.testBit 6) (c.Optional.testBit 6) "refspec".toList
            (' ' :: refspec)) := by
  induction l generalizing buf with
  | nil => simp [writeRefspecs]
  | cons r l ih =>
    rw [writeRefspecs,
      writeCap_eq c CapRefspec 6 "refspec".toList _ (' ' :: r) buf (by decide) (by decide)
        (by intro b; simp [callExtra, writeRune, writeString])]
    simp [ih]

theorem listRef_foldl (r : List ListRef) (buf : Str) :
    r.foldl (fun buf ref => listRefSlice.writeRef ref buf) buf
      = buf ++ r.flatMap listRefLine := by
  induction r generalizing buf with
  | nil => simp
  | cons e r ih =>
    rw [List.foldl_cons, ih, List.flatMap_cons, ← List.append_assoc]
    congr 1
    unfold listRefSlice.writeRef listRefLine writeRune writeString
    by_cases hh : e.Hash = [] <;> by_cases hs : e.Sym = [] <;> cases hu : e.Unchanged <;>
      simp [hh, hs]

theorem pushRef_foldl (r : List PushRef) (buf : Str) :
    r.foldl (fun buf ref => pushRefSlice.writeRef ref buf) buf
      = buf ++ r.flatMap pushRefLine := by
  induction r generalizing buf with
  | nil => simp
  | cons e r ih =>
    rw [List.foldl_cons, ih, List.flatMap_cons, ← List.append_assoc]
    congr 1
    unfold pushRefSlice.writeRef pushRefLine writeRune writeString
    cases ho : e.Ok <;> cases he : e.Err <;> simp

/-! ### The reader and the string functions on a line -/

theorem ReadString_line (line rest : Str) (h : '\n' ∉ line) :
    ReadString (line ++ '\n' :: rest) '\n' = (line ++ ['\n'], false, rest) := by
  induction line with
  | nil => simp [ReadString]
  | cons c cs ih =>
    have hc : c ≠ '\n' := fun e => h (by simp [e])
    have hcs : '\n' ∉ cs := fun e => h (by simp [e])
    simp [ReadString, hc, ih hcs]

theorem ReadString_length (br : Str) (delim : Char) :
    (ReadString br delim).2.1 = false → (ReadString br delim).2.2.length < br.length := by
  induction br with
  | nil => simp [ReadString]
  | cons c cs ih =>
    by_cases hc : c = delim
    · simp [ReadString, hc]
    · simp only [ReadString, hc, if_false]
      intro h
      have := ih h
      simp only [List.length_cons]
      omega

theorem TrimSuffix_line (line : Str) : TrimSuffix (line ++ ['\n']) ['\n'] = line := by
  have h : List.isSuffixOf ['\n'] (line ++ ['\n']) = true :=
    List.isSuffixOf_iff_suffix.mpr ⟨line, rfl⟩
  simp [TrimSuffix, h]

theorem HasPrefix_iff (s pre : Str) : HasPrefix s pre = true ↔ ∃ t, s = pre ++ t := by
  unfold HasPrefix
  rw [List.isPrefixOf_iff_prefix]
  constructor
  · rintro ⟨t, ht⟩; exact ⟨t, ht.symm⟩
  · rintro ⟨t, ht⟩; exact ⟨t, ht.symm⟩

theorem HasPrefix_append (pre t : Str) : HasPrefix (pre ++ t) pre = true :=
  (HasPrefix_iff _ _).mpr ⟨t, rfl⟩

theorem Cut_append (a b : Str) (sep : Char) (h : sep ∉ a) :
    Cut (a ++ sep :: b) sep = some (a, b) := by
  induction a with
  | nil => simp [Cut]
  | cons c cs ih =>
    have hc : c ≠ sep := fun e => h (by simp [e])
    have hcs : sep ∉ cs := fun e => h (by simp [e])
    simp [Cut, hc, ih hcs]

theorem Cut_none (s : Str) (sep : Char) (h : sep ∉ s) : Cut s sep = none := by
  induction s with
  | nil => simp [Cut]
  | cons c cs ih =>
    have hc : c ≠ sep := fun e => h (by simp [e])
    have hcs : sep ∉ cs := fun e => h (by simp [e])
    simp [Cut, hc, ih hcs]

theorem Cut_some (s : Str) (sep : Char) (a b : Str) (h : Cut s sep = some (a, b)) :
    s = a ++ sep :: b ∧ sep ∉ a := by
  induction s generalizing a with
  | nil => simp [Cut] at h
  | cons c cs ih =>
    by_cases hc : c = sep
    · simp [Cut, hc] at h
      obtain ⟨ha, hb⟩ := h
      subst ha; subst hb; simp [hc]
    · simp only [Cut, hc, if_false, Option.map_eq_some'] at h
      obtain ⟨⟨a', b'⟩, hcut, heq⟩ := h
      simp only [Prod.mk.injEq] at heq
      obtain ⟨ha, hb⟩ := heq
      subst ha; subst hb
      obtain ⟨h1, h2⟩ := ih a' hcut
      refine ⟨by simp [h1], ?_⟩
      intro hmem
      rcases List.mem_cons.mp hmem with e | e
      · exact hc e.symm
      · exact h2 e

/-! ### Fuel -/

theorem readCommandLoop_fuel (n : Nat) :
    ∀ (br : Str) (state : ParseState) (fuel : Nat), br.length ≤ n → br.length < fuel →
      readCommandLoop fuel state br = readCommandLoop (br.length + 1) state br := by
  induction n with
  | zero =>
    intro br state fuel hn hf
    have hbr : br = [] := List.length_eq_zero.mp (Nat.le_zero.mp hn)
    subst hbr
    obtain ⟨f, rfl⟩ : ∃ f, fuel = f + 1 := ⟨fuel - 1, by omega⟩
    simp [readCommandLoop, ReadString]
  | succ n ih =>
    intro br state fuel hn hf
    obtain ⟨f, rfl⟩ : ∃ f, fuel = f + 1 := ⟨fuel - 1, by omega⟩
    simp only [readCommandLoop]
    have hlen := ReadString_length br '\n'
    rcases hrs : ReadString br '\n' with ⟨str, eof, br'⟩
    rw [hrs] at hlen
    cases eof with
    | true => rfl
    | false =>
      have hl : br'.length < br.length := hlen rfl
      simp only
      cases hstep : stepLine state (TrimSuffix str "\n".toList) with
      | inl res => rfl
      | inr st =>
        simp only
        rw [ih br' st f (by omega) (by omega)]
        by_cases hb : br.length = br'.length + 1
        · rw [hb]
        · rw [ih br' st br.length (by omega) (by omega)]

/-- The decoder started in `state` on the reader `br`, with the fuel that
`readCommand` uses. -/
theorem readCommandLoop_line (state : ParseState) (line rest : Str) (h : '\n' ∉ line) :
    readCommandLoop ((line ++ '\n' :: rest).length + 1) state (line ++ '\n' :: rest)
      = match stepLine state line with
        | .inl res => some (res, rest)
        | .inr state => readCommandLoop (rest.length + 1) state rest := by
  simp only [readCommandLoop, ReadString_line line rest h]
  have ht : TrimSuffix (line ++ ['\n']) "\n".toList = line := TrimSuffix_line line
  rw [ht]
  cases hstep : stepLine state line with
  | inl res => rfl
  | inr st =>
    simp only
    exact readCommandLoop_fuel rest.length rest st _ (le_refl _) (by simp; omega)

/-- The decoder always returns: the fuel of `readCommand` never runs out. -/
theorem readCommandLoop_total (n : Nat) :
    ∀ (br : Str) (state : ParseState), br.length ≤ n →
      ∃ r, readCommandLoop (br.length + 1) state br = some r := by
  induction n with
  | zero =>
    intro br state hn
    have hbr : br = [] := List.length_eq_zero.mp (Nat.le_zero.mp hn)
    subst hbr
    exact ⟨(.error .ErrUnexpectedEOF, []), by simp [readCommandLoop, ReadString]⟩
  | succ n ih =>
    intro br state hn
    simp only [readCommandLoop]
    have hlen := ReadString_length br '\n'
    rcases hrs : ReadString br '\n' with ⟨str, eof, br'⟩
    rw [hrs] at hlen
    cases eof with
    | true => exact ⟨_, rfl⟩
    | false =>
      have hl : br'.length < br.length := hlen rfl
      simp only
      cases hstep : stepLine state (TrimSuffix str "\n".toList) with
      | inl res => exact ⟨_, rfl⟩
      | inr st =>
        simp only
        rw [readCommandLoop_fuel br'.length br' st br.length (le_refl _) hl]
        exact ih br' st (by omega)

theorem readCommand_total (br : Str) : ∃ r, readCommand br = some r :=
  readCommandLoop_total br.length br .root (le_refl _)

/-! ### Splitting -/

theorem SplitN_two (a b : Str) (sep : Char) (ha : sep ∉ a) :
    SplitN (a ++ sep :: b) sep 2 = [a, b] := by
  simp [SplitN, Cut_append a b sep ha]

theorem SplitN_three (a b c : Str) (sep : Char) (ha : sep ∉ a) (hb : sep ∉ b) :
    SplitN (a ++ sep :: (b ++ sep :: c)) sep 3 = [a, b, c] := by
  simp [SplitN, Cut_append a _ sep ha, Cut_append b c sep hb]

/-! ### The map -/

theorem StrMap.get_set (m : StrMap) (k v k' : Str) :
    StrMap.get (StrMap.set m k v) k' = if k = k' then some v else StrMap.get m k' := by
  induction m with
  | nil => simp [StrMap.set, StrMap.get]
  | cons e m ih =>
    obtain ⟨k0, v0⟩ := e
    by_cases h0 : k0 = k
    · subst h0
      by_cases h1 : k0 = k' <;> simp [StrMap.set, StrMap.get, h1]
    · by_cases h1 : k0 = k'
      · subst h1
        have h2 : ¬ k = k0 := fun e => h0 e.symm
        simp [StrMap.set, StrMap.get, h0, h2]
      · simp [StrMap.set, StrMap.get, h0, h1, ih]

theorem StrMap.keys_set (m : StrMap) (k v : Str) :
    (∀ k', k' ∈ (StrMap.set m k v).map Prod.fst ↔ k' = k ∨ k' ∈ m.map Prod.fst)
    ∧ ((m.map Prod.fst).Nodup → ((StrMap.set m k v).map Prod.fst).Nodup) := by
  induction m with
  | nil => simp [StrMap.set]
  | cons e m ih =>
    obtain ⟨k0, v0⟩ := e
    obtain ⟨ih1, ih2⟩ := ih
    by_cases h0 : k0 = k
    · subst h0
      simp [StrMap.set]
    · constructor
      · intro k'
        simp only [StrMap.set, h0, if_false, List.map_cons, List.mem_cons, ih1]
        tauto
      · intro hnd
        simp only [StrMap.set, h0, if_false, List.map_cons, List.nodup_cons] at hnd ⊢
        refine ⟨?_, ih2 hnd.2⟩
        rw [ih1]
        intro h
        rcases h with h | h
        · exact h0 h
        · exact hnd.1 h

theorem StrMap.get_foldl (ps : List (Str × Str)) (m : StrMap) (id : Str) :
    StrMap.get (ps.foldl (fun m q => StrMap.set m q.1 q.2) m) id
      = match ps.reverse.find? (fun q => decide (q.1 = id)) with
        | some q => some q.2
        | none => StrMap.get m id := by
  induction ps generalizing m with
  | nil => simp
  | cons q ps ih =>
    rw [List.foldl_cons, ih, List.reverse_cons, List.find?_append]
    cases hf : List.find? (fun q => decide (q.1 = id)) ps.reverse with
    | some r => simp
    | none =>
      by_cases hq : q.1 = id
      · simp [StrMap.get_set, hq, List.find?]
      · simp [StrMap.get_set, hq, List.find?]

theorem StrMap.keys_foldl (ps : List (Str × Str)) (m : StrMap) :
    (∀ k', k' ∈ (ps.foldl (fun m q => StrMap.set m q.1 q.2) m).map Prod.fst
        ↔ k' ∈ ps.map Prod.fst ∨ k' ∈ m.map Prod.fst)
    ∧ ((m.map Prod.fst).Nodup →
        ((ps.foldl (fun m q => StrMap.set m q.1 q.2) m).map Prod.fst).Nodup) := by
  induction ps generalizing m with
  | nil => simp
  | cons q ps ih =>
    obtain ⟨ih1, ih2⟩ := ih (StrMap.set m q.1 q.2)
    obtain ⟨hk1, hk2⟩ := StrMap.keys_set m q.1 q.2
    constructor
    · intro k'
      rw [List.foldl_cons, ih1, hk1]
      simp only [List.map_cons, List.mem_cons]
      tauto
    · intro hnd
      rw [List.foldl_cons]
      exact ih2 (hk2 hnd)

/-! ### The fetch states -/

theorem rootLine_fetch (id name : Str) (hid : ' ' ∉ id) :
    rootLine ("fetch ".toList ++ id ++ ' ' :: name)
      = .inr (.fetch { Objects := StrMap.set [] id name }) := by
  have hs : SplitN ("fetch ".toList ++ id ++ ' ' :: name) ' ' 3 = ["fetch".toList, id, name] := by
    have := SplitN_three "fetch".toList id name ' ' (by decide) hid
    simpa using this
  unfold rootLine
  rw [hs]
  simp [HasPrefix]

theorem fetchLine_fetch (c : CmdFetch) (id name : Str) (hid : ' ' ∉ id) :
    fetchLine c ("fetch ".toList ++ id ++ ' ' :: name)
      = .inr (.fetch { Objects := StrMap.set c.Objects id name }) := by
  have hs : SplitN ("fetch ".toList ++ id ++ ' ' :: name) ' ' 3 = ["fetch".toList, id, name] := by
    have := SplitN_three "fetch".toList id name ' ' (by decide) hid
    simpa using this
  unfold fetchLine
  rw [hs]
  simp [HasPrefix]

theorem fetchText_eq (q : Str × Str) (tail : Str) :
    fetchText q ++ tail = ("fetch ".toList ++ q.1 ++ ' ' :: q.2) ++ '\n' :: tail := by
  simp [fetchText]

theorem fetchText_no_newline (q : Str × Str) (h1 : '\n' ∉ q.1) (h2 : '\n' ∉ q.2) :
    '\n' ∉ "fetch ".toList ++ q.1 ++ ' ' :: q.2 := by
  simp [h1, h2]

/-- Decoding in the fetch-continuation state over further `fetch` lines. -/
theorem fetch_lines (ps : List (Str × Str)) (c : CmdFetch) (tail : Str)
    (hwf : ∀ q ∈ ps, ' ' ∉ q.1 ∧ '\n' ∉ q.1 ∧ '\n' ∉ q.2) :
    readCommandLoop ((ps.flatMap fetchText ++ tail).length + 1) (.fetch c)
        (ps.flatMap fetchText ++ tail)
      = readCommandLoop (tail.length + 1)
          (.fetch { Objects := ps.foldl (fun m q => StrMap.set m q.1 q.2) c.Objects }) tail := by
  induction ps generalizing c with
  | nil => simp
  | cons q ps ih =>
    obtain ⟨h1, h2, h3⟩ := hwf q (by simp)
    rw [List.flatMap_cons, List.append_assoc, fetchText_eq,
      readCommandLoop_line _ _ _ (fetchText_no_newline q h2 h3)]
    simp only [stepLine, fetchLine_fetch c q.1 q.2 h1]
    rw [ih _ (fun r hr => hwf r (by simp [hr]))]
    simp

/-- Decoding from the root state over a first `fetch` line and further ones. -/
theorem fetch_lines_root (p : Str × Str) (ps : List (Str × Str)) (tail : Str)
    (hwf : ∀ q ∈ p :: ps, ' ' ∉ q.1 ∧ '\n' ∉ q.1 ∧ '\n' ∉ q.2) :
    readCommand ((p :: ps).flatMap fetchText ++ tail)
      = readCommandLoop (tail.length + 1)
          (.fetch { Objects := (p :: ps).foldl (fun m q => StrMap.set m q.1 q.2) [] }) tail := by
  obtain ⟨h1, h2, h3⟩ := hwf p (by simp)
  unfold readCommand
  rw [List.flatMap_cons, List.append_assoc, fetchText_eq,
    readCommandLoop_line _ _ _ (fetchText_no_newline p h2 h3)]
  simp only [stepLine, rootLine_fetch p.1 p.2 h1]
  rw [fetch_lines ps _ tail (fun r hr => hwf r (by simp [hr]))]
  simp

theorem readCommandLoop_blank (state : ParseState) (rest : Str) :
    readCommandLoop (('\n' :: rest).length + 1) state ('\n' :: rest)
      = match stepLine state [] with
        | .inl res => some (res, rest)
        | .inr state => readCommandLoop (rest.length + 1) state rest :=
  readCommandLoop_line state [] rest (by simp)

/-! ### The push states -/

theorem Cut_eq_none_iff (s : Str) (sep : Char) : Cut s sep = none ↔ sep ∉ s := by
  constructor
  · intro h hmem
    induction s with
    | nil => simp at hmem
    | cons c cs ih =>
      by_cases hc : c = sep
      · simp [Cut, hc] at h
      · simp only [Cut, hc, if_false, Option.map_eq_none'] at h
        rcases List.mem_cons.mp hmem with e | e
        · exact hc e.symm
        · exact ih h e
  · exact Cut_none s sep

theorem SplitN_length (n : Nat) :
    ∀ s : Str, ∀ sep : Char, n ≤ s.count sep → (SplitN s sep (n + 1)).length = n + 1 := by
  induction n with
  | zero => intro s sep _; simp [SplitN]
  | succ n ih =>
    intro s sep hn
    cases hcut : Cut s sep with
    | none =>
      have hnot := (Cut_eq_none_iff s sep).mp hcut
      have hz : s.count sep = 0 := List.count_eq_zero.mpr hnot
      omega
    | some r =>
      obtain ⟨a, b⟩ := r
      obtain ⟨hs, ha⟩ := Cut_some s sep a b hcut
      have hca : a.count sep = 0 := List.count_eq_zero.mpr ha
      have hb : n ≤ b.count sep := by
        rw [hs, List.count_append, List.count_cons_self, hca] at hn
        omega
      simp [SplitN, hcut, ih b sep hb]

theorem Split_length (s : Str) (sep : Char) : (Split s sep).length = s.count sep + 1 :=
  SplitN_length (s.count sep) s sep (le_refl _)

theorem Split_two (a b : Str) (sep : Char) (ha : sep ∉ a) (hb : sep ∉ b) :
    Split (a ++ sep :: b) sep = [a, b] := by
  have hc : (a ++ sep :: b).count sep = 1 := by
    rw [List.count_append, List.count_cons_self, List.count_eq_zero.mpr ha,
      List.count_eq_zero.mpr hb]
  rw [Split, hc]
  exact SplitN_two a b sep ha

theorem HasPrefix_plus (s : Str) :
    HasPrefix s "+".toList = decide (s.head? = some '+') := by
  cases s with
  | nil => simp [HasPrefix, List.isPrefixOf]
  | cons c cs =>
    by_cases hc : c = '+'
    · simp [HasPrefix, List.isPrefixOf, hc]
    · have hc' : ¬ '+' = c := fun e => hc e.symm
      simp [HasPrefix, List.isPrefixOf, hc, hc']

theorem pushSpecBody_eq (spec : Str) :
    (if HasPrefix spec "+".toList = true then spec.drop 1 else spec) = pushSpecBody spec := by
  cases spec with
  | nil => simp [HasPrefix, pushSpecBody]
  | cons c cs =>
    by_cases hc : c = '+'
    · simp [HasPrefix, pushSpecBody, hc]
    · have hc' : ¬ '+' = c := fun e => hc e.symm
      simp [HasPrefix, pushSpecBody, hc, hc']

theorem parsePushLine_spec (spec : Str) :
    parsePushLine ("push ".toList ++ spec)
      = match Split (pushSpecBody spec) ':' with
        | [src, dst] =>
          some { Src := src, Dst := dst, Force := HasPrefix spec "+".toList, Ok := false,
                 Err := none }
        | _ => none := by
  have hs : SplitN ("push ".toList ++ spec) ' ' 2 = ["push".toList, spec] := by
    have := SplitN_two "push".toList spec ' ' (by decide)
    simpa using this
  unfold parsePushLine
  rw [hs]
  simp only [pushSpecBody_eq]

theorem parsePushLine_ref (force : Bool) (src dst : Str)
    (h : (PushItem.ref force src dst).wellFormed) :
    parsePushLine (PushItem.ref force src dst).line
      = some { Src := src, Dst := dst, Force := force, Ok := false, Err := none } := by
  obtain ⟨h1, h2, _, _, h5⟩ := h
  cases force with
  | true =>
    have hl : (PushItem.ref true src dst).line = "push ".toList ++ ('+' :: (src ++ ':' :: dst)) := by
      simp [PushItem.line]
    rw [hl, parsePushLine_spec]
    have hb : pushSpecBody ('+' :: (src ++ ':' :: dst)) = src ++ ':' :: dst := by
      simp [pushSpecBody]
    rw [hb, Split_two src dst ':' h1 h2]
    simp [HasPrefix]
  | false =>
    have hl : (PushItem.ref false src dst).line = "push ".toList ++ (src ++ ':' :: dst) := by
      simp [PushItem.line]
    rw [hl, parsePushLine_spec]
    have hh : (src ++ ':' :: dst).head? ≠ some '+' := by
      cases src with
      | nil => simp
      | cons c cs => simpa using h5 rfl
    have hb : pushSpecBody (src ++ ':' :: dst) = src ++ ':' :: dst := by
      unfold pushSpecBody
      rw [if_neg hh]
    have hp : HasPrefix (src ++ ':' :: dst) "+".toList = false := by
      rw [HasPrefix_plus]
      exact decide_eq_false hh
    rw [hb, Split_two src dst ':' h1 h2, hp]

theorem parsePushLine_bad (spec : Str) (h : (pushSpecBody spec).count ':' ≠ 1) :
    parsePushLine ("push ".toList ++ spec) = none := by
  rw [parsePushLine_spec]
  have hl := Split_length (pushSpecBody spec) ':'
  rcases hsp : Split (pushSpecBody spec) ':' with _ | ⟨a, _ | ⟨b, _ | ⟨c, l⟩⟩⟩
  · rfl
  · rfl
  · rw [hsp] at hl
    simp at hl
    omega
  · rfl

theorem PushItem.line_no_newline (it : PushItem) (h : it.wellFormed) : '\n' ∉ it.line := by
  cases it with
  | ref force src dst =>
    obtain ⟨_, _, h3, h4, _⟩ := h
    cases force <;> simp [PushItem.line, h3, h4]
  | other line => exact h.2.1

theorem rootLine_push (force : Bool) (src dst : Str)
    (h : (PushItem.ref force src dst).wellFormed) :
    rootLine (PushItem.ref force src dst).line
      = .inr (.push { Refs := [{ Src := src, Dst := dst, Force := force, Ok := false,
                                 Err := none }], Options := [] }) := by
  have hp := parsePushLine_ref force src dst h
  unfold rootLine
  rw [hp]
  cases force <;> simp [PushItem.line, HasPrefix]

theorem pushLine_item (c : CmdPush) (it : PushItem) (h : it.wellFormed) :
    pushLine c it.line
      = .inr (.push { Refs := c.Refs ++ PushItem.refs [it],
                      Options := c.Options ++ PushItem.options [it] }) := by
  cases it with
  | ref force src dst =>
    have hp := parsePushLine_ref force src dst h
    unfold pushLine
    rw [hp]
    cases force <;> simp [PushItem.line, HasPrefix, PushItem.refs, PushItem.options]
  | other line =>
    obtain ⟨h1, _, h3⟩ := h
    unfold pushLine
    simp only [PushItem.line]
    rw [if_neg h1, h3]
    simp [PushItem.refs, PushItem.options]

theorem PushItem.refs_cons (it : PushItem) (l : List PushItem) :
    PushItem.refs (it :: l) = PushItem.refs [it] ++ PushItem.refs l := by
  cases it <;> simp [PushItem.refs]

theorem PushItem.options_cons (it : PushItem) (l : List PushItem) :
    PushItem.options (it :: l) = PushItem.options [it] ++ PushItem.options l := by
  cases it <;> simp [PushItem.options]

/-- Decoding in the push-continuation state over well-formed lines. -/
theorem push_lines (items : List PushItem) (c : CmdPush) (tail : Str)
    (hwf : ∀ it ∈ items, it.wellFormed) :
    readCommandLoop ((items.flatMap PushItem.text ++ tail).length + 1) (.push c)
        (items.flatMap PushItem.text ++ tail)
      = readCommandLoop (tail.length + 1)
          (.push { Refs := c.Refs ++ PushItem.refs items,
                   Options := c.Options ++ PushItem.options items }) tail := by
  induction items generalizing c with
  | nil => simp [PushItem.refs, PushItem.options]
  | cons it items ih =>
    have hit := hwf it (by simp)
    have htext : PushItem.text it ++ (items.flatMap PushItem.text ++ tail)
        = it.line ++ '\n' :: (items.flatMap PushItem.text ++ tail) := by
      simp [PushItem.text]
    rw [List.flatMap_cons, List.append_assoc, htext,
      readCommandLoop_line _ _ _ (PushItem.line_no_newline it hit)]
    simp only [stepLine, pushLine_item c it hit]
    rw [ih _ (fun r hr => hwf r (by simp [hr]))]
    simp only [List.append_assoc]
    rw [← PushItem.refs_cons, ← PushItem.options_cons]

theorem count_one_split (s : Str) (sep : Char) (h : s.count sep = 1) :
    ∃ a b, s = a ++ sep :: b ∧ sep ∉ a ∧ sep ∉ b := by
  cases hcut : Cut s sep with
  | none =>
    have hz : s.count sep = 0 := List.count_eq_zero.mpr ((Cut_eq_none_iff s sep).mp hcut)
    omega
  | some r =>
    obtain ⟨a, b⟩ := r
    obtain ⟨hs, ha⟩ := Cut_some s sep a b hcut
    refine ⟨a, b, hs, ha, ?_⟩
    have hca : a.count sep = 0 := List.count_eq_zero.mpr ha
    rw [hs, List.count_append, List.count_cons_self, hca] at h
    exact List.count_eq_zero.mp (by omega)

/-! ### The import states -/

theorem rootLine_import (name : Str) :
    rootLine ("import ".toList ++ name) = .inr (.imp { Names := [name] }) := by
  have hs : SplitN ("import ".toList ++ name) ' ' 2 = ["import".toList, name] := by
    have := SplitN_two "import".toList name ' ' (by decide)
    simpa using this
  unfold rootLine
  rw [hs]
  simp [HasPrefix]

theorem importLine_import (c : CmdImport) (name : Str) :
    importLine c ("import ".toList ++ name) = .inr (.imp { Names := c.Names ++ [name] }) := by
  have hs : SplitN ("import ".toList ++ name) ' ' 2 = ["import".toList, name] := by
    have := SplitN_two "import".toList name ' ' (by decide)
    simpa using this
  unfold importLine
  rw [hs]
  simp [HasPrefix]

theorem importText_eq (name tail : Str) :
    importText name ++ tail = ("import ".toList ++ name) ++ '\n' :: tail := by
  simp [importText]

/-- Decoding in the import-continuation state over further `import` lines. -/
theorem import_lines (names : List Str) (c : CmdImport) (tail : Str)
    (hwf : ∀ n ∈ names, '\n' ∉ n) :
    readCommandLoop ((names.flatMap importText ++ tail).length + 1) (.imp c)
        (names.flatMap importText ++ tail)
      = readCommandLoop (tail.length + 1) (.imp { Names := c.Names ++ names }) tail := by
  induction names generalizing c with
  | nil => simp
  | cons n names ih =>
    have hn : '\n' ∉ "import ".toList ++ n := by simp [hwf n (by simp)]
    rw [List.flatMap_cons, List.append_assoc, importText_eq, readCommandLoop_line _ _ _ hn]
    simp only [stepLine, importLine_import c n]
    rw [ih _ (fun r hr => hwf r (by simp [hr]))]
    simp

/-- Decoding from the root state over a first `import` line and further ones. -/
theorem import_lines_root (name : Str) (names : List Str) (tail : Str)
    (hwf : ∀ n ∈ name :: names, '\n' ∉ n) :
    readCommand ((name :: names).flatMap importText ++ tail)
      = readCommandLoop (tail.length + 1) (.imp { Names := name :: names }) tail := by
  have hn : '\n' ∉ "import ".toList ++ name := by simp [hwf name (by simp)]
  unfold readCommand
  rw [List.flatMap_cons, List.append_assoc, importText_eq, readCommandLoop_line _ _ _ hn]
  simp only [stepLine, rootLine_import name]
  rw [import_lines names _ tail (fun r hr => hwf r (by simp [hr]))]
  simp

/-! ### Lines that the fetch and import states reject -/

theorem fetchLine_bad (c : CmdFetch) (bad : Str) (hne : bad ≠ [])
    (hbad : ∀ id name : Str, ' ' ∉ id → bad ≠ "fetch ".toList ++ id ++ ' ' :: name) :
    fetchLine c bad = .inl (.error (.ErrInvalidCommand bad)) := by
  unfold fetchLine
  rw [if_neg hne]
  cases hp : HasPrefix bad "fetch ".toList with
  | false => simp
  | true =>
    obtain ⟨t, ht⟩ := (HasPrefix_iff _ _).mp hp
    have hcut : Cut bad ' ' = some ("fetch".toList, t) := by
      have := Cut_append "fetch".toList t ' ' (by decide)
      rw [ht]
      simpa using this
    cases hct : Cut t ' ' with
    | none => simp [SplitN, hcut, hct]
    | some r =>
      obtain ⟨a, b⟩ := r
      obtain ⟨hs, ha⟩ := Cut_some t ' ' a b hct
      exact absurd (by rw [ht, hs]; simp) (hbad a b ha)

theorem importLine_bad (c : CmdImport) (bad : Str) (hne : bad ≠ [])
    (hbad : HasPrefix bad "import ".toList = false) :
    importLine c bad = .inl (.error (.ErrInvalidCommand bad)) := by
  unfold importLine
  rw [if_neg hne, hbad]
  simp

/-! ### The reader goroutine and the session -/

theorem readCommand_blank (rest : Str) :
    readCommand ('\n' :: rest) = some (.error .EOF, rest) := by
  unfold readCommand
  rw [readCommandLoop_blank]
  simp [stepLine, rootLine]

/-! ### The end of the stream -/

theorem ReadString_eof (s : Str) (h : '\n' ∉ s) : ReadString s '\n' = (s, true, []) := by
  induction s with
  | nil => simp [ReadString]
  | cons c cs ih =>
    have hc : c ≠ '\n' := fun e => h (by simp [e])
    have hcs : '\n' ∉ cs := fun e => h (by simp [e])
    simp [ReadString, hc, ih hcs]

theorem readCommandLoop_eof (fuel : Nat) (state : ParseState) (tail : Str) (h : '\n' ∉ tail) :
    readCommandLoop (fuel + 1) state tail = some (.error .ErrUnexpectedEOF, []) := by
  simp [readCommandLoop, ReadString_eof tail h]

/-! ### The root state -/

theorem rootLine_no_invalid (str l : Str) :
    rootLine str ≠ .inl (.error (.ErrInvalidCommand l)) := by
  unfold rootLine
  repeat' split
  all_goals simp

theorem SplitN_three_short (pre t : Str) (hpre : ' ' ∉ pre) (ht : ' ' ∉ t) :
    SplitN (pre ++ ' ' :: t) ' ' 3 = [pre, t] := by
  simp [SplitN, Cut_append pre t ' ' hpre, Cut_none t ' ' ht]

theorem rootLine_unknown (line : Str) (hne : line ≠ []) (h : ¬ Recognised line) :
    rootLine line = .inl (.ok (.Unknown line)) := by
  unfold Recognised at h
  simp only [not_or] at h
  obtain ⟨h1, h2, h3, h4, h5, h6, h7, h8, h9⟩ := h
  unfold rootLine
  rw [if_neg hne, if_neg h1, if_neg h2, if_neg h3]
  cases ho : HasPrefix line "option ".toList with
  | true =>
    obtain ⟨t, ht⟩ := (HasPrefix_iff _ _).mp ho
    have hline : line = "option".toList ++ ' ' :: t := by rw [ht]; simp
    cases hct : Cut t ' ' with
    | none =>
      have hsp := SplitN_three_short "option".toList t (by decide)
        ((Cut_eq_none_iff t ' ').mp hct)
      rw [← hline] at hsp
      simp [hsp]
    | some r =>
      obtain ⟨a, b⟩ := r
      obtain ⟨hs, ha⟩ := Cut_some t ' ' a b hct
      exact absurd ⟨a, b, ha, by rw [ht, hs]; simp⟩ h5
  | false =>
    simp only [Bool.false_eq_true, if_false]
    cases hf : HasPrefix line "fetch ".toList with
    | true =>
      obtain ⟨t, ht⟩ := (HasPrefix_iff _ _).mp hf
      have hline : line = "fetch".toList ++ ' ' :: t := by rw [ht]; simp
      cases hct : Cut t ' ' with
      | none =>
        have hsp := SplitN_three_short "fetch".toList t (by decide)
          ((Cut_eq_none_iff t ' ').mp hct)
        rw [← hline] at hsp
        simp [hsp]
      | some r =>
        obtain ⟨a, b⟩ := r
        obtain ⟨hs, ha⟩ := Cut_some t ' ' a b hct
        exact absurd ⟨a, b, ha, by rw [ht, hs]; simp⟩ h6
    | false =>
      simp only [Bool.false_eq_true, if_false]
      cases hp : HasPrefix line "push ".toList with
      | true =>
        obtain ⟨spec, hspec⟩ := (HasPrefix_iff _ _).mp hp
        have hcount : (pushSpecBody spec).count ':' ≠ 1 := fun hc => h7 ⟨spec, hspec, hc⟩
        have hbad := parsePushLine_bad spec hcount
        rw [← hspec] at hbad
        simp [hbad]
      | false =>
        simp only [Bool.false_eq_true, if_false]
        cases hi : HasPrefix line "import ".toList with
        | true => exact absurd ((HasPrefix_iff _ _).mp hi) h8
        | false =>
          simp only [Bool.false_eq_true, if_false]
          rw [if_neg h4]
          cases hc : HasPrefix line "connect ".toList with
          | true => exact absurd ((HasPrefix_iff _ _).mp hc) h9
          | false => simp

/-! ### The capability block -/

theorem Capabilities.writeTo_eq (c : Capabilities) :
    Capabilities.writeTo c = some (otherCapLines c ++ refspecLines c ++ ['\n']) := by
  have hnone : ∀ b : Str, callExtra none b = b ++ [] := by intro b; simp [callExtra]
  have hex : ∀ b : Str,
      callExtra (some fun b => writeString c.ExportMarks (writeRune ' ' b)) b
        = b ++ ' ' :: c.ExportMarks := by
    intro b; simp [callExtra, writeRune, writeString]
  have him : ∀ b : Str,
      callExtra (some fun b => writeString c.ImportMarks (writeRune ' ' b)) b
        = b ++ ' ' :: c.ImportMarks := by
    intro b; simp [callExtra, writeRune, writeString]
  simp only [Capabilities.writeTo, bind, Option.bind, refspecLines, otherCapLines,
    writeCap_eq c CapConnect 0 "connect".toList none [] _ (by decide) (by decide) hnone,
    writeCap_eq c CapPush 1 "push".toList none [] _ (by decide) (by decide) hnone,
    writeCap_eq c CapFetch 2 "fetch".toList none [] _ (by decide) (by decide) hnone,
    writeCap_eq c CapExport 3 "export".toList none [] _ (by decide) (by decide) hnone,
    writeCap_eq c CapImport 4 "import".toList none [] _ (by decide) (by decide) hnone,
    writeCap_eq c CapOption 5 "option".toList none [] _ (by decide) (by decide) hnone,
    writeCap_eq c CapBidiImport 7 "bidi-import".toList none [] _ (by decide) (by decide) hnone,
    writeCap_eq c CapExportMarks 8 "export-marks".toList _ (' ' :: c.ExportMarks) _
      (by decide) (by decide) hex,
    writeCap_eq c CapImportMarks 9 "import-marks".toList _ (' ' :: c.ImportMarks) _
      (by decide) (by decide) him,
    writeRefspecs_eq]
  simp [writeRune]

theorem otherCapLines_eq_table (c : Capabilities) :
    otherCapLines c = (capTable c).flatMap (capTableLine c) := by
  simp [otherCapLines, capTable, capTableLine]

theorem capTableLine_mandatory (c : Capabilities) (t : Nat × Str × Str)
    (hm : c.Mandatory.testBit t.1 = true) :
    capTableLine c t = '*' :: (t.2.1 ++ t.2.2) ++ ['\n'] := by
  simp [capTableLine, capLine, hm]

theorem capTableLine_optional (c : Capabilities) (t : Nat × Str × Str)
    (hm : c.Mandatory.testBit t.1 = false) (ho : c.Optional.testBit t.1 = true) :
    capTableLine c t = (t.2.1 ++ t.2.2) ++ ['\n'] := by
  simp [capTableLine, capLine, hm, ho]

theorem refspecLine_mandatory (c : Capabilities) (v : Str)
    (hm : c.Mandatory.testBit 6 = true) :
    capLine (c.Mandatory.testBit 6) (c.Optional.testBit 6) "refspec".toList (' ' :: v)
      = ("*refspec ".toList ++ v) ++ ['\n'] := by
  simp [capLine, hm]

theorem refspecLine_optional (c : Capabilities) (v : Str)
    (hm : c.Mandatory.testBit 6 = false) (ho : c.Optional.testBit 6 = true) :
    capLine (c.Mandatory.testBit 6) (c.Optional.testBit 6) "refspec".toList (' ' :: v)
      = ("refspec ".toList ++ v) ++ ['\n'] := by
  simp [capLine, hm, ho]

theorem flatMap_nil_const {α : Type} (l : List α) : (l.flatMap fun _ => ([] : Str)) = [] := by
  induction l with
  | nil => rfl
  | cons _ _ ih => simp [List.flatMap_cons, ih]

theorem testBit_CapRefspec (i : Nat) : CapRefspec.testBit i = decide (i = 6) := by
  show Nat.testBit (2 ^ 6) i = _
  rw [Nat.testBit_two_pow]
  by_cases h : 6 = i
  · subst h; simp
  · have h' : ¬ i = 6 := fun e => h e.symm
    simp [h, h']

theorem testBit_CapSignedTags (i : Nat) : CapSignedTags.testBit i = decide (i = 12) := by
  show Nat.testBit (2 ^ 12) i = _
  rw [Nat.testBit_two_pow]
  by_cases h : 12 = i
  · subst h; simp
  · have h' : ¬ i = 12 := fun e => h e.symm
    simp [h, h']

/-! ### Blocks of lines -/

theorem lineBlock_nil : LineBlock [] := ⟨[], by simp, by simp⟩

theorem lineBlock_append {a b : Str} (ha : LineBlock a) (hb : LineBlock b) :
    LineBlock (a ++ b) := by
  obtain ⟨la, hla, rfl⟩ := ha
  obtain ⟨lb, hlb, rfl⟩ := hb
  refine ⟨la ++ lb, ?_, by simp⟩
  intro l hl
  rcases List.mem_append.mp hl with h | h
  · exact hla l h
  · exact hlb l h

theorem lineBlock_line (l : Str) (h1 : l ≠ []) (h2 : '\n' ∉ l) : LineBlock (l ++ ['\n']) :=
  ⟨[l], by simpa using ⟨h1, h2⟩, by simp⟩

theorem lineBlock_flatMap {α : Type} (xs : List α) (f : α → Str)
    (h : ∀ x ∈ xs, LineBlock (f x)) : LineBlock (xs.flatMap f) := by
  induction xs with
  | nil => simpa using lineBlock_nil
  | cons x xs ih =>
    rw [List.flatMap_cons]
    exact lineBlock_append (h x (by simp)) (ih fun y hy => h y (by simp [hy]))

theorem capLine_block (m o : Bool) (name extra : Str) (hne : name ≠ [])
    (h1 : '\n' ∉ name) (h2 : '\n' ∉ extra) : LineBlock (capLine m o name extra) := by
  unfold capLine
  cases m with
  | true =>
    have h := lineBlock_line ('*' :: (name ++ extra)) (by simp) (by simp [h1, h2])
    simpa using h
  | false =>
    cases o with
    | true =>
      have h := lineBlock_line (name ++ extra) (by simp [hne]) (by simp [h1, h2])
      simpa using h
    | false => simpa using lineBlock_nil

theorem otherCapLines_block (c : Capabilities)
    (hex : '\n' ∉ c.ExportMarks) (him : '\n' ∉ c.ImportMarks) : LineBlock (otherCapLines c) := by
  rw [otherCapLines_eq_table]
  apply lineBlock_flatMap
  intro t ht
  unfold capTableLine
  simp only [capTable, List.mem_cons, List.mem_singleton, List.not_mem_nil, or_false] at ht
  rcases ht with h | h | h | h | h | h | h | h | h <;> subst h <;>
    exact capLine_block _ _ _ _ (by simp) (by simp) (by simp [hex, him])

theorem refspecLines_block (c : Capabilities) (h : ∀ v ∈ c.Refspecs, '\n' ∉ v) :
    LineBlock (refspecLines c) := by
  unfold refspecLines
  apply lineBlock_flatMap
  intro v hv
  exact capLine_block _ _ _ _ (by decide) (by decide) (by simp [h v hv])

theorem listRefLine_block (e : ListRef)
    (h : '\n' ∉ e.Name ∧ '\n' ∉ e.Hash ∧ '\n' ∉ e.Sym) : LineBlock (listRefLine e) := by
  obtain ⟨h1, h2, h3⟩ := h
  have hl := lineBlock_line
    ((if e.Hash ≠ [] then e.Hash else if e.Sym ≠ [] then '@' :: e.Sym else ['?'])
      ++ ' ' :: e.Name ++ (if e.Unchanged then " unchanged".toList else []))
    (by simp)
    (by
      by_cases hh : e.Hash = [] <;> by_cases hs : e.Sym = [] <;> cases hu : e.Unchanged <;>
        simp [hh, hs, h1, h2, h3])
  unfold listRefLine
  simpa using hl

theorem pushRefLine_block (e : PushRef)
    (h : '\n' ∉ e.Dst ∧ ∀ msg, e.Err = some msg → '\n' ∉ msg) : LineBlock (pushRefLine e) := by
  obtain ⟨h1, h2⟩ := h
  unfold pushRefLine
  cases ho : e.Ok with
  | true =>
    have hl := lineBlock_line ("ok ".toList ++ e.Dst) (by simp) (by simp [h1])
    simpa using hl
  | false =>
    cases he : e.Err with
    | none =>
      have hl := lineBlock_line ("error ".toList ++ e.Dst) (by simp) (by simp [h1])
      simpa using hl
    | some msg =>
      have hl := lineBlock_line ("error ".toList ++ e.Dst ++ ' ' :: msg) (by simp)
        (by simp [h1, h2 msg he])
      simpa using hl

/-! ### Lines of a text -/

theorem atLineStart_append {a b : Str} (ha : AtLineStart a) (hb : AtLineStart b) :
    AtLineStart (a ++ b) := by
  rcases hb with hb | ⟨p, hp⟩
  · subst hb; simpa using ha
  · subst hp
    exact Or.inr ⟨a ++ p, by simp⟩

theorem capLine_atLineStart (m o : Bool) (name extra : Str) :
    AtLineStart (capLine m o name extra) := by
  unfold capLine
  cases m with
  | true => exact Or.inr ⟨'*' :: (name ++ extra), by simp⟩
  | false =>
    cases o with
    | true => exact Or.inr ⟨name ++ extra, by simp⟩
    | false => exact Or.inl (by simp)

theorem atLineStart_flatMap {α : Type} (xs : List α) (f : α → Str)
    (h : ∀ x ∈ xs, AtLineStart (f x)) : AtLineStart (xs.flatMap f) := by
  induction xs with
  | nil => exact Or.inl (by simp)
  | cons x xs ih =>
    rw [List.flatMap_cons]
    exact atLineStart_append (h x (by simp)) (ih fun y hy => h y (by simp [hy]))

theorem HasLine_flatMap {α : Type} (xs : List α) (f : α → Str) (x : α) (line : Str)
    (hx : x ∈ xs) (hfx : f x = line ++ ['\n']) (hall : ∀ y ∈ xs, AtLineStart (f y)) :
    ∀ pre post : Str, AtLineStart pre → HasLine (pre ++ xs.flatMap f ++ post) line := by
  induction xs with
  | nil => simp at hx
  | cons y ys ih =>
    intro pre post hpre
    rcases List.mem_cons.mp hx with h | h
    · subst h
      refine ⟨pre, ys.flatMap f ++ post, ?_, hpre⟩
      rw [List.flatMap_cons, hfx]
      simp
    · have := ih h (fun z hz => hall z (by simp [hz])) (pre ++ f y) post
        (atLineStart_append hpre (hall y (by simp)))
      rw [List.flatMap_cons]
      simpa using this

/-! ### The latch -/

theorem setError_foldl (errs : List (Option Err)) (latch : Option Err) :
    errs.foldl (fun latch err => (setError latch err).1) latch
      = match latch with
        | some e => some e
        | none => errs.findSome? id := by
  induction errs generalizing latch with
  | nil => cases latch <;> simp
  | cons err errs ih =>
    rw [List.foldl_cons, ih]
    cases latch with
    | some e => simp [setError]
    | none => cases err <;> simp [setError, List.findSome?]

/-! ### Executing a command -/

theorem CommandValue.runCommand_some (Quote : Str → Str) (h : Helper) (c : CommandValue)
    (bw : Writer) :
    ∃ bw1 err1, CommandValue.runCommand Quote h c bw = some (bw1, err1)
      ∧ ∃ written, bw1.calls = bw.calls ++ written := by
  unfold CommandValue.runCommand
  cases c.cmd with
  | Unknown Line => exact ⟨_, _, rfl, [], by simp [CmdUnknown.runCommand]⟩
  | Capabilities =>
    simp only [CmdCapabilities.runCommand, Capabilities.writeTo_eq, Option.map_some']
    exact ⟨_, _, rfl, _, rfl⟩
  | List ForPush =>
    refine ⟨_, _, rfl, ?_⟩
    show ∃ written, (CmdList.runCommand h c.Config ForPush bw).1.calls = bw.calls ++ written
    unfold CmdList.runCommand
    split
    · exact ⟨[], by simp⟩
    · exact ⟨_, rfl⟩
  | Option Key Value =>
    refine ⟨_, _, rfl, ?_⟩
    show ∃ written, (CmdOption.runCommand Quote h Key Value bw).1.calls = bw.calls ++ written
    unfold CmdOption.runCommand
    split <;> exact ⟨_, rfl⟩
  | Fetch f =>
    refine ⟨_, _, rfl, ?_⟩
    show ∃ written, (CmdFetch.runCommand h c.Config f bw).1.calls = bw.calls ++ written
    unfold CmdFetch.runCommand
    split
    · exact ⟨[], by simp⟩
    · exact ⟨_, rfl⟩
  | Push p =>
    refine ⟨_, _, rfl, ?_⟩
    show ∃ written, (CmdPush.runCommand h c.Config p bw).1.calls = bw.calls ++ written
    unfold CmdPush.runCommand
    split
    · exact ⟨[], by simp⟩
    · exact ⟨_, rfl⟩
  | Import i => exact ⟨_, _, rfl, [], by simp [CmdImport.runCommand]⟩
  | Export => exact ⟨_, _, rfl, [], by simp [CmdExport.runCommand]⟩
  | Connect Service => exact ⟨_, _, rfl, [], by simp [CmdConnect.runCommand]⟩

/-! ### What a call of the decoder consumes -/

theorem ReadString_length_le (br : Str) (delim : Char) :
    (ReadString br delim).2.2.length ≤ br.length := by
  induction br with
  | nil => simp [ReadString]
  | cons c cs ih =>
    by_cases hc : c = delim
    · simp [ReadString, hc]
    · simp only [ReadString, hc, if_false, List.length_cons]
      omega

theorem readCommandLoop_length (fuel : Nat) :
    ∀ (state : ParseState) (br : Str) (res : Result) (br' : Str),
      readCommandLoop fuel state br = some (res, br') →
      br'.length ≤ br.length ∧ (res ≠ .error .ErrUnexpectedEOF → br'.length < br.length) := by
  induction fuel with
  | zero => intro state br res br' h; simp [readCommandLoop] at h
  | succ f ih =>
    intro state br res br' h
    simp only [readCommandLoop] at h
    have hle := ReadString_length_le br '\n'
    have hlt := ReadString_length br '\n'
    rcases hrs : ReadString br '\n' with ⟨str, eof, br1⟩
    rw [hrs] at h hle hlt
    cases eof with
    | true =>
      simp only [Option.some.injEq, Prod.mk.injEq] at h
      obtain ⟨h1, h2⟩ := h
      subst h1; subst h2
      exact ⟨hle, fun hne => absurd rfl hne⟩
    | false =>
      have hl : br1.length < br.length := hlt rfl
      simp only at h
      cases hstep : stepLine state (TrimSuffix str "\n".toList) with
      | inl r =>
        rw [hstep] at h
        simp only [Option.some.injEq, Prod.mk.injEq] at h
        obtain ⟨h1, h2⟩ := h
        subst h1; subst h2
        exact ⟨by omega, fun _ => hl⟩
      | inr st =>
        rw [hstep] at h
        obtain ⟨h1, _⟩ := ih st br1 res br' h
        exact ⟨by omega, fun _ => by omega⟩

theorem readCommand_ok_length (br : Str) (cmd : Command) (br' : Str)
    (h : readCommand br = some (.ok cmd, br')) : br'.length < br.length :=
  (readCommandLoop_length _ _ _ _ _ h).2 (by simp)

theorem readCommand_length_le (br : Str) (res : Result) (br' : Str)
    (h : readCommand br = some (res, br')) : br'.length ≤ br.length :=
  (readCommandLoop_length _ _ _ _ _ h).1

theorem readCommandsLoop_fuel (n : Nat) :
    ∀ (br : Str) (fuel : Nat), br.length ≤ n → br.length < fuel →
      readCommandsLoop fuel br = readCommandsLoop (br.length + 1) br := by
  induction n with
  | zero =>
    intro br fuel hn hf
    have hbr : br = [] := List.length_eq_zero.mp (Nat.le_zero.mp hn)
    subst hbr
    obtain ⟨f, rfl⟩ : ∃ f, fuel = f + 1 := ⟨fuel - 1, by omega⟩
    have h0 : readCommand [] = some (.error .ErrUnexpectedEOF, []) := by decide
    simp [readCommandsLoop, h0]
  | succ n ih =>
    intro br fuel hn hf
    obtain ⟨f, rfl⟩ : ∃ f, fuel = f + 1 := ⟨fuel - 1, by omega⟩
    simp only [readCommandsLoop]
    rcases hrc : readCommand br with _ | ⟨res, br'⟩
    · rfl
    · cases res with
      | error err => cases err <;> rfl
      | ok cmd =>
        have hl := readCommand_ok_length br cmd br' hrc
        simp only
        rw [ih br' f (by omega) (by omega)]
        by_cases hb : br.length = br'.length + 1
        · rw [hb]
        · rw [ih br' br.length (by omega) (by omega)]

theorem readCommands_step (br : Str) :
    readCommands br
      = match readCommand br with
        | none => none
        | some (.error .EOF, _) => some ([], none)
        | some (.error err, _) => some ([], some err)
        | some (.ok cmd, br') => (readCommands br').map fun r => (cmd :: r.1, r.2) := by
  unfold readCommands
  rw [readCommandsLoop]
  rcases hrc : readCommand br with _ | ⟨res, br'⟩
  · rfl
  · cases res with
    | error err => cases err <;> rfl
    | ok cmd =>
      have hl := readCommand_ok_length br cmd br' hrc
      simp only
      by_cases hb : br.length = br'.length + 1
      · rw [hb]
      · rw [readCommandsLoop_fuel br'.length br' br.length (le_refl _) (by omega)]

theorem readCommands_total (n : Nat) :
    ∀ br : Str, br.length ≤ n → ∃ r, readCommands br = some r := by
  induction n with
  | zero =>
    intro br hn
    have hbr : br = [] := List.length_eq_zero.mp (Nat.le_zero.mp hn)
    subst hbr
    exact ⟨([], some .ErrUnexpectedEOF), by decide⟩
  | succ n ih =>
    intro br hn
    rw [readCommands_step]
    obtain ⟨⟨res, br'⟩, hrc⟩ := readCommand_total br
    rw [hrc]
    cases res with
    | error err => cases err <;> exact ⟨_, rfl⟩
    | ok cmd =>
      have hl := readCommand_ok_length br cmd br' hrc
      obtain ⟨r, hr⟩ := ih br' (by omega)
      exact ⟨(cmd :: r.1, r.2), by simp [hr]⟩

theorem decoded_ok (br : Str) (cmd : Command) (br' : Str)
    (h : readCommand br = some (.ok cmd, br')) : decoded br = cmd :: decoded br' := by
  obtain ⟨r, hr⟩ := readCommands_total br'.length br' (le_refl _)
  unfold decoded
  rw [readCommands_step br, h]
  simp [hr]

/-! ### Events -/

theorem begun_append (t u : List Event) : begun (t ++ u) = begun t ++ begun u := by
  induction t with
  | nil => rfl
  | cons ev t ih => cases ev <;> simp [begun, ih]

theorem recorded_append (t u : List Event) : recorded (t ++ u) = recorded t ++ recorded u := by
  induction t with
  | nil => rfl
  | cons ev t ih => cases ev <;> simp [recorded, ih]

theorem lateCount_append_single (p : Event → Bool) (t : List Event) (ev : Event) :
    lateCount p (t ++ [ev])
      = lateCount p t + (if t.any Event.isError = true ∧ p ev = true then 1 else 0) := by
  induction t with
  | nil => simp [lateCount]
  | cons x t ih =>
    cases hx : x.isError with
    | true =>
      simp only [List.cons_append, lateCount, hx, if_true, List.filter_append, List.length_append,
        List.any_cons, Bool.true_or, true_and]
      cases hp : p ev <;> simp [List.filter, hp]
    | false =>
      rw [List.cons_append,
        show lateCount p (x :: (t ++ [ev])) = lateCount p (t ++ [ev]) by simp [lateCount, hx],
        show lateCount p (x :: t) = lateCount p t by simp [lateCount, hx], ih]
      simp [hx]

theorem lateCount_no_error (p : Event → Bool) (t : List Event)
    (h : t.any Event.isError = false) : lateCount p t = 0 := by
  induction t with
  | nil => rfl
  | cons x t ih =>
    simp only [List.any_cons, Bool.or_eq_false_iff] at h
    simp [lateCount, h.1, ih h.2]

theorem setError_some_snd (latch : Option Err) (err : Err) :
    (setError latch (some err)).2 = true := by
  cases latch <;> simp [setError]

theorem setError_some_fst (latch : Option Err) (err : Err) :
    (setError latch (some err)).1 ≠ none := by
  cases latch <;> simp [setError]

theorem setError_none_fst (latch : Option Err) : (setError latch none).1 = latch := by
  cases latch <;> simp [setError]

theorem setError_snd_iff (latch err : Option Err) :
    (setError latch err).2 = true ↔ (setError latch err).1 ≠ none := by
  simp [setError]

theorem setError_fst_of_ne (latch err : Option Err) (h : latch ≠ none) :
    (setError latch err).1 ≠ none := by
  cases latch with
  | none => exact absurd rfl h
  | some l => simp [setError]

theorem setError_fst_ne_iff (latch err : Option Err) :
    (setError latch err).1 ≠ none ↔ latch ≠ none ∨ err ≠ none := by
  cases latch <;> cases err <;> simp [setError]

/-! ### The invariant of a session -/

theorem serialStep_record (st : Option (Option Command)) (err : Option Err) :
    serialStep st (.record err) = st := by
  rcases st with _ | _ | _ <;> rfl

theorem serialStep_handedOver (st : Option (Option Command)) (cmd : Command) :
    serialStep st (.handedOver cmd) = st := by
  rcases st with _ | _ | _ <;> rfl

theorem Session.Inv.init (stdin : Str) : Session.Inv stdin (Session.init stdin) where
  order := ⟨decoded stdin, by simp [Session.init, begun, RunPc.receivedCmds, ReaderPc.pending],
    fun _ => rfl⟩
  serial := rfl
  latch := rfl
  isError := by simp [Session.init]
  stop := by simp [Session.init]
  lateHandOver := rfl
  lateBegin := by simp [Session.init, lateCount]
  lateBegun := by simp [Session.init, lateCount]

theorem Session.Inv.cancel (stdin : Str) (s : Session) (h : Session.Inv stdin s) :
    Session.Inv stdin { s with cancelled := true } :=
  ⟨h.order, h.serial, h.latch, h.isError, h.stop, h.lateHandOver, h.lateBegin, h.lateBegun⟩

theorem Session.Inv.readEOF (stdin : Str) (s : Session) (br : Str) (h : Session.Inv stdin s)
    (hr : s.reader = .read) : Session.Inv stdin { s with br := br, reader := .done } where
  order := by
    obtain ⟨rest, h1, _⟩ := h.order
    refine ⟨rest, ?_, fun hne => absurd rfl hne⟩
    simpa [hr, ReaderPc.pending] using h1
  serial := h.serial
  latch := h.latch
  isError := h.isError
  stop := fun _ => Or.inr rfl
  lateHandOver := h.lateHandOver
  lateBegin := h.lateBegin
  lateBegun := h.lateBegun

theorem Session.Inv.readErr (stdin : Str) (s : Session) (br : Str) (err : Err)
    (h : Session.Inv stdin s) (hr : s.reader = .read) :
    Session.Inv stdin { s with
      br := br, reader := .done, latch := (setError s.latch (some err)).1,
      trace := s.trace ++ [.record (some err)] } where
  order := by
    obtain ⟨rest, h1, _⟩ := h.order
    refine ⟨rest, ?_, fun hne => absurd rfl hne⟩
    simpa [hr, ReaderPc.pending, begun_append, begun] using h1
  serial := by
    simp only [List.foldl_append, List.foldl_cons, List.foldl_nil, h.serial, serialStep_record]
  latch := by
    simp only [recorded_append, recorded, List.foldl_append, List.foldl_cons, List.foldl_nil,
      ← h.latch]
  isError := by
    simp [setError_some_fst, Event.isError]
  stop := fun _ => Or.inr rfl
  lateHandOver := by
    simp [lateCount_append_single, h.lateHandOver, Event.isHandOver]
  lateBegin := by
    simpa [lateCount_append_single, Event.isBegin] using h.lateBegin
  lateBegun := by
    simpa [lateCount_append_single, Event.isBegin] using h.lateBegun

theorem Session.Inv.readOk (stdin : Str) (s : Session) (br : Str) (cmd : Command)
    (h : Session.Inv stdin s) (hr : s.reader = .read)
    (hread : readCommand s.br = some (.ok cmd, br)) :
    Session.Inv stdin { s with
      br := br, latch := (setError s.latch none).1,
      reader := if (setError s.latch none).2 then .done else .send cmd,
      trace := s.trace ++ [.record none] } where
  order := by
    obtain ⟨rest, h1, h2⟩ := h.order
    have hrest : rest = cmd :: decoded br := by
      rw [h2 (by rw [hr]; simp), decoded_ok _ _ _ hread]
    subst hrest
    simp only [hr, ReaderPc.pending, List.append_nil] at h1
    cases hb : (setError s.latch none).2 with
    | true =>
      refine ⟨cmd :: decoded br, ?_, fun hne => by simp at hne⟩
      simpa [ReaderPc.pending, begun_append, begun] using h1
    | false =>
      refine ⟨decoded br, ?_, fun _ => rfl⟩
      simpa [ReaderPc.pending, begun_append, begun] using h1
  serial := by
    simp only [List.foldl_append, List.foldl_cons, List.foldl_nil, h.serial, serialStep_record]
  latch := by
    simp only [recorded_append, recorded, List.foldl_append, List.foldl_cons, List.foldl_nil,
      ← h.latch]
  isError := by
    simpa [setError_none_fst, Event.isError] using h.isError
  stop := by
    intro hl
    have hb : (setError s.latch none).2 = true := (setError_snd_iff _ _).mpr hl
    right
    simp [hb]
  lateHandOver := by
    simp [lateCount_append_single, h.lateHandOver, Event.isHandOver]
  lateBegin := by
    simpa [lateCount_append_single, Event.isBegin] using h.lateBegin
  lateBegun := by
    simpa [lateCount_append_single, Event.isBegin] using h.lateBegun

theorem Session.Inv.giveUp (stdin : Str) (s : Session) (cmd : Command)
    (h : Session.Inv stdin s) (hr : s.reader = .send cmd) :
    Session.Inv stdin { s with reader := .done } where
  order := by
    obtain ⟨rest, h1, _⟩ := h.order
    refine ⟨cmd :: rest, ?_, fun hne => absurd rfl hne⟩
    simpa [hr, ReaderPc.pending] using h1
  serial := h.serial
  latch := h.latch
  isError := h.isError
  stop := fun _ => Or.inr rfl
  lateHandOver := h.lateHandOver
  lateBegin := h.lateBegin
  lateBegun := h.lateBegun

theorem Session.Inv.handOver (stdin : Str) (s : Session) (cmd : Command)
    (h : Session.Inv stdin s) (hr : s.reader = .send cmd) (hl : s.loop = .wait) :
    Session.Inv stdin { s with
      reader := .read, loop := .received cmd, trace := s.trace ++ [.handedOver cmd] } := by
  have hlatch : s.latch = none := by
    by_contra hne
    rcases h.stop hne with h1 | h1
    · rw [hl] at h1; cases h1
    · rw [hr] at h1; cases h1
  have hany : s.trace.any Event.isError = false := by
    have := h.isError
    rw [hlatch] at this
    simpa using this
  exact
    { order := by
        obtain ⟨rest, h1, h2⟩ := h.order
        refine ⟨rest, ?_, fun _ => h2 (by rw [hr]; simp)⟩
        simpa [hr, hl, ReaderPc.pending, RunPc.receivedCmds, begun_append, begun] using h1
      serial := by
        simp only [List.foldl_append, List.foldl_cons, List.foldl_nil, h.serial,
          serialStep_handedOver, hl, RunPc.runningCmd]
      latch := by
        simp only [recorded_append, recorded, List.append_nil, ← h.latch]
      isError := by
        simpa [Event.isError] using h.isError
      stop := fun hne => absurd hlatch hne
      lateHandOver := by
        simp [lateCount_append_single, h.lateHandOver, hany]
      lateBegin := by
        simpa [lateCount_append_single, Event.isBegin] using h.lateBegin
      lateBegun := by
        intro h1
        have h2 : lateCount Event.isBegin s.trace = 1 := by
          simpa [lateCount_append_single, Event.isBegin] using h1
        have h3 := h.lateBegun h2
        rw [hl] at h3
        simp [RunPc.runningCmd] at h3 }

theorem Session.Inv.closed (stdin : Str) (s : Session)
    (h : Session.Inv stdin s) (hl : s.loop = .wait) :
    Session.Inv stdin { s with loop := .done } where
  order := by
    obtain ⟨rest, h1, h2⟩ := h.order
    refine ⟨rest, ?_, h2⟩
    simpa [hl, RunPc.receivedCmds] using h1
  serial := by
    have := h.serial
    simpa [hl, RunPc.runningCmd] using this
  latch := h.latch
  isError := h.isError
  stop := fun _ => Or.inl rfl
  lateHandOver := h.lateHandOver
  lateBegin := h.lateBegin
  lateBegun := fun _ => Or.inr rfl

theorem Session.Inv.observeCancel (stdin : Str) (s : Session) (ctxErr : Err)
    (h : Session.Inv stdin s) (hl : s.loop = .wait) :
    Session.Inv stdin { s with
      latch := (setError s.latch (some ctxErr)).1,
      loop := if (setError s.latch (some ctxErr)).2 then .done else .wait,
      trace := s.trace ++ [.record (some ctxErr)] } where
  order := by
    obtain ⟨rest, h1, h2⟩ := h.order
    refine ⟨rest, ?_, h2⟩
    simpa [hl, RunPc.receivedCmds, setError_some_snd, begun_append, begun] using h1
  serial := by
    simp only [List.foldl_append, List.foldl_cons, List.foldl_nil, h.serial, serialStep_record,
      hl, setError_some_snd, if_true, RunPc.runningCmd]
  latch := by
    simp only [recorded_append, recorded, List.foldl_append, List.foldl_cons, List.foldl_nil,
      ← h.latch]
  isError := by
    simp [setError_some_fst, Event.isError]
  stop := fun _ => Or.inl (by simp [setError_some_snd])
  lateHandOver := by
    simp [lateCount_append_single, h.lateHandOver, Event.isHandOver]
  lateBegin := by
    simpa [lateCount_append_single, Event.isBegin] using h.lateBegin
  lateBegun := fun _ => Or.inr (by simp [setError_some_snd])

theorem Session.Inv.begin (stdin : Str) (s : Session) (cmd : Command)
    (h : Session.Inv stdin s) (hl : s.loop = .received cmd) :
    Session.Inv stdin { s with loop := .running cmd, trace := s.trace ++ [.begin cmd] } := by
  have hzero : lateCount Event.isBegin s.trace = 0 := by
    have h1 := h.lateBegin
    have h2 := h.lateBegun
    rw [hl] at h2
    by_contra hne
    have h3 : lateCount Event.isBegin s.trace = 1 := by omega
    have := h2 h3
    simp [RunPc.runningCmd] at this
  exact
    { order := by
        obtain ⟨rest, h1, h2⟩ := h.order
        refine ⟨rest, ?_, h2⟩
        simpa [hl, RunPc.receivedCmds, begun_append, begun] using h1
      serial := by
        simp only [List.foldl_append, List.foldl_cons, List.foldl_nil, h.serial, hl,
          RunPc.runningCmd, serialStep]
      latch := by
        simp only [recorded_append, recorded, List.append_nil, ← h.latch]
      isError := by
        simpa [Event.isError] using h.isError
      stop := by
        intro hne
        rcases h.stop hne with h1 | h1
        · rw [hl] at h1; cases h1
        · exact Or.inr h1
      lateHandOver := by
        simp [lateCount_append_single, h.lateHandOver, Event.isHandOver]
      lateBegin := by
        rw [lateCount_append_single, hzero]
        split <;> omega
      lateBegun := fun _ => Or.inl rfl }

theorem Session.Inv.finish (stdin : Str) (s : Session) (cmd : Command) (err : Option Err)
    (h : Session.Inv stdin s) (hl : s.loop = .running cmd) :
    Session.Inv stdin { s with
      latch := (setError s.latch err).1,
      loop := if (setError s.latch err).2 then .done else .wait,
      trace := s.trace ++ [.flushed cmd, .record err] } := by
  have htrace : s.trace ++ [Event.flushed cmd, Event.record err]
      = (s.trace ++ [Event.flushed cmd]) ++ [Event.record err] := by simp
  have hloop : (setError s.latch err).1 ≠ none →
      (if (setError s.latch err).2 then RunPc.done else RunPc.wait) = RunPc.done := by
    intro hne
    simp [(setError_snd_iff _ _).mpr hne]
  exact
    { order := by
        obtain ⟨rest, h1, h2⟩ := h.order
        refine ⟨rest, ?_, h2⟩
        have hrc : (if (setError s.latch err).2 then RunPc.done else RunPc.wait).receivedCmds
            = [] := by
          split <;> rfl
        simp only [hrc]
        simpa [hl, RunPc.receivedCmds, begun_append, begun] using h1
      serial := by
        have hrun : (if (setError s.latch err).2 then RunPc.done else RunPc.wait).runningCmd
            = none := by
          split <;> rfl
        have hs := h.serial
        rw [hl] at hs
        rw [hrun, List.foldl_append, hs]
        simp [serialStep, RunPc.runningCmd]
      latch := by
        simp only [recorded_append, recorded, List.foldl_append, List.foldl_cons, List.foldl_nil,
          ← h.latch]
      isError := by
        have hi := h.isError
        simp only [htrace, List.any_append, List.any_cons, List.any_nil, Bool.or_false,
          Event.isError, Bool.or_eq_true, setError_fst_ne_iff, hi]
        cases err <;> simp [Event.isError]
      stop := fun hne => Or.inl (hloop hne)
      lateHandOver := by
        rw [htrace, lateCount_append_single, lateCount_append_single, h.lateHandOver]
        simp [Event.isHandOver]
      lateBegin := by
        rw [htrace, lateCount_append_single, lateCount_append_single]
        simpa [Event.isBegin] using h.lateBegin
      lateBegun := by
        intro h1
        rw [htrace, lateCount_append_single, lateCount_append_single] at h1
        have h2 : lateCount Event.isBegin s.trace = 1 := by simpa [Event.isBegin] using h1
        have hany : s.trace.any Event.isError = true := by
          by_contra hf
          have := lateCount_no_error Event.isBegin s.trace (by simpa using hf)
          omega
        have hne : s.latch ≠ none := h.isError.mpr hany
        exact Or.inr (hloop (setError_fst_of_ne _ _ hne)) }

theorem Session.step_inv (runCommand : List Event → Command → Option Err) (ctxErr : Err)
    (stdin : Str) (a : Action) (s s' : Session) (h : Session.Inv stdin s)
    (hstep : Session.step runCommand ctxErr a s = some s') : Session.Inv stdin s' := by
  cases a with
  | cancel =>
    simp only [Session.step] at hstep
    split at hstep
    · cases hstep
    · cases hstep
      exact h.cancel
  | read =>
    simp only [Session.step] at hstep
    split at hstep
    · rename_i hr
      split at hstep
      · cases hstep
      · cases hstep
        exact h.readEOF stdin s _ hr
      · cases hstep
        exact h.readErr stdin s _ _ hr
      · rename_i hread
        cases hstep
        exact h.readOk stdin s _ _ hr hread
    · cases hstep
  | giveUp =>
    simp only [Session.step] at hstep
    split at hstep
    · rename_i hr
      split at hstep
      · cases hstep
        exact h.giveUp stdin s _ hr
      · cases hstep
    · cases hstep
  | handOver =>
    simp only [Session.step] at hstep
    split at hstep
    · rename_i hr hl
      cases hstep
      exact h.handOver stdin s _ hr hl
    · cases hstep
  | closed =>
    simp only [Session.step] at hstep
    split at hstep
    · rename_i hr hl
      cases hstep
      exact h.closed stdin s hl
    · cases hstep
  | observeCancel =>
    simp only [Session.step] at hstep
    split at hstep
    · rename_i hl
      split at hstep
      · cases hstep
        exact h.observeCancel stdin s ctxErr hl
      · cases hstep
    · cases hstep
  | begin =>
    simp only [Session.step] at hstep
    split at hstep
    · rename_i hl
      cases hstep
      exact h.begin stdin s _ hl
    · cases hstep
  | finish =>
    simp only [Session.step] at hstep
    split at hstep
    · rename_i hl
      cases hstep
      exact h.finish stdin s _ _ hl
    · cases hstep

theorem Session.exec_inv (runCommand : List Event → Command → Option Err) (ctxErr : Err)
    (stdin : Str) (acts : List Action) :
    ∀ s s' : Session, Session.Inv stdin s → Session.exec runCommand ctxErr acts s = some s' →
      Session.Inv stdin s' := by
  induction acts with
  | nil =>
    intro s s' h hex
    simp only [Session.exec, Option.some.injEq] at hex
    subst hex
    exact h
  | cons a acts ih =>
    intro s s' h hex
    simp only [Session.exec] at hex
    cases hstep : Session.step runCommand ctxErr a s with
    | none => simp [hstep] at hex
    | some s1 =>
      rw [hstep] at hex
      exact ih s1 s' (Session.step_inv runCommand ctxErr stdin a s s1 h hstep) hex

/-! ### Sessions end -/

theorem Session.step_measure (runCommand : List Event → Command → Option Err) (ctxErr : Err)
    (a : Action) (s s' : Session) (hstep : Session.step runCommand ctxErr a s = some s') :
    s'.measure < s.measure := by
  cases a with
  | cancel =>
    simp only [Session.step] at hstep
    split at hstep
    · cases hstep
    · rename_i hc
      cases hstep
      simp [Session.measure, hc]
  | read =>
    simp only [Session.step] at hstep
    split at hstep
    · rename_i hr
      split at hstep
      · cases hstep
      · rename_i hread
        cases hstep
        have := readCommand_length_le _ _ _ hread
        simp only [Session.measure, hr, ReaderPc.rank]
        omega
      · rename_i hread
        cases hstep
        have := readCommand_length_le _ _ _ hread
        simp only [Session.measure, hr, ReaderPc.rank]
        omega
      · rename_i hread
        cases hstep
        have := readCommand_ok_length _ _ _ hread
        cases hb : (setError s.latch none).2 <;>
          simp only [Session.measure, hr, ReaderPc.rank, Bool.false_eq_true, if_false,
            if_true] <;>
          omega
    · cases hstep
  | giveUp =>
    simp only [Session.step] at hstep
    split at hstep
    · rename_i hr
      split at hstep
      · cases hstep
        simp only [Session.measure, hr, ReaderPc.rank]
        omega
      · cases hstep
    · cases hstep
  | handOver =>
    simp only [Session.step] at hstep
    split at hstep
    · rename_i hr hl
      cases hstep
      simp only [Session.measure, hr, hl, ReaderPc.rank, RunPc.rank]
      omega
    · cases hstep
  | closed =>
    simp only [Session.step] at hstep
    split at hstep
    · rename_i hr hl
      cases hstep
      simp only [Session.measure, hl, RunPc.rank]
      omega
    · cases hstep
  | observeCancel =>
    simp only [Session.step] at hstep
    split at hstep
    · rename_i hl
      split at hstep
      · cases hstep
        simp only [Session.measure, hl, RunPc.rank, setError_some_snd, if_true]
        omega
      · cases hstep
    · cases hstep
  | begin =>
    simp only [Session.step] at hstep
    split at hstep
    · rename_i hl
      cases hstep
      simp only [Session.measure, hl, RunPc.rank]
      omega
    · cases hstep
  | finish =>
    simp only [Session.step] at hstep
    split at hstep
    · rename_i cmd hl
      cases hstep
      cases hb : (setError s.latch (runCommand s.trace cmd)).2 <;>
        simp only [Session.measure, hl, RunPc.rank, Bool.false_eq_true, if_false, if_true] <;>
        omega
    · cases hstep

theorem Session.exec_measure (runCommand : List Event → Command → Option Err) (ctxErr : Err)
    (acts : List Action) :
    ∀ s s' : Session, Session.exec runCommand ctxErr acts s = some s' →
      acts.length + s'.measure ≤ s.measure := by
  induction acts with
  | nil =>
    intro s s' hex
    simp only [Session.exec, Option.some.injEq] at hex
    subst hex
    simp
  | cons a acts ih =>
    intro s s' hex
    simp only [Session.exec] at hex
    cases hstep : Session.step runCommand ctxErr a s with
    | none => simp [hstep] at hex
    | some s1 =>
      rw [hstep] at hex
      have h1 := Session.step_measure runCommand ctxErr a s s1 hstep
      have h2 := ih s1 s' hex
      simp only [List.length_cons]
      omega

theorem Session.step_enabled (runCommand : List Event → Command → Option Err) (ctxErr : Err)
    (s : Session) (h : s.loop ≠ .done) :
    ∃ a s', Session.step runCommand ctxErr a s = some s' := by
  cases hl : s.loop with
  | done => exact absurd hl h
  | received cmd => exact ⟨.begin, by simp [Session.step, hl]⟩
  | running cmd => exact ⟨.finish, by simp [Session.step, hl]⟩
  | wait =>
    cases hr : s.reader with
    | done => exact ⟨.closed, by simp [Session.step, hl, hr]⟩
    | send cmd => exact ⟨.handOver, by simp [Session.step, hl, hr]⟩
    | read =>
      obtain ⟨⟨res, br⟩, hread⟩ := readCommand_total s.br
      cases res with
      | ok cmd => exact ⟨.read, by simp [Session.step, hr, hread]⟩
      | error err =>
        cases err with
        | EOF => exact ⟨.read, by simp [Session.step, hr, hread]⟩
        | ErrUnexpectedEOF => exact ⟨.read, by simp [Session.step, hr, hread]⟩
        | ErrInvalidCommand line => exact ⟨.read, by simp [Session.step, hr, hread]⟩
        | ErrUnsupportedOption => exact ⟨.read, by simp [Session.step, hr, hread]⟩
        | other msg => exact ⟨.read, by simp [Session.step, hr, hread]⟩

/-! ### The names of the capabilities -/

theorem Capability.String_shift (i : Nat) (h : i < 13) :
    Capability.String (1 <<< i) = capabilityNames[i]? := by
  interval_cases i <;> rfl

theorem Capability.String_none (c : Capability) (h : ∀ i, i < 13 → c ≠ 1 <<< i) :
    Capability.String c = none := by
  have h0 : c ≠ CapConnect := h 0 (by omega)
  have h1 : c ≠ CapPush := h 1 (by omega)
  have h2 : c ≠ CapFetch := h 2 (by omega)
  have h3 : c ≠ CapExport := h 3 (by omega)
  have h4 : c ≠ CapImport := h 4 (by omega)
  have h5 : c ≠ CapOption := h 5 (by omega)
  have h6 : c ≠ CapRefspec := h 6 (by omega)
  have h7 : c ≠ CapBidiImport := h 7 (by omega)
  have h8 : c ≠ CapExportMarks := h 8 (by omega)
  have h9 : c ≠ CapImportMarks := h 9 (by omega)
  have h10 : c ≠ CapNoPrivateUpdate := h 10 (by omega)
  have h11 : c ≠ CapCheckConnectivity := h 11 (by omega)
  have h12 : c ≠ CapSignedTags := h 12 (by omega)
  unfold Capability.String
  rw [if_neg h0, if_neg h1, if_neg h2, if_neg h3, if_neg h4, if_neg h5, if_neg h6, if_neg h7,
    if_neg h8, if_neg h9, if_neg h10, if_neg h11, if_neg h12]

theorem two_bits_ne_shift (c i j k : Nat) (hij : i ≠ j) (hi : c.testBit i = true)
    (hj : c.testBit j = true) : c ≠ 1 <<< k := by
  intro hc
  rw [Nat.one_shiftLeft] at hc
  rw [hc, Nat.testBit_two_pow] at hi hj
  have h1 : k = i := by simpa using hi
  have h2 : k = j := by simpa using hj
  exact hij (h1.symm.trans h2)

theorem rootLine_option (key value : Str) (hkey : ' ' ∉ key) :
    rootLine ("option ".toList ++ key ++ ' ' :: value) = .inl (.ok (.Option key value)) := by
  have hs : SplitN ("option ".toList ++ key ++ ' ' :: value) ' ' 3
      = ["option".toList, key, value] := by
    have := SplitN_three "option".toList key value ' ' (by decide) hkey
    simpa using this
  unfold rootLine
  rw [hs]
  simp [HasPrefix]

theorem writeCapCalls_written (c : Capabilities) (cap : Capability) :
    ∀ x ∈ writeCapCalls c cap, x = cap := by
  intro x hx
  unfold writeCapCalls at hx
  split at hx
  · simpa using hx
  · split at hx
    · simpa using hx
    · simp at hx

/-! ### Fresh requests -/

theorem parsePushLine_fresh (str : Str) (ref : PushRef) (h : parsePushLine str = some ref) :
    ref.fresh := by
  unfold parsePushLine at h
  split at h
  · dsimp only at h
    split at h
    · simp only [Option.some.injEq] at h
      subst h
      exact ⟨rfl, rfl⟩
    · cases h
  · cases h

theorem rootLine_fresh_result (str : Str) (res : Result) :
    rootLine str = .inl res → res.fresh := by
  unfold rootLine
  repeat' split
  all_goals
    intro h
    first
      | (cases h; done)
      | (cases h; exact True.intro)

theorem rootLine_fresh_state (str : Str) (st : ParseState) :
    rootLine str = .inr st → st.fresh := by
  unfold rootLine
  repeat' split
  all_goals
    intro h
    first
      | (cases h; done)
      | (cases h; exact True.intro)
      | (cases h
         simp only [ParseState.fresh, List.mem_singleton, forall_eq]
         exact parsePushLine_fresh _ _ (by assumption))

theorem stepLine_fresh (state : ParseState) (str : Str) (hst : state.fresh) :
    (∀ res, stepLine state str = .inl res → res.fresh)
    ∧ (∀ st, stepLine state str = .inr st → st.fresh) := by
  cases state with
  | root => exact ⟨rootLine_fresh_result str, rootLine_fresh_state str⟩
  | fetch c =>
    simp only [stepLine, fetchLine]
    constructor
    · intro res
      repeat' split
      all_goals
        intro h
        first
          | (cases h; done)
          | (cases h; exact True.intro)
    · intro st
      repeat' split
      all_goals
        intro h
        first
          | (cases h; done)
          | (cases h; exact True.intro)
  | imp c =>
    simp only [stepLine, importLine]
    constructor
    · intro res
      repeat' split
      all_goals
        intro h
        first
          | (cases h; done)
          | (cases h; exact True.intro)
    · intro st
      repeat' split
      all_goals
        intro h
        first
          | (cases h; done)
          | (cases h; exact True.intro)
  | push c =>
    have hc : ∀ ref ∈ c.Refs, ref.fresh := hst
    simp only [stepLine, pushLine]
    constructor
    · intro res
      split
      · intro h
        cases h
        exact hc
      · split
        · split
          · intro h; cases h
          · intro h
            cases h
            exact True.intro
        · intro h; cases h
    · intro st
      split
      · intro h; cases h
      · split
        · split
          · rename_i ref hparse
            intro h
            cases h
            simp only [ParseState.fresh]
            intro r hr
            rcases List.mem_append.mp hr with h1 | h1
            · exact hc r h1
            · rw [List.mem_singleton.mp h1]
              exact parsePushLine_fresh _ _ hparse
          · intro h; cases h
        · intro h
          cases h
          exact hc

theorem readCommandLoop_fresh (fuel : Nat) :
    ∀ (state : ParseState) (br : Str) (res : Result) (rest : Str), state.fresh →
      readCommandLoop fuel state br = some (res, rest) → res.fresh := by
  induction fuel with
  | zero => intro state br res rest _ h; simp [readCommandLoop] at h
  | succ f ih =>
    intro state br res rest hst h
    simp only [readCommandLoop] at h
    rcases hrs : ReadString br '\n' with ⟨str, eof, br1⟩
    rw [hrs] at h
    cases eof with
    | true =>
      simp only [Option.some.injEq, Prod.mk.injEq] at h
      obtain ⟨h1, _⟩ := h
      subst h1
      simp [Result.fresh]
    | false =>
      simp only at h
      obtain ⟨hres, hstate⟩ := stepLine_fresh state (TrimSuffix str "\n".toList) hst
      cases hstep : stepLine state (TrimSuffix str "\n".toList) with
      | inl r =>
        rw [hstep] at h
        simp only [Option.some.injEq, Prod.mk.injEq] at h
        obtain ⟨h1, _⟩ := h
        subst h1
        exact hres r hstep
      | inr st =>
        rw [hstep] at h
        exact ih st br1 res rest (hstate st hstep) h

theorem pushRefLine_fresh (refs : List PushRef) (h : ∀ ref ∈ refs, ref.fresh) :
    refs.flatMap pushRefLine = refs.flatMap fun ref => "error ".toList ++ ref.Dst ++ ['\n'] := by
  induction refs with
  | nil => rfl
  | cons ref refs ih =>
    obtain ⟨hok, herr⟩ := h ref (by simp)
    rw [List.flatMap_cons, List.flatMap_cons, ih fun r hr => h r (by simp [hr])]
    congr 1
    simp [pushRefLine, hok, herr]

/-! ### Sessions without cancellation whose commands succeed -/

theorem recordedByReader_eof (br br' : Str) (h : readCommand br = some (.error .EOF, br')) :
    recordedByReader br = none := by
  unfold recordedByReader
  rw [readCommands_step, h]

theorem recordedByReader_err (br br' : Str) (err : Err)
    (h : readCommand br = some (.error err, br')) (hne : err ≠ .EOF) :
    recordedByReader br = some err := by
  unfold recordedByReader
  rw [readCommands_step, h]
  cases err <;> first | exact absurd rfl hne | rfl

theorem recordedByReader_ok (br br' : Str) (cmd : Command)
    (h : readCommand br = some (.ok cmd, br')) :
    recordedByReader br = recordedByReader br' := by
  obtain ⟨r, hr⟩ := readCommands_total br'.length br' (le_refl _)
  unfold recordedByReader
  rw [readCommands_step br, h]
  simp [hr]

theorem Session.Clean.start (stdin : Str) : Session.Clean stdin (Session.init stdin) where
  active := fun _ => ⟨rfl, rfl⟩
  finished := fun h => by simp [Session.init] at h
  loopDone := fun h => by simp [Session.init] at h
  running := fun cmd h => by simp [Session.init] at h

theorem Session.Clean.atEOF (stdin : Str) (s : Session) (br' : Str)
    (h : Session.Clean stdin s) (hr : s.reader = .read)
    (hrc : readCommand s.br = some (.error .EOF, br')) :
    Session.Clean stdin { s with br := br', reader := .done } where
  active := fun hne => absurd rfl hne
  finished := fun _ => by
    obtain ⟨h1, h2⟩ := h.active (by rw [hr]; simp)
    rw [recordedByReader_eof _ _ hrc] at h2
    show s.latch = recordedByReader stdin
    rw [h1, ← h2]
  loopDone := fun _ => rfl
  running := h.running

theorem Session.Clean.atErr (stdin : Str) (s : Session) (br' : Str) (err : Err)
    (h : Session.Clean stdin s) (hr : s.reader = .read)
    (hrc : readCommand s.br = some (.error err, br')) (hne : err ≠ .EOF) :
    Session.Clean stdin { s with
      br := br', reader := .done, latch := (setError s.latch (some err)).1,
      trace := s.trace ++ [.record (some err)] } where
  active := fun hne' => absurd rfl hne'
  finished := fun _ => by
    obtain ⟨h1, h2⟩ := h.active (by rw [hr]; simp)
    rw [recordedByReader_err _ _ _ hrc hne] at h2
    show (setError s.latch (some err)).1 = recordedByReader stdin
    rw [h1, ← h2]
    rfl
  loopDone := fun _ => rfl
  running := h.running

theorem Session.Clean.atOk (stdin : Str) (s : Session) (br' : Str) (cmd : Command)
    (h : Session.Clean stdin s) (hr : s.reader = .read)
    (hrc : readCommand s.br = some (.ok cmd, br')) :
    Session.Clean stdin { s with
      br := br', latch := (setError s.latch none).1,
      reader := if (setError s.latch none).2 then .done else .send cmd,
      trace := s.trace ++ [.record none] } := by
  obtain ⟨h1, h2⟩ := h.active (by rw [hr]; simp)
  have hl : s.loop ≠ .done := by
    intro hd
    have := h.loopDone hd
    rw [hr] at this
    cases this
  have hsnd : (setError s.latch none).2 = false := by rw [h1]; rfl
  have hfst : (setError s.latch none).1 = none := by rw [h1]; rfl
  exact
    { active := fun _ => ⟨hfst, by
        show recordedByReader br' = recordedByReader stdin
        rw [← recordedByReader_ok _ _ _ hrc, h2]⟩
      finished := fun hd => by simp [hsnd] at hd
      loopDone := fun hd => absurd hd hl
      running := h.running }

theorem Session.Clean.atHandOver (stdin : Str) (s : Session) (cmd : Command)
    (h : Session.Clean stdin s) (hr : s.reader = .send cmd) :
    Session.Clean stdin { s with
      reader := .read, loop := .received cmd, trace := s.trace ++ [.handedOver cmd] } where
  active := fun _ => h.active (by rw [hr]; simp)
  finished := fun hd => by simp at hd
  loopDone := fun hd => by simp at hd
  running := fun c hc => by simp at hc

theorem Session.Clean.atClosed (stdin : Str) (s : Session)
    (h : Session.Clean stdin s) (hr : s.reader = .done) :
    Session.Clean stdin { s with loop := .done } where
  active := h.active
  finished := h.finished
  loopDone := fun _ => hr
  running := fun c hc => by simp at hc

theorem Session.Clean.atBegin (stdin : Str) (s : Session) (cmd : Command)
    (h : Session.Clean stdin s) (hinv : Session.Inv stdin s) (hl : s.loop = .received cmd) :
    Session.Clean stdin { s with loop := .running cmd, trace := s.trace ++ [.begin cmd] } where
  active := h.active
  finished := h.finished
  loopDone := fun hd => by simp at hd
  running := fun c hc => by
    have hcc : cmd = c := by simpa using hc
    subst hcc
    obtain ⟨rest, h1, _⟩ := hinv.order
    rw [h1, hl]
    simp [RunPc.receivedCmds]

theorem Session.Clean.atFinish (stdin : Str) (s : Session) (cmd : Command) (err : Option Err)
    (h : Session.Clean stdin s) (herr : err = none) :
    Session.Clean stdin { s with
      latch := (setError s.latch err).1,
      loop := if (setError s.latch err).2 then .done else .wait,
      trace := s.trace ++ [.flushed cmd, .record err] } := by
  subst herr
  have hfst : (setError s.latch none).1 = s.latch := setError_none_fst s.latch
  exact
    { active := fun hne => by
        obtain ⟨h1, h2⟩ := h.active hne
        exact ⟨by show (setError s.latch none).1 = none; rw [hfst, h1], h2⟩
      finished := fun hd => by
        show (setError s.latch none).1 = recordedByReader stdin
        rw [hfst]
        exact h.finished hd
      loopDone := fun hd => by
        show s.reader = .done
        by_contra hne
        obtain ⟨h1, _⟩ := h.active hne
        have hsnd : (setError s.latch none).2 = false := by rw [h1]; rfl
        simp [hsnd] at hd
      running := fun c hc => by
        cases hb : (setError s.latch none).2 <;> simp [hb] at hc }

theorem Session.step_cancelled (runCommand : List Event → Command → Option Err) (ctxErr : Err)
    (a : Action) (s s' : Session) (hstep : Session.step runCommand ctxErr a s = some s')
    (hc : s'.cancelled = false) : s.cancelled = false ∧ a ≠ .cancel := by
  cases a with
  | cancel =>
    simp only [Session.step] at hstep
    split at hstep
    · cases hstep
    · cases hstep
      simp at hc
  | read =>
    simp only [Session.step] at hstep
    refine ⟨?_, by simp⟩
    split at hstep
    · split at hstep <;> first | (cases hstep; done) | (cases hstep; exact hc)
    · cases hstep
  | giveUp =>
    simp only [Session.step] at hstep
    refine ⟨?_, by simp⟩
    split at hstep
    · split at hstep <;> first | (cases hstep; done) | (cases hstep; exact hc)
    · cases hstep
  | handOver =>
    simp only [Session.step] at hstep
    refine ⟨?_, by simp⟩
    split at hstep <;> first | (cases hstep; done) | (cases hstep; exact hc)
  | closed =>
    simp only [Session.step] at hstep
    refine ⟨?_, by simp⟩
    split at hstep <;> first | (cases hstep; done) | (cases hstep; exact hc)
  | observeCancel =>
    simp only [Session.step] at hstep
    refine ⟨?_, by simp⟩
    split at hstep
    · split at hstep <;> first | (cases hstep; done) | (cases hstep; exact hc)
    · cases hstep
  | begin =>
    simp only [Session.step] at hstep
    refine ⟨?_, by simp⟩
    split at hstep <;> first | (cases hstep; done) | (cases hstep; exact hc)
  | finish =>
    simp only [Session.step] at hstep
    refine ⟨?_, by simp⟩
    split at hstep <;> first | (cases hstep; done) | (cases hstep; exact hc)

theorem Session.step_clean (runCommand : List Event → Command → Option Err) (ctxErr : Err)
    (stdin : Str) (hsucc : ∀ trace, ∀ cmd ∈ decoded stdin, runCommand trace cmd = none)
    (a : Action) (s s' : Session) (hinv : Session.Inv stdin s) (h : Session.Clean stdin s)
    (hstep : Session.step runCommand ctxErr a s = some s') (hc : s'.cancelled = false) :
    Session.Clean stdin s' := by
  obtain ⟨hsc, hne⟩ := Session.step_cancelled runCommand ctxErr a s s' hstep hc
  cases a with
  | cancel => exact absurd rfl hne
  | read =>
    cases hr : s.reader with
    | send c => simp [Session.step, hr] at hstep
    | done => simp [Session.step, hr] at hstep
    | read =>
      rcases hrc : readCommand s.br with _ | ⟨res, br'⟩
      · simp [Session.step, hr, hrc] at hstep
      · cases res with
        | ok cmd =>
          simp only [Session.step, hr, hrc, Option.some.injEq] at hstep
          subst hstep
          exact h.atOk stdin s br' cmd hr hrc
        | error err =>
          cases err with
          | EOF =>
            simp only [Session.step, hr, hrc, Option.some.injEq] at hstep
            subst hstep
            exact h.atEOF stdin s br' hr hrc
          | ErrUnexpectedEOF =>
            simp only [Session.step, hr, hrc, Option.some.injEq] at hstep
            subst hstep
            exact h.atErr stdin s br' _ hr hrc (by simp)
          | ErrInvalidCommand line =>
            simp only [Session.step, hr, hrc, Option.some.injEq] at hstep
            subst hstep
            exact h.atErr stdin s br' _ hr hrc (by simp)
          | ErrUnsupportedOption =>
            simp only [Session.step, hr, hrc, Option.some.injEq] at hstep
            subst hstep
            exact h.atErr stdin s br' _ hr hrc (by simp)
          | other msg =>
            simp only [Session.step, hr, hrc, Option.some.injEq] at hstep
            subst hstep
            exact h.atErr stdin s br' _ hr hrc (by simp)
  | giveUp =>
    simp only [Session.step] at hstep
    split at hstep
    · rename_i hr
      split at hstep
      · rename_i hcond
        rcases hcond with h1 | h1
        · rw [hsc] at h1; cases h1
        · have := h.loopDone h1
          rw [hr] at this
          cases this
      · cases hstep
    · cases hstep
  | handOver =>
    simp only [Session.step] at hstep
    split at hstep
    · rename_i hr hl
      cases hstep
      exact h.atHandOver stdin s _ hr
    · cases hstep
  | closed =>
    simp only [Session.step] at hstep
    split at hstep
    · rename_i hr hl
      cases hstep
      exact h.atClosed stdin s hr
    · cases hstep
  | observeCancel =>
    simp only [Session.step] at hstep
    split at hstep
    · split at hstep
      · rename_i hcond
        rw [hsc] at hcond
        cases hcond
      · cases hstep
    · cases hstep
  | begin =>
    simp only [Session.step] at hstep
    split at hstep
    · rename_i hl
      cases hstep
      exact h.atBegin stdin s _ hinv hl
    · cases hstep
  | finish =>
    simp only [Session.step] at hstep
    split at hstep
    · rename_i cmd hl
      cases hstep
      exact h.atFinish stdin s cmd _ (hsucc s.trace cmd (h.running cmd hl))
    · cases hstep

theorem Session.exec_clean (runCommand : List Event → Command → Option Err) (ctxErr : Err)
    (stdin : Str) (hsucc : ∀ trace, ∀ cmd ∈ decoded stdin, runCommand trace cmd = none)
    (acts : List Action) :
    ∀ s s' : Session, Session.Inv stdin s → Session.Clean stdin s →
      Session.exec runCommand ctxErr acts s = some s' → s'.cancelled = false →
      Session.Clean stdin s' ∧ s.cancelled = false ∧ Action.cancel ∉ acts := by
  induction acts with
  | nil =>
    intro s s' _ h hex hc
    simp only [Session.exec, Option.some.injEq] at hex
    subst hex
    exact ⟨h, hc, by simp⟩
  | cons a acts ih =>
    intro s s' hinv h hex hc
    simp only [Session.exec] at hex
    cases hstep : Session.step runCommand ctxErr a s with
    | none => simp [hstep] at hex
    | some s1 =>
      rw [hstep] at hex
      have hinv1 := Session.step_inv runCommand ctxErr stdin a s s1 hinv hstep
      have hc1 : s1.cancelled = false := by
        by_contra hne
        have ht : s1.cancelled = true := by simpa using hne
        have hmono : ∀ (l : List Action) (t t' : Session), t.cancelled = true →
            Session.exec runCommand ctxErr l t = some t' → t'.cancelled = true := by
          intro l
          induction l with
          | nil =>
            intro t t' htc hx
            simp only [Session.exec, Option.some.injEq] at hx
            subst hx
            exact htc
          | cons b l ihl =>
            intro t t' htc hx
            simp only [Session.exec] at hx
            cases hb : Session.step runCommand ctxErr b t with
            | none => simp [hb] at hx
            | some t1 =>
              rw [hb] at hx
              refine ihl t1 t' ?_ hx
              by_contra hf
              have := (Session.step_cancelled runCommand ctxErr b t t1 hb (by simpa using hf)).1
              rw [htc] at this
              cases this
        have := hmono acts s1 s' ht hex
        rw [hc] at this
        cases this
      obtain ⟨hsc, hne⟩ := Session.step_cancelled runCommand ctxErr a s s1 hstep hc1
      have hclean1 := Session.step_clean runCommand ctxErr stdin hsucc a s s1 hinv h hstep hc1
      obtain ⟨hres, _, hnot⟩ := ih s1 s' hinv1 hclean1 hex hc
      refine ⟨hres, hsc, ?_⟩
      intro hmem
      rcases List.mem_cons.mp hmem with h1 | h1
      · exact hne h1.symm
      · exact hnot h1

theorem Session.step_keeps_cancelled (runCommand : List Event → Command → Option Err)
    (ctxErr : Err) (a : Action) (s s' : Session)
    (hstep : Session.step runCommand ctxErr a s = some s') (hne : a ≠ .cancel) :
    s'.cancelled = s.cancelled := by
  cases a with
  | cancel => exact absurd rfl hne
  | read =>
    simp only [Session.step] at hstep
    split at hstep
    · split at hstep <;> first | (cases hstep; done) | (cases hstep; rfl)
    · cases hstep
  | giveUp =>
    simp only [Session.step] at hstep
    split at hstep
    · split at hstep <;> first | (cases hstep; done) | (cases hstep; rfl)
    · cases hstep
  | handOver =>
    simp only [Session.step] at hstep
    split at hstep <;> first | (cases hstep; done) | (cases hstep; rfl)
  | closed =>
    simp only [Session.step] at hstep
    split at hstep <;> first | (cases hstep; done) | (cases hstep; rfl)
  | observeCancel =>
    simp only [Session.step] at hstep
    split at hstep
    · split at hstep <;> first | (cases hstep; done) | (cases hstep; rfl)
    · cases hstep
  | begin =>
    simp only [Session.step] at hstep
    split at hstep <;> first | (cases hstep; done) | (cases hstep; rfl)
  | finish =>
    simp only [Session.step] at hstep
    split at hstep <;> first | (cases hstep; done) | (cases hstep; rfl)

theorem Session.step_enabled_quiet (runCommand : List Event → Command → Option Err)
    (ctxErr : Err) (s : Session) (h : s.loop ≠ .done) :
    ∃ a, a ≠ Action.cancel ∧ ∃ s', Session.step runCommand ctxErr a s = some s' := by
  cases hl : s.loop with
  | done => exact absurd hl h
  | received cmd => exact ⟨.begin, by simp, by simp [Session.step, hl]⟩
  | running cmd => exact ⟨.finish, by simp, by simp [Session.step, hl]⟩
  | wait =>
    cases hr : s.reader with
    | done => exact ⟨.closed, by simp, by simp [Session.step, hl, hr]⟩
    | send cmd => exact ⟨.handOver, by simp, by simp [Session.step, hl, hr]⟩
    | read =>
      obtain ⟨⟨res, br⟩, hread⟩ := readCommand_total s.br
      cases res with
      | ok cmd => exact ⟨.read, by simp, by simp [Session.step, hr, hread]⟩
      | error err =>
        cases err with
        | EOF => exact ⟨.read, by simp, by simp [Session.step, hr, hread]⟩
        | ErrUnexpectedEOF => exact ⟨.read, by simp, by simp [Session.step, hr, hread]⟩
        | ErrInvalidCommand line => exact ⟨.read, by simp, by simp [Session.step, hr, hread]⟩
        | ErrUnsupportedOption => exact ⟨.read, by simp, by simp [Session.step, hr, hread]⟩
        | other msg => exact ⟨.read, by simp, by simp [Session.step, hr, hread]⟩

/-! ## Claims -/

/-- C1: for every capability set the text written by `Capabilities.writeTo`
is the concatenation of the lines of connect, push, fetch, export, import,
option, bidi-import, export-marks and import-marks in this order, each line
present at most once and formed as the specification says (`*` and the name
when the bit is in `Mandatory`, the bare name when it is in `Optional` only,
nothing when it is in neither; a space and the mark path after export-marks
and import-marks), followed by the refspec lines and the closing empty line.
For `Mandatory = push|fetch` and `Optional = option` the text is exactly
`*push`, `*fetch`, `option` and the empty line. -/
theorem C1_capabilities_writeTo :
    (∀ c : Capabilities,
      Capabilities.writeTo c = some (
        capLine (c.Mandatory.testBit 0) (c.Optional.testBit 0) "connect".toList []
        ++ capLine (c.Mandatory.testBit 1) (c.Optional.testBit 1) "push".toList []
        ++ capLine (c.Mandatory.testBit 2) (c.Optional.testBit 2) "fetch".toList []
        ++ capLine (c.Mandatory.testBit 3) (c.Optional.testBit 3) "export".toList []
        ++ capLine (c.Mandatory.testBit 4) (c.Optional.testBit 4) "import".toList []
        ++ capLine (c.Mandatory.testBit 5) (c.Optional.testBit 5) "option".toList []
        ++ capLine (c.Mandatory.testBit 7) (c.Optional.testBit 7) "bidi-import".toList []
        ++ capLine (c.Mandatory.testBit 8) (c.Optional.testBit 8) "export-marks".toList
            (' ' :: c.ExportMarks)
        ++ capLine (c.Mandatory.testBit 9) (c.Optional.testBit 9) "import-marks".toList
            (' ' :: c.ImportMarks)
        ++ refspecLines c ++ ['\n']))
    ∧ (∀ (refspecs : List Str) (exportMarks importMarks : Str),
      Capabilities.writeTo
          { Optional := CapOption, Mandatory := CapPush ||| CapFetch, Refspecs := refspecs,
            ExportMarks := exportMarks, ImportMarks := importMarks }
        = some "*push\n*fetch\noption\n\n".toList) := by
  have key : ∀ c : Capabilities,
      Capabilities.writeTo c = some (
        capLine (c.Mandatory.testBit 0) (c.Optional.testBit 0) "connect".toList []
        ++ capLine (c.Mandatory.testBit 1) (c.Optional.testBit 1) "push".toList []
        ++ capLine (c.Mandatory.testBit 2) (c.Optional.testBit 2) "fetch".toList []
        ++ capLine (c.Mandatory.testBit 3) (c.Optional.testBit 3) "export".toList []
        ++ capLine (c.Mandatory.testBit 4) (c.Optional.testBit 4) "import".toList []
        ++ capLine (c.Mandatory.testBit 5) (c.Optional.testBit 5) "option".toList []
        ++ capLine (c.Mandatory.testBit 7) (c.Optional.testBit 7) "bidi-import".toList []
        ++ capLine (c.Mandatory.testBit 8) (c.Optional.testBit 8) "export-marks".toList
            (' ' :: c.ExportMarks)
        ++ capLine (c.Mandatory.testBit 9) (c.Optional.testBit 9) "import-marks".toList
            (' ' :: c.ImportMarks)
        ++ refspecLines c ++ ['\n']) := fun c => Capabilities.writeTo_eq c
  refine ⟨key, ?_⟩
  intro refspecs exportMarks importMarks
  rw [key]
  have hm : ∀ i, (CapPush ||| CapFetch).testBit i = decide (i = 1 ∨ i = 2) := by
    intro i
    show Nat.testBit (2 ^ 1 ||| 2 ^ 2) i = _
    rw [Nat.testBit_or, Nat.testBit_two_pow, Nat.testBit_two_pow]
    by_cases h1 : 1 = i <;> by_cases h2 : 2 = i <;> (simp [h1, h2]; try omega)
  have ho : ∀ i, CapOption.testBit i = decide (i = 5) := by
    intro i
    show Nat.testBit (2 ^ 5) i = _
    rw [Nat.testBit_two_pow]
    by_cases h5 : 5 = i <;> (simp [h5]; try omega)
  have hnil : (refspecs.flatMap fun _ => ([] : Str)) = [] := by
    induction refspecs with
    | nil => rfl
    | cons _ _ ih => simp [List.flatMap_cons, ih]
  simp [refspecLines, hm, ho, capLine, hnil]

/-- C2: `listRefSlice.writeTo` writes one line per entry in input order and
then one empty line; the line is the hash, or `@` and the symbolic target
when the hash is empty, or `?` when both are empty, then a space and the
name, then ` unchanged` exactly when the flag is set. -/
theorem C2_listRefSlice_writeTo :
    (∀ r : List ListRef, listRefSlice.writeTo r = r.flatMap listRefLine ++ ['\n'])
    ∧ (∀ e : ListRef, e.Hash ≠ [] →
        listRefLine e = e.Hash ++ ' ' :: e.Name
          ++ (if e.Unchanged then " unchanged".toList else []) ++ ['\n'])
    ∧ (∀ e : ListRef, e.Hash = [] → e.Sym ≠ [] →
        listRefLine e = '@' :: e.Sym ++ ' ' :: e.Name
          ++ (if e.Unchanged then " unchanged".toList else []) ++ ['\n'])
    ∧ (∀ e : ListRef, e.Hash = [] → e.Sym = [] →
        listRefLine e = '?' :: ' ' :: e.Name
          ++ (if e.Unchanged then " unchanged".toList else []) ++ ['\n']) := by
  refine ⟨?_, ?_, ?_, ?_⟩
  · intro r
    simp [listRefSlice.writeTo, writeRune, listRef_foldl]
  · intro e hh; simp [listRefLine, hh]
  · intro e hh hs; simp [listRefLine, hh, hs]
  · intro e hh hs; simp [listRefLine, hh, hs]

/-- C2 at the entries with a hash and a symbolic target, with a symbolic
target only, and with neither. -/
theorem C2_listRefSlice_writeTo_witness :
    listRefLine { Name := "refs/heads/a".toList, Hash := "abc".toList, Sym := "x".toList,
                  Unchanged := true }
      = "abc refs/heads/a unchanged\n".toList
    ∧ listRefLine { Name := "HEAD".toList, Hash := [], Sym := "refs/heads/a".toList,
                    Unchanged := false }
      = "@refs/heads/a HEAD\n".toList
    ∧ listRefLine { Name := "refs/heads/b".toList, Hash := [], Sym := [], Unchanged := false }
      = "? refs/heads/b\n".toList :=
  ⟨C2_listRefSlice_writeTo.2.1 _ (by decide),
    C2_listRefSlice_writeTo.2.2.1 _ rfl (by decide),
    C2_listRefSlice_writeTo.2.2.2 _ rfl rfl⟩

/-- C3: `pushRefSlice.writeTo` writes one result line per request in input
order and then one empty line; the line is `ok <Dst>` when `Ok` is set
(whatever `Err` is), `error <Dst>` when `Ok` is unset and `Err` is nil, and
`error <Dst> <message>` when `Ok` is unset and `Err` is non-nil. One failed
request for `refs/heads/a` with the message `not fast-forward` gives exactly
that error line and the empty line. -/
theorem C3_pushRefSlice_writeTo :
    (∀ r : List PushRef, pushRefSlice.writeTo r = r.flatMap pushRefLine ++ ['\n'])
    ∧ (∀ e : PushRef, e.Ok = true → pushRefLine e = "ok ".toList ++ e.Dst ++ ['\n'])
    ∧ (∀ e : PushRef, e.Ok = false → e.Err = none →
        pushRefLine e = "error ".toList ++ e.Dst ++ ['\n'])
    ∧ (∀ (e : PushRef) (msg : Str), e.Ok = false → e.Err = some msg →
        pushRefLine e = "error ".toList ++ e.Dst ++ ' ' :: msg ++ ['\n'])
    ∧ (∀ (src : Str) (force : Bool),
        pushRefSlice.writeTo
            [{ Src := src, Dst := "refs/heads/a".toList, Force := force, Ok := false,
               Err := some "not fast-forward".toList }]
          = "error refs/heads/a not fast-forward\n\n".toList) := by
  refine ⟨?_, ?_, ?_, ?_, ?_⟩
  · intro r
    simp [pushRefSlice.writeTo, writeRune, pushRef_foldl]
  · intro e ho; simp [pushRefLine, ho]
  · intro e ho he; simp [pushRefLine, ho, he]
  · intro e msg ho he; simp [pushRefLine, ho, he]
  · intro src force
    simp [pushRefSlice.writeTo, pushRefSlice.writeRef, writeRune, writeString]

/-- C3 at a request marked ok that also carries an error, a failed request
without an error and a failed request with a message. -/
theorem C3_pushRefSlice_writeTo_witness :
    pushRefLine { Src := [], Dst := "refs/heads/a".toList, Force := false, Ok := true,
                  Err := some "ignored".toList }
      = "ok refs/heads/a\n".toList
    ∧ pushRefLine { Src := [], Dst := "refs/heads/a".toList, Force := false, Ok := false,
                    Err := none }
      = "error refs/heads/a\n".toList
    ∧ pushRefLine { Src := [], Dst := "refs/heads/a".toList, Force := false, Ok := false,
                    Err := some "not fast-forward".toList }
      = "error refs/heads/a not fast-forward\n".toList :=
  ⟨C3_pushRefSlice_writeTo.2.1 _ rfl,
    C3_pushRefSlice_writeTo.2.2.1 _ rfl rfl,
    C3_pushRefSlice_writeTo.2.2.2.1 _ "not fast-forward".toList rfl rfl⟩

/-- C4: for n ≥ 1 lines `fetch <id> <name>` (no space in an id, no newline in
a field) followed by a blank line, `readCommand` started in the root state
returns one `CmdFetch` and no error and leaves the reader right after the
blank line; the keys of `Objects` are exactly the ids that occur, each once,
and each id is mapped to the name of the last line that carries it. For the
two lines with ids `aaa` and `bbb` the mapping is
`{aaa: refs/heads/a, bbb: refs/heads/b}`. -/
theorem C4_fetch_accumulates (p : Str × Str) (ps : List (Str × Str)) (rest : Str)
    (hwf : ∀ q ∈ p :: ps, ' ' ∉ q.1 ∧ '\n' ∉ q.1 ∧ '\n' ∉ q.2) :
    (∃ objs : StrMap,
      readCommand ((p :: ps).flatMap fetchText ++ '\n' :: rest)
        = some (.ok (.Fetch { Objects := objs }), rest)
      ∧ (objs.map Prod.fst).Nodup
      ∧ (∀ id, id ∈ objs.map Prod.fst ↔ id ∈ (p :: ps).map Prod.fst)
      ∧ (∀ id, StrMap.get objs id
          = ((p :: ps).reverse.find? (fun q => decide (q.1 = id))).map Prod.snd))
    ∧ readCommand "fetch aaa refs/heads/a\nfetch bbb refs/heads/b\n\n".toList
        = some (.ok (.Fetch { Objects := [("aaa".toList, "refs/heads/a".toList),
            ("bbb".toList, "refs/heads/b".toList)] }), []) := by
  refine ⟨⟨(p :: ps).foldl (fun m q => StrMap.set m q.1 q.2) [], ?_, ?_, ?_, ?_⟩, by decide⟩
  · rw [fetch_lines_root p ps _ hwf, readCommandLoop_blank]
    simp [stepLine, fetchLine]
  · exact (StrMap.keys_foldl (p :: ps) []).2 (by simp)
  · intro id
    rw [(StrMap.keys_foldl (p :: ps) []).1 id]
    simp
  · intro id
    rw [StrMap.get_foldl]
    cases List.find? (fun q => decide (q.1 = id)) (p :: ps).reverse <;> simp [StrMap.get]

/-- C4 at the lines `fetch aaa x`, `fetch bbb y`, `fetch aaa z` followed by
the blank line and a `list` command. -/
theorem C4_fetch_accumulates_witness :
    (∃ objs : StrMap,
      readCommand ((("aaa".toList, "x".toList) ::
          [("bbb".toList, "y".toList), ("aaa".toList, "z".toList)]).flatMap fetchText
          ++ '\n' :: "list\n".toList)
        = some (.ok (.Fetch { Objects := objs }), "list\n".toList)
      ∧ (objs.map Prod.fst).Nodup
      ∧ (∀ id, id ∈ objs.map Prod.fst ↔ id ∈ (("aaa".toList, "x".toList) ::
          [("bbb".toList, "y".toList), ("aaa".toList, "z".toList)]).map Prod.fst)
      ∧ (∀ id, StrMap.get objs id
          = (((("aaa".toList, "x".toList) ::
              [("bbb".toList, "y".toList), ("aaa".toList, "z".toList)]).reverse.find?
                (fun q => decide (q.1 = id))).map Prod.snd)))
    ∧ readCommand "fetch aaa refs/heads/a\nfetch bbb refs/heads/b\n\n".toList
        = some (.ok (.Fetch { Objects := [("aaa".toList, "refs/heads/a".toList),
            ("bbb".toList, "refs/heads/b".toList)] }), []) :=
  C4_fetch_accumulates ("aaa".toList, "x".toList)
    [("bbb".toList, "y".toList), ("aaa".toList, "z".toList)] "list\n".toList (by decide)

/-- C5: for an input that starts with a well-formed line
`push [+]<src>:<dst>`, continues with any mix of well-formed push lines and
non-blank lines that do not start with `push `, and ends with a blank line,
`readCommand` returns one `CmdPush` and no error: `Refs` holds one request per
push line in input order with `Src` and `Dst` the texts before and after the
colon, `Force` set exactly for the lines with the leading `+`, and `Options`
holds the other lines verbatim in input order. -/
theorem C5_push_accumulates (force : Bool) (src dst : Str) (items : List PushItem) (rest : Str)
    (hfirst : (PushItem.ref force src dst).wellFormed)
    (hitems : ∀ it ∈ items, it.wellFormed) :
    readCommand ((PushItem.ref force src dst :: items).flatMap PushItem.text ++ '\n' :: rest)
      = some (.ok (.Push { Refs := PushItem.refs (PushItem.ref force src dst :: items),
                           Options := PushItem.options (PushItem.ref force src dst :: items) }),
              rest) := by
  have htext : PushItem.text (PushItem.ref force src dst)
        ++ (items.flatMap PushItem.text ++ '\n' :: rest)
      = (PushItem.ref force src dst).line
        ++ '\n' :: (items.flatMap PushItem.text ++ '\n' :: rest) := by
    simp [PushItem.text]
  unfold readCommand
  rw [List.flatMap_cons, List.append_assoc, htext,
    readCommandLoop_line _ _ _ (PushItem.line_no_newline _ hfirst)]
  simp only [stepLine, rootLine_push force src dst hfirst]
  rw [push_lines items _ _ hitems, readCommandLoop_blank]
  simp [stepLine, pushLine, PushItem.refs, PushItem.options]

/-- C5 at the lines `push +a:b`, `dry-run`, `push :c`, `push d:d` followed by
the blank line and a `list` command. -/
theorem C5_push_accumulates_witness :
    (PushItem.ref true "a".toList "b".toList).wellFormed
    ∧ (∀ it ∈ [PushItem.other "dry-run".toList, PushItem.ref false [] "c".toList,
          PushItem.ref false "d".toList "d".toList], it.wellFormed)
    ∧ readCommand "push +a:b\ndry-run\npush :c\npush d:d\n\nlist\n".toList
      = some (.ok (.Push
          { Refs := [{ Src := "a".toList, Dst := "b".toList, Force := true, Ok := false,
                       Err := none },
                     { Src := [], Dst := "c".toList, Force := false, Ok := false, Err := none },
                     { Src := "d".toList, Dst := "d".toList, Force := false, Ok := false,
                       Err := none }],
            Options := ["dry-run".toList] }), "list\n".toList) :=
  ⟨by decide, by decide,
    C5_push_accumulates true "a".toList "b".toList
      [PushItem.other "dry-run".toList, PushItem.ref false [] "c".toList,
        PushItem.ref false "d".toList "d".toList] "list\n".toList (by decide) (by decide)⟩

/-- C6, as stated, fails: after the first push line `push a:b` the non-blank
line `push x` makes `readCommand` return `ErrInvalidCommand` with that line,
and the same holds for `push a:b:c`. -/
theorem C6_push_continuation_counterexample :
    readCommand "push a:b\npush x\n\n".toList
        = some (.error (.ErrInvalidCommand "push x".toList), "\n".toList)
    ∧ readCommand "push a:b\npush a:b:c\n\n".toList
        = some (.error (.ErrInvalidCommand "push a:b:c".toList), "\n".toList) := by
  constructor <;> decide

/-- C6, amended: in the push-continuation state a non-blank line that does
not start with `push ` never causes a parse failure, it is appended to
`Options` and decoding goes on; a line `push <spec>` whose spec, after the
optional leading `+`, contains exactly one colon is appended to `Refs` and
decoding goes on; a line `push <spec>` whose spec, after the optional leading
`+`, does not contain exactly one colon makes `readCommand` return
`ErrInvalidCommand` with that line. -/
theorem C6_push_continuation (c : CmdPush) (line rest : Str)
    (hne : line ≠ []) (hnl : '\n' ∉ line) :
    (HasPrefix line "push ".toList = false →
      readCommandLoop ((line ++ '\n' :: rest).length + 1) (.push c) (line ++ '\n' :: rest)
        = readCommandLoop (rest.length + 1)
            (.push { Refs := c.Refs, Options := c.Options ++ [line] }) rest)
    ∧ (∀ spec : Str, line = "push ".toList ++ spec → (pushSpecBody spec).count ':' = 1 →
      ∃ ref : PushRef,
        ref.Src ++ ':' :: ref.Dst = pushSpecBody spec
        ∧ ref.Force = decide (spec.head? = some '+')
        ∧ readCommandLoop ((line ++ '\n' :: rest).length + 1) (.push c) (line ++ '\n' :: rest)
          = readCommandLoop (rest.length + 1)
              (.push { Refs := c.Refs ++ [ref], Options := c.Options }) rest)
    ∧ (∀ spec : Str, line = "push ".toList ++ spec → (pushSpecBody spec).count ':' ≠ 1 →
      readCommandLoop ((line ++ '\n' :: rest).length + 1) (.push c) (line ++ '\n' :: rest)
        = some (.error (.ErrInvalidCommand line), rest)) := by
  refine ⟨?_, ?_, ?_⟩
  · intro hp
    rw [readCommandLoop_line _ _ _ hnl]
    have hstep : stepLine (.push c) line
        = .inr (.push { Refs := c.Refs, Options := c.Options ++ [line] }) := by
      simp only [stepLine, pushLine]
      rw [if_neg hne, hp]
      simp
    rw [hstep]
  · intro spec hline hcount
    obtain ⟨a, b, hs, ha, hb⟩ := count_one_split _ ':' hcount
    refine ⟨{ Src := a, Dst := b, Force := HasPrefix spec "+".toList, Ok := false,
              Err := none }, hs.symm, HasPrefix_plus spec, ?_⟩
    rw [readCommandLoop_line _ _ _ hnl]
    have hstep : stepLine (.push c) line
        = .inr (.push
            { Refs := c.Refs ++
                [{ Src := a, Dst := b, Force := HasPrefix spec "+".toList, Ok := false,
                   Err := none }],
              Options := c.Options }) := by
      simp only [stepLine, pushLine]
      rw [if_neg hne, hline, HasPrefix_append, parsePushLine_spec, hs, Split_two a b ':' ha hb]
      simp
    rw [hstep]
  · intro spec hline hcount
    rw [readCommandLoop_line _ _ _ hnl]
    have hstep : stepLine (.push c) line = .inl (.error (.ErrInvalidCommand line)) := by
      simp only [stepLine, pushLine]
      rw [if_neg hne, hline, HasPrefix_append, parsePushLine_bad spec hcount]
      simp
    rw [hstep]

/-- C6, amended, at the line `push a:b:c` read in the push-continuation state
that holds the request of `push x:y`. -/
theorem C6_push_continuation_witness :
    "push a:b:c".toList ≠ [] ∧ '\n' ∉ "push a:b:c".toList
    ∧ (pushSpecBody "a:b:c".toList).count ':' ≠ 1
    ∧ readCommandLoop (("push a:b:c".toList ++ '\n' :: "\n".toList).length + 1)
        (.push { Refs := [{ Src := "x".toList, Dst := "y".toList, Force := false, Ok := false,
                            Err := none }], Options := [] })
        ("push a:b:c".toList ++ '\n' :: "\n".toList)
      = some (.error (.ErrInvalidCommand "push a:b:c".toList), "\n".toList) :=
  ⟨by decide, by decide, by decide,
    (C6_push_continuation
      { Refs := [{ Src := "x".toList, Dst := "y".toList, Force := false, Ok := false,
                   Err := none }], Options := [] }
      "push a:b:c".toList "\n".toList (by decide) (by decide)).2.2 "a:b:c".toList rfl
      (by decide)⟩

/-- C7: for n ≥ 1 lines `import <name>` followed by a blank line,
`readCommand` started in the root state returns one `CmdImport` and no error,
whose `Names` are the remainders of the lines after `import `, in input
order, and leaves the reader right after the blank line. -/
theorem C7_import_accumulates (name : Str) (names : List Str) (rest : Str)
    (hwf : ∀ n ∈ name :: names, '\n' ∉ n) :
    readCommand ((name :: names).flatMap importText ++ '\n' :: rest)
      = some (.ok (.Import { Names := name :: names }), rest) := by
  rw [import_lines_root name names _ hwf, readCommandLoop_blank]
  simp [stepLine, importLine]

/-- C7 at the lines `import refs/heads/a`, `import ` (an empty name) and
`import b c`, followed by the blank line and a `list` command. -/
theorem C7_import_accumulates_witness :
    (∀ n ∈ "refs/heads/a".toList :: [[], "b c".toList], '\n' ∉ n)
    ∧ readCommand "import refs/heads/a\nimport \nimport b c\n\nlist\n".toList
      = some (.ok (.Import { Names := ["refs/heads/a".toList, [], "b c".toList] }),
          "list\n".toList) :=
  ⟨by decide,
    C7_import_accumulates "refs/heads/a".toList [[], "b c".toList] "list\n".toList (by decide)⟩

/-- C8: after n ≥ 1 well-formed fetch lines, a non-blank line that is not of
the form `fetch <id> <name>` makes `readCommand` return no command and
`ErrInvalidCommand` whose payload is that line without its newline; after
n ≥ 1 import lines, a non-blank line that does not start with `import ` does
the same. The entries accumulated so far are not delivered. -/
theorem C8_continuation_parse_failure (bad rest : Str) (hne : bad ≠ []) (hnl : '\n' ∉ bad) :
    (∀ (p : Str × Str) (ps : List (Str × Str)),
      (∀ q ∈ p :: ps, ' ' ∉ q.1 ∧ '\n' ∉ q.1 ∧ '\n' ∉ q.2) →
      (∀ id name : Str, ' ' ∉ id → bad ≠ "fetch ".toList ++ id ++ ' ' :: name) →
      readCommand ((p :: ps).flatMap fetchText ++ (bad ++ '\n' :: rest))
        = some (.error (.ErrInvalidCommand bad), rest))
    ∧ (∀ (name : Str) (names : List Str),
      (∀ n ∈ name :: names, '\n' ∉ n) →
      HasPrefix bad "import ".toList = false →
      readCommand ((name :: names).flatMap importText ++ (bad ++ '\n' :: rest))
        = some (.error (.ErrInvalidCommand bad), rest)) := by
  constructor
  · intro p ps hwf hbad
    rw [fetch_lines_root p ps _ hwf, readCommandLoop_line _ _ _ hnl]
    simp only [stepLine, fetchLine_bad _ bad hne hbad]
  · intro name names hwf hbad
    rw [import_lines_root name names _ hwf, readCommandLoop_line _ _ _ hnl]
    simp only [stepLine, importLine_bad _ bad hne hbad]

/-- C8 at the line `fetch bbb` after `fetch aaa refs/heads/a`, and at the same
line after `import refs/heads/a`. -/
theorem C8_continuation_parse_failure_witness :
    "fetch bbb".toList ≠ [] ∧ '\n' ∉ "fetch bbb".toList
    ∧ readCommand "fetch aaa refs/heads/a\nfetch bbb\n\n".toList
        = some (.error (.ErrInvalidCommand "fetch bbb".toList), "\n".toList)
    ∧ readCommand "import refs/heads/a\nfetch bbb\n\n".toList
        = some (.error (.ErrInvalidCommand "fetch bbb".toList), "\n".toList) :=
  ⟨by decide, by decide,
    (C8_continuation_parse_failure "fetch bbb".toList "\n".toList (by decide) (by decide)).1
      ("aaa".toList, "refs/heads/a".toList) [] (by decide)
      (by
        intro id name hid h
        have h1 : "bbb".toList = id ++ ' ' :: name := by simpa using h
        have h2 : ' ' ∈ "bbb".toList := by rw [h1]; simp
        exact absurd h2 (by decide)),
    (C8_continuation_parse_failure "fetch bbb".toList "\n".toList (by decide) (by decide)).2
      "refs/heads/a".toList [] (by decide) (by decide)⟩

/-- C9, as stated, fails: for the input of a blank line followed by
`capabilities` the reader delivers no command, while for `capabilities` alone
it delivers one capabilities command. -/
theorem C9_blank_line_counterexample :
    (readCommands "\ncapabilities\n".toList).map Prod.fst = some []
    ∧ (readCommands "capabilities\n".toList).map Prod.fst = some [Command.Capabilities] := by
  constructor <;> decide

/-- C9, amended: a blank line read in the root state produces no command and
ends decoding cleanly: `readCommand` returns `io.EOF` having consumed that
line only, and the reader stops there without delivering a command and
without recording an error, whatever follows the blank line. -/
theorem C9_blank_line_ends_decoding :
    ∀ rest : Str,
      readCommand ('\n' :: rest) = some (.error .EOF, rest)
      ∧ readCommands ('\n' :: rest) = some ([], none) := by
  intro rest
  refine ⟨readCommand_blank rest, ?_⟩
  simp [readCommands, readCommandsLoop, readCommand_blank]

/-- C10, as stated, fails: on the exhausted stream `readCommand` returns
`io.ErrUnexpectedEOF`, the reader records it, and the session with the input
`capabilities` (one line), whose command executes successfully and whose
context is not cancelled, ends with `io.ErrUnexpectedEOF`. -/
theorem C10_end_of_stream_counterexample :
    readCommand [] = some (.error .ErrUnexpectedEOF, [])
    ∧ readCommands "capabilities\n".toList
        = some ([Command.Capabilities], some Err.ErrUnexpectedEOF)
    ∧ (Session.exec (fun _ _ => none) (.other "context canceled".toList)
          [.read, .handOver, .begin, .finish, .read, .closed]
          (Session.init "capabilities\n".toList)).map
        (fun s => (s.loop, s.cancelled, s.latch))
      = some (.done, false, some .ErrUnexpectedEOF) := by
  refine ⟨?_, ?_, ?_⟩ <;> decide

/-- C10, amended: when the inbound stream is exhausted at a command boundary
`readCommand` returns no command and `io.ErrUnexpectedEOF`; under every
schedule of the reader goroutine and the run loop, a session whose commands
all execute successfully and whose context is not cancelled ends with what
the reader recorded in the latch when it stopped, which is
`io.ErrUnexpectedEOF` for the input `capabilities` (one line) and success
(nil) when a blank line follows the last command, as for `capabilities`
followed by a blank line. Such a session does end: its schedule has at most
`4 * len(stdin) + 3` steps, and as long as the loop has not ended a step
other than a cancellation is enabled. -/
theorem C10_end_of_stream (runCommand : List Event → Command → Option Err) (ctxErr : Err) :
    readCommand [] = some (.error .ErrUnexpectedEOF, [])
    ∧ (∀ (stdin : Str) (cmds : List Command) (e : Option Err) (acts : List Action)
        (s : Session),
        readCommands stdin = some (cmds, e) →
        (∀ trace, ∀ cmd ∈ cmds, runCommand trace cmd = none) →
        Session.exec runCommand ctxErr acts (Session.init stdin) = some s →
        s.cancelled = false →
        (s.loop = .done → s.latch = e)
        ∧ acts.length ≤ 4 * stdin.length + 3
        ∧ (s.loop ≠ .done →
            ∃ a s', a ≠ Action.cancel ∧ Session.step runCommand ctxErr a s = some s'
              ∧ s'.cancelled = false))
    ∧ ((∀ trace, runCommand trace .Capabilities = none) →
        ∀ (acts : List Action) (s : Session), s.loop = .done → s.cancelled = false →
          (Session.exec runCommand ctxErr acts (Session.init "capabilities\n".toList) = some s →
            s.latch = some .ErrUnexpectedEOF)
          ∧ (Session.exec runCommand ctxErr acts (Session.init "capabilities\n\n".toList)
              = some s → s.latch = none)) := by
  have hgen : ∀ (stdin : Str) (cmds : List Command) (e : Option Err) (acts : List Action)
      (s : Session),
      readCommands stdin = some (cmds, e) →
      (∀ trace, ∀ cmd ∈ cmds, runCommand trace cmd = none) →
      Session.exec runCommand ctxErr acts (Session.init stdin) = some s →
      s.cancelled = false →
      (s.loop = .done → s.latch = e) := by
    intro stdin cmds e acts s hread hsucc hexec hcancel hdone
    have hd : decoded stdin = cmds := by simp [decoded, hread]
    have hr : recordedByReader stdin = e := by simp [recordedByReader, hread]
    have hclean := (Session.exec_clean runCommand ctxErr stdin
      (fun trace cmd hcmd => hsucc trace cmd (hd ▸ hcmd)) acts _ s
      (Session.Inv.init stdin) (Session.Clean.start stdin) hexec hcancel).1
    rw [hclean.finished (hclean.loopDone hdone), hr]
  refine ⟨by decide, ?_, ?_⟩
  · intro stdin cmds e acts s hread hsucc hexec hcancel
    refine ⟨hgen stdin cmds e acts s hread hsucc hexec hcancel, ?_, ?_⟩
    · have hm := Session.exec_measure runCommand ctxErr acts _ s hexec
      simp only [Session.init, Session.measure, ReaderPc.rank, RunPc.rank] at hm
      simp at hm
      omega
    · intro hloop
      obtain ⟨a, ha, s', hstep⟩ := Session.step_enabled_quiet runCommand ctxErr s hloop
      exact ⟨a, s', ha, hstep,
        (Session.step_keeps_cancelled runCommand ctxErr a s s' hstep ha).trans hcancel⟩
  · intro hcap acts s hdone hcancel
    have hsucc : ∀ trace, ∀ cmd ∈ [Command.Capabilities], runCommand trace cmd = none := by
      intro trace cmd hcmd
      rw [List.mem_singleton.mp hcmd]
      exact hcap trace
    constructor
    · intro hexec
      exact hgen _ [.Capabilities] _ acts s (by decide) hsucc hexec hcancel hdone
    · intro hexec
      exact hgen _ [.Capabilities] _ acts s (by decide) hsucc hexec hcancel hdone

/-- C10, amended, at two schedules of the session on `capabilities` (one
line) whose command succeeds: one in which the command runs before the reader
reads on, and one in which the reader reads on first; and at a schedule of
the session on `capabilities` followed by a blank line. -/
theorem C10_end_of_stream_witness :
    (Session.exec (fun _ _ => none) (.other "context canceled".toList)
        [.read, .handOver, .begin, .finish, .read, .closed]
        (Session.init "capabilities\n".toList)).map (fun s => (s.loop, s.cancelled, s.latch))
      = some (.done, false, some .ErrUnexpectedEOF)
    ∧ (Session.exec (fun _ _ => none) (.other "context canceled".toList)
        [.read, .handOver, .read, .begin, .finish]
        (Session.init "capabilities\n".toList)).map (fun s => (s.loop, s.cancelled, s.latch))
      = some (.done, false, some .ErrUnexpectedEOF)
    ∧ (Session.exec (fun _ _ => none) (.other "context canceled".toList)
        [.read, .handOver, .read, .begin, .finish, .closed]
        (Session.init "capabilities\n\n".toList)).map (fun s => (s.loop, s.cancelled, s.latch))
      = some (.done, false, none) := by
  have key := (C10_end_of_stream (fun _ _ => none) (.other "context canceled".toList)).2.2
    (fun _ => rfl)
  refine ⟨?_, ?_, ?_⟩
  · have hmap : (Session.exec (fun _ _ => none) (.other "context canceled".toList)
        [.read, .handOver, .begin, .finish, .read, .closed]
        (Session.init "capabilities\n".toList)).map (fun s => (s.loop, s.cancelled))
        = some (.done, false) := by decide
    cases hs : Session.exec (fun _ _ => none) (.other "context canceled".toList)
        [.read, .handOver, .begin, .finish, .read, .closed]
        (Session.init "capabilities\n".toList) with
    | none =>
      rw [hs] at hmap
      cases hmap
    | some s =>
      rw [hs] at hmap
      simp only [Option.map_some', Option.some.injEq, Prod.mk.injEq] at hmap
      simp only [Option.map_some', hmap.1, hmap.2, (key _ s hmap.1 hmap.2).1 hs]
  · have hmap : (Session.exec (fun _ _ => none) (.other "context canceled".toList)
        [.read, .handOver, .read, .begin, .finish]
        (Session.init "capabilities\n".toList)).map (fun s => (s.loop, s.cancelled))
        = some (.done, false) := by decide
    cases hs : Session.exec (fun _ _ => none) (.other "context canceled".toList)
        [.read, .handOver, .read, .begin, .finish]
        (Session.init "capabilities\n".toList) with
    | none =>
      rw [hs] at hmap
      cases hmap
    | some s =>
      rw [hs] at hmap
      simp only [Option.map_some', Option.some.injEq, Prod.mk.injEq] at hmap
      simp only [Option.map_some', hmap.1, hmap.2, (key _ s hmap.1 hmap.2).1 hs]
  · have hmap : (Session.exec (fun _ _ => none) (.other "context canceled".toList)
        [.read, .handOver, .read, .begin, .finish, .closed]
        (Session.init "capabilities\n\n".toList)).map (fun s => (s.loop, s.cancelled))
        = some (.done, false) := by decide
    cases hs : Session.exec (fun _ _ => none) (.other "context canceled".toList)
        [.read, .handOver, .read, .begin, .finish, .closed]
        (Session.init "capabilities\n\n".toList) with
    | none =>
      rw [hs] at hmap
      cases hmap
    | some s =>
      rw [hs] at hmap
      simp only [Option.map_some', Option.some.injEq, Prod.mk.injEq] at hmap
      simp only [Option.map_some', hmap.1, hmap.2, (key _ s hmap.1 hmap.2).2 hs]

/-- C11: when the inbound stream ends inside a fetch, push or import
continuation (after n ≥ 1 lines of the command, with no blank line), or ends
with bytes that are not terminated by a newline, in whatever state,
`readCommand` returns no command and `io.ErrUnexpectedEOF`; the accumulated
command is not delivered. -/
theorem C11_unexpected_eof (tail : Str) (htail : '\n' ∉ tail) :
    (∀ (p : Str × Str) (ps : List (Str × Str)),
      (∀ q ∈ p :: ps, ' ' ∉ q.1 ∧ '\n' ∉ q.1 ∧ '\n' ∉ q.2) →
      readCommand ((p :: ps).flatMap fetchText ++ tail)
        = some (.error .ErrUnexpectedEOF, []))
    ∧ (∀ (force : Bool) (src dst : Str) (items : List PushItem),
      (PushItem.ref force src dst).wellFormed → (∀ it ∈ items, it.wellFormed) →
      readCommand ((PushItem.ref force src dst :: items).flatMap PushItem.text ++ tail)
        = some (.error .ErrUnexpectedEOF, []))
    ∧ (∀ (name : Str) (names : List Str),
      (∀ n ∈ name :: names, '\n' ∉ n) →
      readCommand ((name :: names).flatMap importText ++ tail)
        = some (.error .ErrUnexpectedEOF, []))
    ∧ readCommand tail = some (.error .ErrUnexpectedEOF, [])
    ∧ (∀ (fuel : Nat) (state : ParseState),
      readCommandLoop (fuel + 1) state tail = some (.error .ErrUnexpectedEOF, [])) := by
  refine ⟨?_, ?_, ?_, ?_, ?_⟩
  · intro p ps hwf
    rw [fetch_lines_root p ps _ hwf]
    exact readCommandLoop_eof _ _ _ htail
  · intro force src dst items hfirst hitems
    have htext : PushItem.text (PushItem.ref force src dst)
          ++ (items.flatMap PushItem.text ++ tail)
        = (PushItem.ref force src dst).line ++ '\n' :: (items.flatMap PushItem.text ++ tail) := by
      simp [PushItem.text]
    unfold readCommand
    rw [List.flatMap_cons, List.append_assoc, htext,
      readCommandLoop_line _ _ _ (PushItem.line_no_newline _ hfirst)]
    simp only [stepLine, rootLine_push force src dst hfirst]
    rw [push_lines items _ _ hitems]
    exact readCommandLoop_eof _ _ _ htail
  · intro name names hwf
    rw [import_lines_root name names _ hwf]
    exact readCommandLoop_eof _ _ _ htail
  · exact readCommandLoop_eof _ _ _ htail
  · intro fuel state
    exact readCommandLoop_eof _ _ _ htail

/-- C11 at the streams that end after `fetch aaa x`, after `push a:b` and an
option line, after `import a` (each with its newline but without the blank
line), and at the stream `capabilities` without a newline. -/
theorem C11_unexpected_eof_witness :
    '\n' ∉ ([] : Str) ∧ '\n' ∉ "capabilities".toList
    ∧ readCommand "fetch aaa x\n".toList = some (.error .ErrUnexpectedEOF, [])
    ∧ readCommand "push a:b\ndry-run\n".toList = some (.error .ErrUnexpectedEOF, [])
    ∧ readCommand "import a\n".toList = some (.error .ErrUnexpectedEOF, [])
    ∧ readCommand "capabilities".toList = some (.error .ErrUnexpectedEOF, []) :=
  ⟨by decide, by decide,
    (C11_unexpected_eof [] (by decide)).1 ("aaa".toList, "x".toList) [] (by decide),
    (C11_unexpected_eof [] (by decide)).2.1 false "a".toList "b".toList
      [PushItem.other "dry-run".toList] (by decide) (by decide),
    (C11_unexpected_eof [] (by decide)).2.2.1 "a".toList [] (by decide),
    (C11_unexpected_eof "capabilities".toList (by decide)).2.2.2.1⟩

/-- C12: the root state never yields `ErrInvalidCommand`, and every non-blank
first line that is not one of the recognised forms yields a `CmdUnknown`
whose `Line` is the raw line without its newline, consuming that line only;
so do `option a`, `fetch a`, `push a`, `push a:b:c`, `list foo`, `export x`,
`fetch`, `import` and `connect`. -/
theorem C12_root_unknown :
    (∀ str l : Str, rootLine str ≠ .inl (.error (.ErrInvalidCommand l)))
    ∧ (∀ line rest : Str, line ≠ [] → '\n' ∉ line → ¬ Recognised line →
        readCommand (line ++ '\n' :: rest) = some (.ok (.Unknown line), rest))
    ∧ (∀ line ∈ ["option a".toList, "fetch a".toList, "push a".toList, "push a:b:c".toList,
          "push +a".toList, "list foo".toList, "export x".toList, "fetch".toList,
          "import".toList, "connect".toList],
        ∀ rest : Str, readCommand (line ++ '\n' :: rest) = some (.ok (.Unknown line), rest)) := by
  have hstep : ∀ line rest : Str, '\n' ∉ line → rootLine line = .inl (.ok (.Unknown line)) →
      readCommand (line ++ '\n' :: rest) = some (.ok (.Unknown line), rest) := by
    intro line rest hnl hroot
    unfold readCommand
    rw [readCommandLoop_line _ _ _ hnl]
    simp only [stepLine, hroot]
  refine ⟨rootLine_no_invalid, ?_, ?_⟩
  · intro line rest hne hnl hrec
    exact hstep line rest hnl (rootLine_unknown line hne hrec)
  · intro line hmem rest
    simp only [List.mem_cons, List.mem_singleton, List.not_mem_nil, or_false] at hmem
    rcases hmem with h | h | h | h | h | h | h | h | h | h <;> subst h <;>
      exact hstep _ rest (by decide) (by decide)

/-- C12 at the line `list foo` followed by a `capabilities` command. -/
theorem C12_root_unknown_witness :
    "list foo".toList ≠ [] ∧ '\n' ∉ "list foo".toList ∧ ¬ Recognised "list foo".toList
    ∧ readCommand "list foo\ncapabilities\n".toList
        = some (.ok (.Unknown "list foo".toList), "capabilities\n".toList) :=
  ⟨by decide, by decide, by unfold Recognised; simp,
    C12_root_unknown.2.1 "list foo".toList "capabilities\n".toList (by decide) (by decide)
      (by unfold Recognised; simp)⟩

/-- C13: for a capability set, a ref listing and a push batch whose strings
contain no newline, the text written by `writeTo` is a sequence of non-empty
lines, each terminated by a newline, followed by one final newline; for a
capability set that renders no capability, an empty listing and an empty
batch the text is the single newline. -/
theorem C13_block_ends_with_one_blank_line :
    (∀ c : Capabilities,
      '\n' ∉ c.ExportMarks → '\n' ∉ c.ImportMarks → (∀ v ∈ c.Refspecs, '\n' ∉ v) →
      ∃ body, LineBlock body ∧ Capabilities.writeTo c = some (body ++ ['\n']))
    ∧ (∀ r : List ListRef, (∀ e ∈ r, '\n' ∉ e.Name ∧ '\n' ∉ e.Hash ∧ '\n' ∉ e.Sym) →
      ∃ body, LineBlock body ∧ listRefSlice.writeTo r = body ++ ['\n'])
    ∧ (∀ r : List PushRef, (∀ e ∈ r, '\n' ∉ e.Dst ∧ ∀ msg, e.Err = some msg → '\n' ∉ msg) →
      ∃ body, LineBlock body ∧ pushRefSlice.writeTo r = body ++ ['\n'])
    ∧ (∀ c : Capabilities,
      (∀ t ∈ capTable c, c.Mandatory.testBit t.1 = false ∧ c.Optional.testBit t.1 = false) →
      ((c.Mandatory.testBit 6 = false ∧ c.Optional.testBit 6 = false) ∨ c.Refspecs = []) →
      Capabilities.writeTo c = some ['\n'])
    ∧ listRefSlice.writeTo [] = ['\n']
    ∧ pushRefSlice.writeTo [] = ['\n'] := by
  refine ⟨?_, ?_, ?_, ?_, by decide, by decide⟩
  · intro c hex him hrs
    exact ⟨otherCapLines c ++ refspecLines c,
      lineBlock_append (otherCapLines_block c hex him) (refspecLines_block c hrs),
      Capabilities.writeTo_eq c⟩
  · intro r hr
    exact ⟨r.flatMap listRefLine,
      lineBlock_flatMap r listRefLine fun e he => listRefLine_block e (hr e he),
      by simp [listRefSlice.writeTo, writeRune, listRef_foldl]⟩
  · intro r hr
    exact ⟨r.flatMap pushRefLine,
      lineBlock_flatMap r pushRefLine fun e he => pushRefLine_block e (hr e he),
      by simp [pushRefSlice.writeTo, writeRune, pushRef_foldl]⟩
  · intro c hbits href
    have hother : otherCapLines c = [] := by
      simp [capTable] at hbits
      simp [otherCapLines, capLine, hbits]
    have hrefs : refspecLines c = [] := by
      rcases href with ⟨h1, h2⟩ | h
      · simp [refspecLines, capLine, h1, h2]
      · simp [refspecLines, h]
    rw [Capabilities.writeTo_eq, hother, hrefs]
    rfl

/-- C13 at a capability set with mandatory push and a mark path, at a listing
of two entries, at a batch of two requests, and at the empty capability set. -/
theorem C13_block_ends_with_one_blank_line_witness :
    (∃ body, LineBlock body
      ∧ Capabilities.writeTo
          { Optional := CapExportMarks, Mandatory := CapPush, Refspecs := ["a:b".toList],
            ExportMarks := "m".toList, ImportMarks := [] } = some (body ++ ['\n']))
    ∧ (∃ body, LineBlock body
      ∧ listRefSlice.writeTo
          [{ Name := "a".toList, Hash := "h".toList, Sym := [], Unchanged := false },
           { Name := "b".toList, Hash := [], Sym := [], Unchanged := true }] = body ++ ['\n'])
    ∧ (∃ body, LineBlock body
      ∧ pushRefSlice.writeTo
          [{ Src := "a".toList, Dst := "a".toList, Force := false, Ok := true, Err := none },
           { Src := "b".toList, Dst := "b".toList, Force := false, Ok := false,
             Err := some "rejected".toList }] = body ++ ['\n'])
    ∧ Capabilities.writeTo
        { Optional := 0, Mandatory := 0, Refspecs := ["a:b".toList], ExportMarks := [],
          ImportMarks := [] } = some ['\n'] :=
  ⟨C13_block_ends_with_one_blank_line.1 _ (by decide) (by decide) (by decide),
    C13_block_ends_with_one_blank_line.2.1 _ (by decide),
    C13_block_ends_with_one_blank_line.2.2.1 _ (by
      intro e he
      simp only [List.mem_cons, List.mem_singleton, List.not_mem_nil, or_false] at he
      rcases he with h | h <;> subst h <;> simp),
    C13_block_ends_with_one_blank_line.2.2.2.1 _ (by decide) (by decide)⟩

/-- C14, as stated, fails: with the refspec bit in `Mandatory` the line of a
refspec is written with the leading `*`. -/
theorem C14_refspec_counterexample :
    Capabilities.writeTo
        { Optional := 0, Mandatory := CapRefspec, Refspecs := ["a:b".toList, "c:d".toList],
          ExportMarks := [], ImportMarks := [] }
      = some "*refspec a:b\n*refspec c:d\n\n".toList := by
  decide

/-- C14, amended: when the refspec bit is set in `Optional` or in `Mandatory`,
each entry of `Refspecs` is written, in list order and after all other
capability lines, as its own line: `refspec <value>` when the bit is in
`Optional` only and `*refspec <value>` when the bit is in `Mandatory`. -/
theorem C14_refspec_lines (c : Capabilities)
    (h : c.Mandatory.testBit 6 = true ∨ c.Optional.testBit 6 = true) :
    Capabilities.writeTo c
      = some (otherCapLines c
          ++ (c.Refspecs.flatMap fun v =>
                (if c.Mandatory.testBit 6 then "*refspec ".toList else "refspec ".toList)
                  ++ v ++ ['\n'])
          ++ ['\n']) := by
  rw [Capabilities.writeTo_eq]
  unfold refspecLines capLine
  cases hm : c.Mandatory.testBit 6 with
  | true => simp
  | false =>
    have ho : c.Optional.testBit 6 = true := by
      rcases h with h | h
      · rw [hm] at h; cases h
      · exact h
    simp [ho]

/-- C14, amended, at a capability set with the refspec bit in `Optional` and
mandatory push. -/
theorem C14_refspec_lines_witness :
    Capabilities.writeTo
        { Optional := CapRefspec, Mandatory := CapPush, Refspecs := ["a:b".toList, "c:d".toList],
          ExportMarks := [], ImportMarks := [] }
      = some "*push\nrefspec a:b\nrefspec c:d\n\n".toList :=
  C14_refspec_lines
    { Optional := CapRefspec, Mandatory := CapPush, Refspecs := ["a:b".toList, "c:d".toList],
      ExportMarks := [], ImportMarks := [] } (by decide)

/-- C15, as stated, fails: with the refspec bit set and an empty `Refspecs`
list no line carries the name `refspec`, and with the bit of signed-tags,
check-connectivity or no-private-update set no line is written for it. -/
theorem C15_thirteen_capabilities_counterexample :
    Capabilities.writeTo
        { Optional := CapRefspec, Mandatory := 0, Refspecs := [], ExportMarks := [],
          ImportMarks := [] } = some "\n".toList
    ∧ Capabilities.writeTo
        { Optional := CapCheckConnectivity, Mandatory := CapSignedTags ||| CapNoPrivateUpdate,
          Refspecs := [], ExportMarks := [], ImportMarks := [] } = some "\n".toList := by
  constructor <;> decide

/-- C15, amended: for each of connect, push, fetch, export, import, option,
bidi-import, export-marks and import-marks, whenever the bit is set in
`Mandatory` or `Optional` the output contains the line of that capability,
with the leading `*` when the bit is in `Mandatory` and bare when it is in
`Optional` only; for refspec the output contains one such line for each entry
of `Refspecs`. -/
theorem C15_capability_lines (c : Capabilities) :
    ∃ out : Str, Capabilities.writeTo c = some out
      ∧ (∀ t ∈ capTable c,
          (c.Mandatory.testBit t.1 = true → HasLine out ('*' :: (t.2.1 ++ t.2.2)))
          ∧ (c.Mandatory.testBit t.1 = false → c.Optional.testBit t.1 = true →
              HasLine out (t.2.1 ++ t.2.2)))
      ∧ (∀ v ∈ c.Refspecs,
          (c.Mandatory.testBit 6 = true → HasLine out ("*refspec ".toList ++ v))
          ∧ (c.Mandatory.testBit 6 = false → c.Optional.testBit 6 = true →
              HasLine out ("refspec ".toList ++ v))) := by
  refine ⟨_, Capabilities.writeTo_eq c, ?_, ?_⟩
  · intro t ht
    have hout : otherCapLines c ++ refspecLines c ++ ['\n']
        = [] ++ (capTable c).flatMap (capTableLine c) ++ (refspecLines c ++ ['\n']) := by
      rw [otherCapLines_eq_table, List.nil_append, List.append_assoc]
    rw [hout]
    constructor
    · intro hm
      exact HasLine_flatMap (capTable c) (capTableLine c) t _ ht
        (capTableLine_mandatory c t hm) (fun y _ => capLine_atLineStart _ _ _ _) [] _
        (Or.inl rfl)
    · intro hm ho
      exact HasLine_flatMap (capTable c) (capTableLine c) t _ ht
        (capTableLine_optional c t hm ho) (fun y _ => capLine_atLineStart _ _ _ _) [] _
        (Or.inl rfl)
  · intro v hv
    have hpre : AtLineStart (otherCapLines c) := by
      rw [otherCapLines_eq_table]
      exact atLineStart_flatMap _ _ fun y _ => capLine_atLineStart _ _ _ _
    constructor
    · intro hm
      exact HasLine_flatMap c.Refspecs _ v _ hv (refspecLine_mandatory c v hm)
        (fun y _ => capLine_atLineStart _ _ _ _) (otherCapLines c) ['\n'] hpre
    · intro hm ho
      exact HasLine_flatMap c.Refspecs _ v _ hv (refspecLine_optional c v hm ho)
        (fun y _ => capLine_atLineStart _ _ _ _) (otherCapLines c) ['\n'] hpre

/-- C15, amended, at the capability set with mandatory push, optional option
and one optional refspec. -/
theorem C15_capability_lines_witness :
    ∃ out : Str,
      Capabilities.writeTo
          { Optional := CapOption ||| CapRefspec, Mandatory := CapPush,
            Refspecs := ["a:b".toList], ExportMarks := [], ImportMarks := [] } = some out
      ∧ HasLine out "*push".toList ∧ HasLine out "option".toList
      ∧ HasLine out "refspec a:b".toList :=
  match C15_capability_lines
      { Optional := CapOption ||| CapRefspec, Mandatory := CapPush,
        Refspecs := ["a:b".toList], ExportMarks := [], ImportMarks := [] } with
  | ⟨out, hout, htab, href⟩ =>
    ⟨out, hout,
      (htab (1, "push".toList, []) (by simp [capTable])).1 (by decide),
      (htab (5, "option".toList, []) (by simp [capTable])).2 (by decide) (by decide),
      (href "a:b".toList (by simp)).2 (by decide) (by decide)⟩

/-- C18: `setError` stores the error when the latch is empty and the error is
non-nil and leaves the latch unchanged otherwise; it returns true exactly when
the latch is non-empty after the call; after any sequence of calls on an empty
latch the latch holds the first non-nil error passed, or is empty when there
was none. -/
theorem C18_setError_write_once :
    (∀ e : Err, setError none (some e) = (some e, true))
    ∧ setError none none = (none, false)
    ∧ (∀ (l : Err) (err : Option Err), setError (some l) err = (some l, true))
    ∧ (∀ latch err : Option Err, (setError latch err).2 = true ↔ (setError latch err).1 ≠ none)
    ∧ (∀ errs : List (Option Err),
        errs.foldl (fun latch err => (setError latch err).1) none = errs.findSome? id) := by
  refine ⟨?_, ?_, ?_, ?_, ?_⟩
  · intro e; simp [setError]
  · simp [setError]
  · intro l err; simp [setError]
  · intro latch err; simp [setError]
  · intro errs
    simpa using setError_foldl errs none

/-- C16: `CmdOption.runCommand` writes exactly `unsupported` and a newline
when `SetOption` returns `ErrUnsupportedOption`, `error <message>` and a
newline when it returns another error, and `ok` and a newline when it returns
no error; in each case nothing else is written and the value returned is the
result of that write, not the outcome of the helper. For the line
`option verbosity 1` and a helper that returns unsupported, the calls on the
writer are that one write and the flush. -/
theorem C16_option_outcomes (Quote : Str → Str) (h : Helper) (Key Value : Str) (bw : Writer) :
    (h.SetOption Key Value = some .ErrUnsupportedOption →
      CmdOption.runCommand Quote h Key Value bw
        = ({ bw with calls := bw.calls ++ [.WriteString "unsupported\n".toList] },
           bw.result bw.calls (.WriteString "unsupported\n".toList)))
    ∧ (∀ err : Err, h.SetOption Key Value = some err → err ≠ .ErrUnsupportedOption →
      CmdOption.runCommand Quote h Key Value bw
        = ({ bw with calls := bw.calls
              ++ [.WriteString ("error ".toList ++ err.Error Quote ++ "\n".toList)] },
           bw.result bw.calls
              (.WriteString ("error ".toList ++ err.Error Quote ++ "\n".toList))))
    ∧ (h.SetOption Key Value = none →
      CmdOption.runCommand Quote h Key Value bw
        = ({ bw with calls := bw.calls ++ [.WriteString "ok\n".toList] },
           bw.result bw.calls (.WriteString "ok\n".toList)))
    ∧ (h.SetOption "verbosity".toList "1".toList = some .ErrUnsupportedOption →
      ∀ config c0 : Config,
        readCommand "option verbosity 1\n".toList
          = some (.ok (.Option "verbosity".toList "1".toList), [])
        ∧ ∃ r, runner.runCommand Quote h config bw
              { Config := c0, cmd := .Option "verbosity".toList "1".toList } = some r
            ∧ r.1.calls = bw.calls ++ [.WriteString "unsupported\n".toList, .Flush]) := by
  refine ⟨?_, ?_, ?_, ?_⟩
  · intro hs
    simp [CmdOption.runCommand, hs, Writer.call]
  · intro err hs hne
    unfold CmdOption.runCommand
    rw [hs]
    cases err <;> first | exact absurd rfl hne | rfl
  · intro hs
    simp [CmdOption.runCommand, hs, Writer.call]
  · intro hs config c0
    refine ⟨by decide, ?_⟩
    have hrun : CmdOption.runCommand Quote h "verbosity".toList "1".toList bw
        = bw.call (.WriteString "unsupported\n".toList) := by
      unfold CmdOption.runCommand
      rw [hs]
    simp only [runner.runCommand, CommandValue.setConfig, CommandValue.runCommand, hrun,
      Option.map_some']
    exact ⟨_, rfl, by simp [Writer.call]⟩

/-- C16 at the sample helper: an unknown option, a rejected value and an
accepted value, on a writer that does not fail and on one that does. -/
theorem C16_option_outcomes_witness :
    CmdOption.runCommand id sampleHelper "depth".toList "1".toList sampleWriter
      = ({ sampleWriter with calls := [.WriteString "unsupported\n".toList] }, none)
    ∧ CmdOption.runCommand id sampleHelper "verbosity".toList "9".toList sampleWriter
      = ({ sampleWriter with calls := [.WriteString "error bad verbosity\n".toList] }, none)
    ∧ CmdOption.runCommand id sampleHelper "verbosity".toList "1".toList brokenWriter
      = ({ brokenWriter with calls := [.WriteString "ok\n".toList] },
          some (.other "broken pipe".toList)) :=
  ⟨(C16_option_outcomes id sampleHelper "depth".toList "1".toList sampleWriter).1 (by decide),
    (C16_option_outcomes id sampleHelper "verbosity".toList "9".toList sampleWriter).2.1
      (.other "bad verbosity".toList) (by decide) (by decide),
    (C16_option_outcomes id sampleHelper "verbosity".toList "1".toList brokenWriter).2.2.1
      (by decide)⟩

/-- C17: when the helper's `Push` returns no error, `CmdPush.runCommand`
writes the result block of all requests as the helper left them, and returns
the result of that write, no error when the write succeeds, whatever the
requests' `Ok` and `Err` are; when `Push` returns an error, it writes nothing
and returns that error. -/
theorem C17_push_outcomes (h : Helper) (config : Config) (c : CmdPush) (bw : Writer) :
    (∀ c' : CmdPush, h.Push config c = (c', none) →
      CmdPush.runCommand h config c bw
        = ({ bw with calls := bw.calls ++ [.Write (c'.Refs.flatMap pushRefLine ++ ['\n'])] },
           bw.result bw.calls (.Write (c'.Refs.flatMap pushRefLine ++ ['\n'])))
      ∧ (bw.result bw.calls (.Write (c'.Refs.flatMap pushRefLine ++ ['\n'])) = none →
          (CmdPush.runCommand h config c bw).2 = none))
    ∧ (∀ (c' : CmdPush) (err : Err), h.Push config c = (c', some err) →
      CmdPush.runCommand h config c bw = (bw, some err)) := by
  constructor
  · intro c' hp
    have hw : pushRefSlice.writeTo c'.Refs = c'.Refs.flatMap pushRefLine ++ ['\n'] := by
      simp [pushRefSlice.writeTo, writeRune, pushRef_foldl]
    have hrun : CmdPush.runCommand h config c bw
        = ({ bw with calls := bw.calls ++ [.Write (c'.Refs.flatMap pushRefLine ++ ['\n'])] },
           bw.result bw.calls (.Write (c'.Refs.flatMap pushRefLine ++ ['\n']))) := by
      simp [CmdPush.runCommand, hp, hw, Writer.call]
    refine ⟨hrun, ?_⟩
    intro hres
    rw [hrun]
    exact hres
  · intro c' err hp
    simp [CmdPush.runCommand, hp]

/-- C17 at the sample helper: a batch with one accepted and one rejected
request, and a batch that the helper refuses as a whole. -/
theorem C17_push_outcomes_witness :
    CmdPush.runCommand sampleHelper sampleConfig
        { Refs := [{ Src := "a".toList, Dst := "refs/heads/a".toList, Force := false,
                     Ok := false, Err := none },
                   { Src := "b".toList, Dst := "refs/heads/b".toList, Force := false,
                     Ok := false, Err := none }],
          Options := [] } sampleWriter
      = ({ sampleWriter with calls :=
            [.Write "ok refs/heads/a\nerror refs/heads/b not fast-forward\n\n".toList] }, none)
    ∧ CmdPush.runCommand sampleHelper sampleConfig
        { Refs := [{ Src := "a".toList, Dst := "refs/heads/a".toList, Force := false,
                     Ok := false, Err := none }],
          Options := ["dry-run".toList] } sampleWriter
      = (sampleWriter, some (.other "options are not supported".toList)) :=
  ⟨((C17_push_outcomes sampleHelper sampleConfig
      { Refs := [{ Src := "a".toList, Dst := "refs/heads/a".toList, Force := false,
                   Ok := false, Err := none },
                 { Src := "b".toList, Dst := "refs/heads/b".toList, Force := false,
                   Ok := false, Err := none }],
        Options := [] } sampleWriter).1
      { Refs := [{ Src := "a".toList, Dst := "refs/heads/a".toList, Force := false,
                   Ok := true, Err := none },
                 { Src := "b".toList, Dst := "refs/heads/b".toList, Force := false,
                   Ok := false, Err := some "not fast-forward".toList }],
        Options := [] } rfl).1,
    (C17_push_outcomes sampleHelper sampleConfig
      { Refs := [{ Src := "a".toList, Dst := "refs/heads/a".toList, Force := false,
                   Ok := false, Err := none }],
        Options := ["dry-run".toList] } sampleWriter).2
      { Refs := [{ Src := "a".toList, Dst := "refs/heads/a".toList, Force := false,
                   Ok := false, Err := none }],
        Options := ["dry-run".toList] } (.other "options are not supported".toList) rfl⟩

/-- C19: for every command `runner.runCommand` executes the command with the
session configuration attached (it does not panic), then calls `Flush` on the
writer, after everything the command wrote and also when the command returned
an error; it returns the command's error when that is non-nil and the error
of the flush otherwise. -/
theorem C19_runCommand_flushes (Quote : Str → Str) (h : Helper) (config : Config)
    (bw : Writer) (cmd : CommandValue) :
    (cmd.setConfig config).Config = config ∧ (cmd.setConfig config).cmd = cmd.cmd
    ∧ ∃ (bw1 : Writer) (err1 : Option Err) (written : List WriterCall),
      CommandValue.runCommand Quote h { Config := config, cmd := cmd.cmd } bw = some (bw1, err1)
      ∧ bw1.calls = bw.calls ++ written
      ∧ runner.runCommand Quote h config bw cmd
        = some ({ bw1 with calls := bw.calls ++ written ++ [.Flush] },
                match err1 with
                | some e => some e
                | none => bw1.result bw1.calls .Flush) := by
  refine ⟨rfl, rfl, ?_⟩
  obtain ⟨bw1, err1, hrun, written, hw⟩ :=
    CommandValue.runCommand_some Quote h { Config := config, cmd := cmd.cmd } bw
  refine ⟨bw1, err1, written, hrun, hw, ?_⟩
  have hset : cmd.setConfig config = { Config := config, cmd := cmd.cmd } := rfl
  simp only [runner.runCommand, hset, hrun, Option.map_some', Writer.call, hw]
  cases err1 <;> simp

/-- C20, as stated, fails: for the input `capabilities` (one line) the reader
decodes the command and hands it over, then reads the end of the stream and
records `io.ErrUnexpectedEOF`, and only then does the loop enter
`r.runCommand` for the command: a command begins executing after an error
has been recorded in the latch. -/
theorem C20_session_counterexample :
    (Session.exec (fun _ _ => none) (.other "context canceled".toList)
        [.read, .handOver, .read, .begin] (Session.init "capabilities\n".toList)).map
      (fun s => (s.latch, s.trace))
      = some (some .ErrUnexpectedEOF,
          [.record none, .handedOver .Capabilities, .record (some .ErrUnexpectedEOF),
           .begin .Capabilities]) := by
  decide

/-- C20, amended: in every state that a session on the input `stdin` reaches,
under every schedule of the reader goroutine, the run loop and a cancellation:
the commands that began executing are, in order, a prefix of the commands on
the inbound stream; they ran one at a time, each flushed before the next
began; after the first error recorded in the latch no command is handed over
to the loop any more and at most one command, one handed over before, begins
executing; the latch, which `Run` returns when the loop has ended, holds the
first non-nil error passed to `setError`, or nil when there was none. Every
schedule has at most `4 * len(stdin) + 3` steps, and as long as the loop has
not ended some step is enabled, so every session ends. -/
theorem C20_session_order (runCommand : List Event → Command → Option Err) (ctxErr : Err)
    (stdin : Str) (acts : List Action) (s : Session)
    (h : Session.exec runCommand ctxErr acts (Session.init stdin) = some s) :
    (∃ cmds e, readCommands stdin = some (cmds, e) ∧ begun s.trace <+: cmds)
    ∧ serial s.trace = true
    ∧ lateCount Event.isHandOver s.trace = 0
    ∧ lateCount Event.isBegin s.trace ≤ 1
    ∧ s.latch = (recorded s.trace).findSome? id
    ∧ acts.length ≤ 4 * stdin.length + 3
    ∧ (s.loop ≠ .done → ∃ a s', Session.step runCommand ctxErr a s = some s') := by
  have hinv := Session.exec_inv runCommand ctxErr stdin acts _ s (Session.Inv.init stdin) h
  refine ⟨?_, ?_, hinv.lateHandOver, hinv.lateBegin, ?_, ?_,
    Session.step_enabled runCommand ctxErr s⟩
  · obtain ⟨⟨cmds, e⟩, hrc⟩ := readCommands_total stdin.length stdin (le_refl _)
    obtain ⟨rest, h1, _⟩ := hinv.order
    refine ⟨cmds, e, hrc, ?_⟩
    have hd : decoded stdin = cmds := by simp [decoded, hrc]
    rw [← hd, h1]
    exact ⟨s.loop.receivedCmds ++ s.reader.pending ++ rest, by simp⟩
  · simp [serial, hinv.serial]
  · rw [hinv.latch]
    simpa using setError_foldl (recorded s.trace) none
  · have hm := Session.exec_measure runCommand ctxErr acts _ s h
    simp only [Session.init, Session.measure, ReaderPc.rank, RunPc.rank] at hm
    simp at hm
    omega

/-- C20, amended, at the session on `capabilities` and a blank line in which
the command is decoded, handed over, run and flushed before the reader reads
the blank line and the loop sees the closed channel. -/
theorem C20_session_order_witness :
    Session.exec (fun _ _ => none) (.other "context canceled".toList)
        [.read, .handOver, .begin, .finish, .read, .closed]
        (Session.init "capabilities\n\n".toList)
      = some { br := [], latch := none, cancelled := false, reader := .done, loop := .done,
               trace := [.record none, .handedOver .Capabilities, .begin .Capabilities,
                         .flushed .Capabilities, .record none] }
    ∧ (∃ cmds e, readCommands "capabilities\n\n".toList = some (cmds, e)
        ∧ begun [.record none, .handedOver .Capabilities, .begin .Capabilities,
                 .flushed .Capabilities, .record none] <+: cmds)
    ∧ serial [.record none, .handedOver .Capabilities, .begin .Capabilities,
              .flushed .Capabilities, .record none] = true :=
  ⟨by decide,
    (C20_session_order (fun _ _ => none) (.other "context canceled".toList)
      "capabilities\n\n".toList [.read, .handOver, .begin, .finish, .read, .closed]
      { br := [], latch := none, cancelled := false, reader := .done, loop := .done,
        trace := [.record none, .handedOver .Capabilities, .begin .Capabilities,
                  .flushed .Capabilities, .record none] } (by decide)).1,
    (C20_session_order (fun _ _ => none) (.other "context canceled".toList)
      "capabilities\n\n".toList [.read, .handOver, .begin, .finish, .read, .closed]
      { br := [], latch := none, cancelled := false, reader := .done, loop := .done,
        trace := [.record none, .handedOver .Capabilities, .begin .Capabilities,
                  .flushed .Capabilities, .record none] } (by decide)).2.1⟩

/-- C21: `Capability.String` returns the wire name for each of the thirteen
single-bit values `1 << i`, `i < 13`; the thirteen names are pairwise
distinct; for every other value it panics, in particular for 0, for every
value with two or more bits set and for every bit above signed-tags. -/
theorem C21_capability_string :
    (∀ i, i < 13 → Capability.String (1 <<< i) = capabilityNames[i]?)
    ∧ capabilityNames.length = 13
    ∧ capabilityNames.Nodup
    ∧ (∀ c : Capability, (∀ i, i < 13 → c ≠ 1 <<< i) → Capability.String c = none)
    ∧ Capability.String 0 = none
    ∧ (∀ c i j : Nat, i ≠ j → c.testBit i = true → c.testBit j = true →
        Capability.String c = none)
    ∧ (∀ i, 13 ≤ i → Capability.String (1 <<< i) = none) := by
  refine ⟨Capability.String_shift, rfl, by decide, Capability.String_none, by decide, ?_, ?_⟩
  · intro c i j hij hi hj
    exact Capability.String_none c fun k _ => two_bits_ne_shift c i j k hij hi hj
  · intro i hi
    apply Capability.String_none
    intro k hk heq
    rw [Nat.one_shiftLeft, Nat.one_shiftLeft] at heq
    have := Nat.pow_right_injective (le_refl 2) heq
    omega

/-- C21 at the bit of export-marks, at the value `push|fetch` and at the bit
number 13. -/
theorem C21_capability_string_witness :
    Capability.String CapExportMarks = some "export-marks".toList
    ∧ Capability.String (CapPush ||| CapFetch) = none
    ∧ Capability.String (1 <<< 13) = none :=
  ⟨C21_capability_string.1 8 (by decide),
    C21_capability_string.2.2.2.2.2.1 (CapPush ||| CapFetch) 1 2 (by decide) (by decide)
      (by decide),
    C21_capability_string.2.2.2.2.2.2 13 (by decide)⟩

/-- C22: for a key without space and newline and a value without newline
(possibly empty, possibly with spaces), the line `option <key> <value>` read
in the root state yields a `CmdOption` with exactly that key and that value,
consuming that line only. -/
theorem C22_option_decode (key value rest : Str)
    (hkey : ' ' ∉ key) (hkeynl : '\n' ∉ key) (hvalue : '\n' ∉ value) :
    readCommand ("option ".toList ++ key ++ ' ' :: value ++ '\n' :: rest)
      = some (.ok (.Option key value), rest) := by
  have hnl : '\n' ∉ "option ".toList ++ key ++ ' ' :: value := by
    simp [hkeynl, hvalue]
  unfold readCommand
  rw [readCommandLoop_line _ _ _ hnl]
  simp only [stepLine, rootLine_option key value hkey]

/-- C22 at the key `verbosity` with the value `1 2  3` (spaces kept), followed
by a `list` command, and at the key `depth` with the empty value. -/
theorem C22_option_decode_witness :
    readCommand "option verbosity 1 2  3\nlist\n".toList
      = some (.ok (.Option "verbosity".toList "1 2  3".toList), "list\n".toList)
    ∧ readCommand "option depth \n".toList
      = some (.ok (.Option "depth".toList []), []) :=
  ⟨C22_option_decode "verbosity".toList "1 2  3".toList "list\n".toList
      (by decide) (by decide) (by decide),
    C22_option_decode "depth".toList [] [] (by decide) (by decide) (by decide)⟩

/-- C23: `Capabilities.writeTo` never panics: for every capability set, with
any bits in the masks, it returns a text; `String` is called only on the ten
constants that `writeTo` passes to `writeCap`, each of which is one of the
thirteen single-bit values, for which `String` returns a name. -/
theorem C23_writeTo_never_panics :
    (∀ c : Capabilities, ∃ out : Str, Capabilities.writeTo c = some out)
    ∧ (∀ c : Capabilities, ∀ cap ∈ Capabilities.writeToCalls c, cap ∈ writtenCaps)
    ∧ (∀ cap ∈ writtenCaps,
        (∃ i, i < 13 ∧ cap = 1 <<< i) ∧ ∃ name, Capability.String cap = some name)
    ∧ (∀ (c : Capabilities) (extra : Option (Str → Str)) (buf : Str), ∀ cap ∈ writtenCaps,
        ∃ b, writeCap c cap extra buf = some b) := by
  have hcaps : ∀ cap ∈ writtenCaps,
      (∃ i, i < 13 ∧ cap = 1 <<< i) ∧ ∃ name, Capability.String cap = some name := by
    intro cap hcap
    simp only [writtenCaps, List.mem_cons, List.mem_singleton, List.not_mem_nil, or_false]
      at hcap
    rcases hcap with h | h | h | h | h | h | h | h | h | h <;> subst h
    · exact ⟨⟨0, by omega, rfl⟩, _, rfl⟩
    · exact ⟨⟨1, by omega, rfl⟩, _, rfl⟩
    · exact ⟨⟨2, by omega, rfl⟩, _, rfl⟩
    · exact ⟨⟨3, by omega, rfl⟩, _, rfl⟩
    · exact ⟨⟨4, by omega, rfl⟩, _, rfl⟩
    · exact ⟨⟨5, by omega, rfl⟩, _, rfl⟩
    · exact ⟨⟨7, by omega, rfl⟩, _, rfl⟩
    · exact ⟨⟨8, by omega, rfl⟩, _, rfl⟩
    · exact ⟨⟨9, by omega, rfl⟩, _, rfl⟩
    · exact ⟨⟨6, by omega, rfl⟩, _, rfl⟩
  refine ⟨fun c => ⟨_, Capabilities.writeTo_eq c⟩, ?_, hcaps, ?_⟩
  · intro c cap hcap
    simp only [Capabilities.writeToCalls, List.mem_append, List.mem_flatMap] at hcap
    have hw := writeCapCalls_written c
    rcases hcap with ((((((((h | h) | h) | h) | h) | h) | h) | h) | h) | ⟨_, _, h⟩ <;>
      (rw [hw _ cap h]; simp [writtenCaps])
  · intro c extra buf cap hcap
    obtain ⟨_, name, hname⟩ := hcaps cap hcap
    unfold writeCap
    rw [hname]
    split
    · exact ⟨_, rfl⟩
    · split <;> exact ⟨_, rfl⟩

/-- C23 at a capability set whose masks carry several bits, among them bits
outside the enumeration and the bits of the three capabilities that are not
written. -/
theorem C23_writeTo_never_panics_witness :
    (∃ out : Str,
      Capabilities.writeTo
          { Optional := 1 <<< 20 ||| CapSignedTags ||| CapOption,
            Mandatory := 1 <<< 13 ||| CapCheckConnectivity ||| CapPush ||| CapRefspec,
            Refspecs := ["a:b".toList], ExportMarks := [], ImportMarks := [] } = some out)
    ∧ CapRefspec ∈ writtenCaps
    ∧ ∃ b, writeCap
        { Optional := 1 <<< 20, Mandatory := 0, Refspecs := [], ExportMarks := [],
          ImportMarks := [] } CapRefspec none [] = some b :=
  ⟨C23_writeTo_never_panics.1 _, by decide,
    C23_writeTo_never_panics.2.2.2 _ none [] CapRefspec (by decide)⟩

/-- C24: when the refspec bit is in neither mask, `Capabilities.writeTo`
writes no refspec line whatever `Refspecs` contains: the text is the one
written for the same capability set with an empty `Refspecs` list. -/
theorem C24_no_refspec_bit (c : Capabilities)
    (hm : c.Mandatory.testBit 6 = false) (ho : c.Optional.testBit 6 = false) :
    Capabilities.writeTo c = Capabilities.writeTo { c with Refspecs := [] }
    ∧ Capabilities.writeTo c = some (otherCapLines c ++ ['\n']) := by
  have h1 : refspecLines c = [] := by
    simp [refspecLines, capLine, hm, ho]
  have h2 : refspecLines { c with Refspecs := [] } = [] := by
    simp [refspecLines]
  have h3 : otherCapLines { c with Refspecs := [] } = otherCapLines c := rfl
  rw [Capabilities.writeTo_eq, Capabilities.writeTo_eq, h1, h2, h3]
  simp

/-- C24 at a capability set with mandatory push, no refspec bit and two
refspecs. -/
theorem C24_no_refspec_bit_witness :
    Capabilities.writeTo
        { Optional := CapOption, Mandatory := CapPush, Refspecs := ["a:b".toList, "c:d".toList],
          ExportMarks := [], ImportMarks := [] }
      = Capabilities.writeTo
        { Optional := CapOption, Mandatory := CapPush, Refspecs := [], ExportMarks := [],
          ImportMarks := [] } :=
  (C24_no_refspec_bit
    { Optional := CapOption, Mandatory := CapPush, Refspecs := ["a:b".toList, "c:d".toList],
      ExportMarks := [], ImportMarks := [] } (by decide) (by decide)).1

/-- C25: every request of a push batch returned by the decoder has `Ok` unset
and `Err` nil; hence, for a decoded push batch and a helper whose `Push`
returns no error and leaves the requests as they are, `CmdPush.runCommand`
writes one line `error <Dst>` per request in input order, followed by the
empty line. -/
theorem C25_decoded_push_reports_failed :
    (∀ (br : Str) (c : CmdPush) (rest : Str),
      readCommand br = some (.ok (.Push c), rest) →
      ∀ ref ∈ c.Refs, ref.Ok = false ∧ ref.Err = none)
    ∧ (∀ (br : Str) (c : CmdPush) (rest : Str) (h : Helper) (config : Config) (bw : Writer),
      readCommand br = some (.ok (.Push c), rest) →
      h.Push config c = (c, none) →
      CmdPush.runCommand h config c bw
        = ({ bw with calls := bw.calls
              ++ [.Write ((c.Refs.flatMap fun ref => "error ".toList ++ ref.Dst ++ ['\n'])
                    ++ ['\n'])] },
           bw.result bw.calls
              (.Write ((c.Refs.flatMap fun ref => "error ".toList ++ ref.Dst ++ ['\n'])
                    ++ ['\n'])))) := by
  have hfresh : ∀ (br : Str) (c : CmdPush) (rest : Str),
      readCommand br = some (.ok (.Push c), rest) → ∀ ref ∈ c.Refs, ref.fresh := by
    intro br c rest hread
    exact readCommandLoop_fresh _ .root br _ rest trivial hread
  refine ⟨hfresh, ?_⟩
  intro br c rest h config bw hread hpush
  have hw : pushRefSlice.writeTo c.Refs
      = (c.Refs.flatMap fun ref => "error ".toList ++ ref.Dst ++ ['\n']) ++ ['\n'] := by
    rw [← pushRefLine_fresh c.Refs (hfresh br c rest hread)]
    simp [pushRefSlice.writeTo, writeRune, pushRef_foldl]
  simp only [CmdPush.runCommand, hpush, hw, Writer.call]

/-- C25 at the batch of `push a:b` and `push +c:d` and a helper that leaves
the requests untouched. -/
theorem C25_decoded_push_reports_failed_witness :
    readCommand "push a:b\npush +c:d\n\n".toList
      = some (.ok (.Push
          { Refs := [{ Src := "a".toList, Dst := "b".toList, Force := false, Ok := false,
                       Err := none },
                     { Src := "c".toList, Dst := "d".toList, Force := true, Ok := false,
                       Err := none }],
            Options := [] }), [])
    ∧ CmdPush.runCommand idleHelper sampleConfig
        { Refs := [{ Src := "a".toList, Dst := "b".toList, Force := false, Ok := false,
                     Err := none },
                   { Src := "c".toList, Dst := "d".toList, Force := true, Ok := false,
                     Err := none }],
          Options := [] } sampleWriter
      = ({ sampleWriter with calls := [.Write "error b\nerror d\n\n".toList] }, none) :=
  ⟨by decide,
    C25_decoded_push_reports_failed.2 "push a:b\npush +c:d\n\n".toList
      { Refs := [{ Src := "a".toList, Dst := "b".toList, Force := false, Ok := false,
                   Err := none },
                 { Src := "c".toList, Dst := "d".toList, Force := true, Ok := false,
                   Err := none }],
        Options := [] } [] idleHelper sampleConfig sampleWriter (by decide) rfl⟩

end GitRemote
